import Mathlib

/-!
# A verification development for the thread-safe malloc of `my_malloc.c`

The C program keeps an intrusive, address-ordered, singly linked list of free
blocks.  Every block starts with a `MetaData` header (`size`, `next`) followed
by its payload.  The embedding below keeps the header memory explicit: a state
holds the header stored at every address, the global list head, the per-thread
list heads, the byte counter and the program break managed by `sbrk`.

`size_t` and pointer arithmetic are modelled on `Nat` with explicit reduction
modulo `2 ^ 64` wherever the C code computes a sum.
-/

namespace TSMalloc

/-! ## Data model -/

/-- Header of each allocated or freed block (`struct MetaData_tag`). -/
structure MetaData where
  size : Nat
  next : Nat
deriving DecidableEq, Repr

/-- The null pointer. -/
abbrev NULL : Nat := 0

/-- The value of `sizeof(MetaData)`: two 8-byte fields. -/
abbrev METADATA_SIZE : Nat := 16

/-- Number of values of a 64-bit `size_t` or pointer. -/
abbrev WORD : Nat := 2 ^ 64

/-- The value `(void *) -1` with which `sbrk` signals failure. -/
abbrev SBRK_FAILED : Nat := 2 ^ 64 - 1

/-- Values of type `MetaData **`: the places that hold a link of a free list.
`head` is `&free_blk_list_head`, `tls t` is `&__free_blk_list_head` of thread `t`,
`next b` is `&b->next`. -/
inductive Loc where
  | head : Loc
  | tls (t : Nat) : Loc
  | next (b : Nat) : Loc
deriving DecidableEq, Repr

/-- Program state: header memory, the globals of `my_malloc.h`, and the part of
the operating system state that `sbrk` reads and writes.

Header memory is abstracted to one `MetaData` record per address: the record at
`a` stands for the 16 bytes `[a, a + 16)` read as a header.  A write to a field
of the header at `b` changes the record at `b` only.  This agrees with the flat
memory of the C program as long as the headers that are read and written lie
at least `METADATA_SIZE` bytes apart, as the headers of pairwise disjoint
blocks do; it does not describe what the C program does to two headers that
overlap. -/
structure State where
  /-- the header stored at each address -/
  mem : Nat → MetaData
  /-- head pointer of the global list of freed blocks -/
  free_blk_list_head : Nat
  /-- head pointer of each thread (`__thread MetaData * __free_blk_list_head`) -/
  tls_free_blk_list_head : Nat → Nat
  /-- entire heap memory, metadata included -/
  entire_heap_size : Nat
  /-- lowest address the program break may take -/
  heap_start : Nat
  /-- current program break -/
  brk : Nat
  /-- highest address the operating system grants to the program break -/
  heap_limit : Nat

/-- Write `b->size = v`: only the record at `b` changes (headers that overlap the
one at `b` are outside the abstraction, see `State`). -/
def State.setSize (s : State) (b v : Nat) : State :=
  { s with mem := fun a => if a = b then { s.mem a with size := v } else s.mem a }

/-- Write `b->next = v`: only the record at `b` changes (headers that overlap the
one at `b` are outside the abstraction, see `State`). -/
def State.setNext (s : State) (b v : Nat) : State :=
  { s with mem := fun a => if a = b then { s.mem a with next := v } else s.mem a }

/-- Read `*l` for `l : MetaData **`. -/
def State.load (s : State) : Loc → Nat
  | Loc.head => s.free_blk_list_head
  | Loc.tls t => s.tls_free_blk_list_head t
  | Loc.next b => (s.mem b).next

/-- Write `*l = v` for `l : MetaData **`. -/
def State.store (s : State) (l : Loc) (v : Nat) : State :=
  match l with
  | Loc.head => { s with free_blk_list_head := v }
  | Loc.tls t =>
      { s with tls_free_blk_list_head := fun u => if u = t then v else s.tls_free_blk_list_head u }
  | Loc.next b => s.setNext b v

/-- The state of a fresh process: empty lists, counter zero, the break at the
start of the heap. -/
def initState (start limit : Nat) : State :=
  { mem := fun _ => ⟨0, 0⟩
    free_blk_list_head := NULL
    tls_free_blk_list_head := fun _ => NULL
    entire_heap_size := 0
    heap_start := start
    brk := start
    heap_limit := limit }

/-! ## The operating system call -/

/-- The call `sbrk(increment)`.  The argument is the 64-bit pattern the C code
passes; `sbrk` reads it as a signed `intptr_t`.  On success the break moves by
the increment and the previous break is returned; when the new break would
leave `[heap_start, heap_limit]` the call fails, returns `(void *) -1` and
leaves the break where it was. -/
def sbrk (increment : Nat) (s : State) : Nat × State :=
  if increment < 2 ^ 63 then
    if s.brk + increment ≤ s.heap_limit then
      (s.brk, { s with brk := s.brk + increment })
    else (SBRK_FAILED, s)
  else
    if s.heap_start + (WORD - increment) ≤ s.brk then
      (s.brk, { s with brk := s.brk - (WORD - increment) })
    else (SBRK_FAILED, s)

/-! ## The functions of `my_malloc.c` -/

/-- Pop the block `*ptr` from the list of freed blocks and split it into the
expected size if possible; returns the address of the data part. -/
def popFreeBlk (ptr : Loc) (expect_size : Nat) (s : State) : Nat × State :=
  let alloc_blk := (s.load ptr + METADATA_SIZE) % WORD
  if (s.mem (s.load ptr)).size > (expect_size + METADATA_SIZE) % WORD then
    let remaining_blk := (s.load ptr + METADATA_SIZE + expect_size) % WORD
    let s1 := s.setSize remaining_blk
      ((s.mem (s.load ptr)).size - (expect_size + METADATA_SIZE) % WORD)
    let s2 := s1.setNext remaining_blk (s1.mem (s1.load ptr)).next
    let s3 := s2.setSize (s2.load ptr) expect_size
    let s4 := s3.store ptr remaining_blk
    (alloc_blk, s4)
  else
    (alloc_blk, s.store ptr (s.mem (s.load ptr)).next)

/-- Request a new block from the operating system by `sbrk`.  The result of
`sbrk` is used without a test. -/
def reqSysBlk (size : Nat) (s : State) : Nat × State :=
  let r := sbrk ((METADATA_SIZE + size) % WORD) s
  let new_blk := r.1
  let s1 := r.2.setNext new_blk NULL
  let s2 := s1.setSize new_blk size
  let s3 := { s2 with
    entire_heap_size := (s2.entire_heap_size + (METADATA_SIZE + size) % WORD) % WORD }
  ((new_blk + METADATA_SIZE) % WORD, s3)

/-- Try to merge two consecutive blocks of the list of freed blocks if they are
adjacent; returns the merged block, or the last block if they are not. -/
def tryMergeAdjBlk (first second : Nat) (s : State) : Nat × State :=
  if first ≠ NULL ∧ second ≠ NULL ∧
      (first + METADATA_SIZE + (s.mem first).size) % WORD = second then
    let s1 := s.setNext first (s.mem second).next
    let s2 := s1.setSize first
      (((s1.mem first).size + (METADATA_SIZE + (s1.mem second).size) % WORD) % WORD)
    (first, s2)
  else if second = NULL then (first, s)
  else (second, s)

/-- The scanning loop of `ts_malloc_lock` and `ts_malloc_nolock`: `best_ptr` is
`none` for `NULL`.  The result is `none` when the fuel runs out before the loop
ends. -/
def scanBestFit (size : Nat) (s : State) :
    Nat → Option Loc → Loc → Option (Option Loc)
  | 0, _, _ => none
  | fuel + 1, best_ptr, ptr =>
    if s.load ptr = NULL then some best_ptr
    else if (s.mem (s.load ptr)).size = size then some (some ptr)
    else
      let best_ptr' :=
        match best_ptr with
        | none => if (s.mem (s.load ptr)).size > size then some ptr else none
        | some b =>
          if (s.mem (s.load ptr)).size > size ∧
              (s.mem (s.load ptr)).size < (s.mem (s.load b)).size
          then some ptr else some b
      scanBestFit size s fuel best_ptr' (Loc.next (s.load ptr))

/-- The loop of `ts_free_lock` and `ts_free_nolock` that walks to the place of
insertion; returns the final `it` and `prev_blk`. -/
def findInsertPos (insert_blk : Nat) (s : State) :
    Nat → Loc → Nat → Option (Loc × Nat)
  | 0, _, _ => none
  | fuel + 1, it, prev_blk =>
    if s.load it ≠ NULL ∧ s.load it < insert_blk then
      findInsertPos insert_blk s fuel (Loc.next (s.load it)) (s.load it)
    else some (it, prev_blk)

/-- The body shared by the two allocation functions once the list head to scan
is fixed. -/
def mallocFrom (hd : Loc) (fuel size : Nat) (s : State) : Option (Nat × State) :=
  if size = 0 then some (NULL, s)
  else
    match scanBestFit size s fuel none hd with
    | none => none
    | some none => some (reqSysBlk size s)
    | some (some best_ptr) => some (popFreeBlk best_ptr size s)

/-- The body shared by the two release functions once the list head is fixed. -/
def freeFrom (hd : Loc) (fuel ptr : Nat) (s : State) : Option State :=
  if ptr = NULL then some s
  else
    let insert_blk := (ptr + WORD - METADATA_SIZE) % WORD
    match findInsertPos insert_blk s fuel hd NULL with
    | none => none
    | some (it, prev_blk) =>
      let s1 := s.setNext insert_blk (s.load it)
      let s2 := s1.store it insert_blk
      let r := tryMergeAdjBlk prev_blk insert_blk s2
      let r2 := tryMergeAdjBlk r.1 (r.2.mem r.1).next r.2
      some r2.2

/-- Thread safe malloc, locking version.  The mutex brackets the whole body and
has no effect on a sequential run. -/
def ts_malloc_lock (fuel size : Nat) (s : State) : Option (Nat × State) :=
  if size = 0 then some (NULL, s)
  else
    match scanBestFit size s fuel none Loc.head with
    | none => none
    | some none => some (reqSysBlk size s)
    | some (some best_ptr) => some (popFreeBlk best_ptr size s)

/-- Thread safe free, locking version. -/
def ts_free_lock (fuel ptr : Nat) (s : State) : Option State :=
  if ptr = NULL then some s
  else
    let insert_blk := (ptr + WORD - METADATA_SIZE) % WORD
    match findInsertPos insert_blk s fuel Loc.head NULL with
    | none => none
    | some (it, prev_blk) =>
      let s1 := s.setNext insert_blk (s.load it)
      let s2 := s1.store it insert_blk
      let r := tryMergeAdjBlk prev_blk insert_blk s2
      let r2 := tryMergeAdjBlk r.1 (r.2.mem r.1).next r.2
      some r2.2

/-- Thread safe malloc, non-locking version, run by thread `tid`. -/
def ts_malloc_nolock (tid fuel size : Nat) (s : State) : Option (Nat × State) :=
  if size = 0 then some (NULL, s)
  else
    match scanBestFit size s fuel none (Loc.tls tid) with
    | none => none
    | some none => some (reqSysBlk size s)
    | some (some best_ptr) => some (popFreeBlk best_ptr size s)

/-- Thread safe free, non-locking version, run by thread `tid`. -/
def ts_free_nolock (tid fuel ptr : Nat) (s : State) : Option State :=
  if ptr = NULL then some s
  else
    let insert_blk := (ptr + WORD - METADATA_SIZE) % WORD
    match findInsertPos insert_blk s fuel (Loc.tls tid) NULL with
    | none => none
    | some (it, prev_blk) =>
      let s1 := s.setNext insert_blk (s.load it)
      let s2 := s1.store it insert_blk
      let r := tryMergeAdjBlk prev_blk insert_blk s2
      let r2 := tryMergeAdjBlk r.1 (r.2.mem r.1).next r.2
      some r2.2

/-! ## Free lists as chains of links -/

/-- The statement `Seg s a xs b`: following `next` from the pointer `a` visits
exactly the headers `xs`, none of them null, and arrives at the pointer `b`. -/
def Seg (s : State) : Nat → List Nat → Nat → Prop
  | a, [], b => a = b
  | a, x :: xs, b => a = x ∧ x ≠ NULL ∧ Seg s (s.load (Loc.next x)) xs b

instance Seg.decidable (s : State) : (a : Nat) → (xs : List Nat) → (b : Nat) →
    Decidable (Seg s a xs b)
  | a, [], b => inferInstanceAs (Decidable (a = b))
  | a, x :: xs, b =>
    haveI := Seg.decidable s (s.load (Loc.next x)) xs b
    inferInstanceAs (Decidable (a = x ∧ x ≠ NULL ∧ Seg s (s.load (Loc.next x)) xs b))

/-- The list headed by `hd` is the null-terminated chain of the headers `xs`. -/
def FreeList (s : State) (hd : Loc) (xs : List Nat) : Prop :=
  Seg s (s.load hd) xs NULL

instance FreeList.decidable (s : State) (hd : Loc) (xs : List Nat) :
    Decidable (FreeList s hd xs) :=
  inferInstanceAs (Decidable (Seg s (s.load hd) xs NULL))

/-- The place that holds the link to the entry of index `i` of the list `xs`
headed by `hd`. -/
def locAt (hd : Loc) (xs : List Nat) : Nat → Loc
  | 0 => hd
  | i + 1 => Loc.next (xs.getD i NULL)

/-! ## The scan seen on the list of sizes -/

/-- The payload sizes recorded in the headers `xs`. -/
def sizesOf (s : State) (xs : List Nat) : List Nat :=
  xs.map (fun a => (s.mem a).size)

/-- The scanning loop of the allocation functions read on the list of sizes of
the entries still to visit: `k` is the index of the entry under the cursor,
`best` the index and size of the candidate kept so far. -/
def bestFitAux (n : Nat) : List Nat → Nat → Option (Nat × Nat) → Option (Nat × Nat)
  | [], _, best => best
  | z :: zs, k, best =>
    if z = n then some (k, z)
    else
      bestFitAux n zs (k + 1)
        (match best with
         | none => if z > n then some (k, z) else none
         | some b => if z > n ∧ z < b.2 then some (k, z) else some b)

/-- Index of the entry the scan selects for a request of `n` bytes, if any. -/
def bestFit (n : Nat) (sizes : List Nat) : Option Nat :=
  (bestFitAux n sizes 0 none).map Prod.fst

/-- How the candidate `best_ptr` of the loop corresponds to the candidate of
`bestFitAux` when the cursor is at index `k`. -/
def BestRel (s : State) (hd : Loc) (xs : List Nat) (k : Nat) :
    Option Loc → Option (Nat × Nat) → Prop
  | none, none => True
  | some l, some b => b.1 < k ∧ l = locAt hd xs b.1 ∧ (s.mem (xs.getD b.1 NULL)).size = b.2
  | _, _ => False

/-! ## Well-formed free lists -/

/-- A well-formed free list: the list headed by the root `hd` is the chain of
the headers `xs`, the blocks are sorted by address and do not overlap, they lie
below the program break, and the heap lies in the 64-bit address space. -/
structure WF (s : State) (hd : Loc) (xs : List Nat) : Prop where
  root : ∀ b, hd ≠ Loc.next b
  chain : FreeList s hd xs
  disj : xs.Pairwise (fun a b => a + METADATA_SIZE + (s.mem a).size ≤ b)
  inHeap : ∀ a ∈ xs, a + METADATA_SIZE + (s.mem a).size ≤ s.brk
  brk_le : s.brk ≤ s.heap_limit
  limit_lt : s.heap_limit < WORD

/-- The two states agree on the break, the heap bounds and the byte counter. -/
def SameHeap (s s' : State) : Prop :=
  s'.brk = s.brk ∧ s'.heap_start = s.heap_start ∧ s'.heap_limit = s.heap_limit ∧
    s'.entire_heap_size = s.entire_heap_size

/-! ## The list operations seen on lists of blocks -/

/-- A block: the address of its header and its payload size. -/
abbrev Blk := Nat × Nat

/-- The blocks whose headers are `xs`, with the sizes recorded in memory. -/
def blocksOf (s : State) (xs : List Nat) : List Blk :=
  xs.map (fun a => (a, (s.mem a).size))

/-- Index at which the insertion loop of the release functions stops: the
number of leading entries with an address below `b`. -/
def insIdx (b : Nat) (xs : List Nat) : Nat := (xs.takeWhile (· < b)).length

/-- The value of `prev_blk` when the insertion loop stops at index `k`. -/
def prevAt (xs : List Nat) (k : Nat) : Nat :=
  if k = 0 then NULL else xs.getD (k - 1) NULL

/-- The effect of `popFreeBlk` on the list of blocks when the entry of index `i`
serves a request of `n` bytes: the allocated block and the new list. -/
def popA (n i : Nat) (L : List Blk) : Blk × List Blk :=
  match L[i]? with
  | none => ((NULL, 0), L)
  | some e =>
    if e.2 > n + METADATA_SIZE then
      ((e.1, n),
        L.take i ++ (e.1 + METADATA_SIZE + n, e.2 - (n + METADATA_SIZE)) :: L.drop (i + 1))
    else (e, L.take i ++ L.drop (i + 1))

/-- The effect of `tryMergeAdjBlk` on the list of blocks for the entries of
index `i` and `i + 1`: the index of the returned block and the new list. -/
def tryMergeA (i : Nat) (L : List Blk) : Nat × List Blk :=
  match L[i]?, L[i + 1]? with
  | some x, some y =>
    if x.1 + METADATA_SIZE + x.2 = y.1 then
      (i, L.take i ++ (x.1, x.2 + (METADATA_SIZE + y.2)) :: L.drop (i + 2))
    else (i + 1, L)
  | _, _ => (i, L)

/-- The list of blocks after the block `b` is linked in at its place. -/
def insertA (b : Blk) (L : List Blk) : List Blk :=
  L.take (insIdx b.1 (L.map Prod.fst)) ++ b :: L.drop (insIdx b.1 (L.map Prod.fst))

/-- The effect of the release functions on the list of blocks: insertion
followed by the two merge attempts. -/
def freeA (b : Blk) (L : List Blk) : List Blk :=
  let k := insIdx b.1 (L.map Prod.fst)
  let r := if k = 0 then (0, insertA b L) else tryMergeA (k - 1) (insertA b L)
  (tryMergeA r.1 r.2).2

/-- The facts about a chain that the pointer surgery of the list functions
relies on: the chain hangs from a root, has no repeated header, every block
ends at or below the break, and the break is a 64-bit address. -/
structure Chained (s : State) (hd : Loc) (xs : List Nat) : Prop where
  root : ∀ b, hd ≠ Loc.next b
  chain : FreeList s hd xs
  nodup : xs.Nodup
  inHeap : ∀ a ∈ xs, a + METADATA_SIZE + (s.mem a).size ≤ s.brk
  brk_lt : s.brk < WORD

/-! ## Properties of lists of blocks -/

/-- First address after the block: header address plus header plus payload. -/
def endOf (x : Blk) : Nat := x.1 + METADATA_SIZE + x.2

/-- The address ranges `[hdr, hdr + H + size)` of two blocks do not meet. -/
def DisjointBlk (x y : Blk) : Prop := endOf x ≤ y.1 ∨ endOf y ≤ x.1

instance (x y : Blk) : Decidable (DisjointBlk x y) :=
  inferInstanceAs (Decidable (endOf x ≤ y.1 ∨ endOf y ≤ x.1))

/-- Address-sorted and non-overlapping: every block ends at or before the start
of every later block. -/
def SortedDisj (L : List Blk) : Prop := L.Pairwise (fun x y => endOf x ≤ y.1)

/-- Strictly increasing by block address. -/
def AddrSorted (L : List Blk) : Prop := L.Pairwise (fun x y => x.1 < y.1)

/-- No two consecutive entries are address-adjacent. -/
def NoAdjacent (L : List Blk) : Prop := L.Chain' (fun x y => endOf x ≠ y.1)

/-- Every block ends strictly before the start of every later block: sorted,
non-overlapping and without adjacent entries. -/
def Separated (L : List Blk) : Prop := L.Pairwise (fun x y => endOf x < y.1)

instance (L : List Blk) : Decidable (SortedDisj L) :=
  inferInstanceAs (Decidable (L.Pairwise (fun (x y : Blk) => endOf x ≤ y.1)))

instance (L : List Blk) : Decidable (AddrSorted L) :=
  inferInstanceAs (Decidable (L.Pairwise (fun (x y : Blk) => x.1 < y.1)))

instance (L : List Blk) : Decidable (Separated L) :=
  inferInstanceAs (Decidable (L.Pairwise (fun (x y : Blk) => endOf x < y.1)))

/-- Sum of header plus payload bytes over the blocks. -/
def totalBytes (L : List Blk) : Nat := (L.map (fun x => METADATA_SIZE + x.2)).sum

/-- The first merge attempt on the list of blocks: `b` is absorbed by the last
block of `P` when that block ends where `b` starts.  Returns the blocks before
the merged block, and the merged block. -/
def absorbLeft (P : List Blk) (b : Blk) : List Blk × Blk :=
  match P.getLast? with
  | some p =>
    if endOf p = b.1 then (P.dropLast, (p.1, p.2 + (METADATA_SIZE + b.2))) else (P, b)
  | none => (P, b)

/-- The second merge attempt on the list of blocks: the block `l.2` absorbs the
first block of `Q` when that block starts where `l.2` ends. -/
def absorbRight (l : List Blk × Blk) (Q : List Blk) : List Blk :=
  match Q with
  | c :: Q' =>
    if endOf l.2 = c.1 then l.1 ++ (l.2.1, l.2.2 + (METADATA_SIZE + c.2)) :: Q'
    else l.1 ++ l.2 :: Q
  | [] => l.1 ++ [l.2]

/-- The list obtained from `P ++ b :: Q` when `b` is merged with the last block
of `P` if that block ends where `b` starts, and then with the first block of `Q`
if it starts where the merged block ends. -/
def coalesce (P : List Blk) (b : Blk) (Q : List Blk) : List Blk :=
  absorbRight (absorbLeft P b) Q

/-- The facts about the lists around the released block `b`: `P` holds the
free blocks below it, `Q` the free blocks above it, `U` the blocks that stay
allocated. -/
structure Around (P : List Blk) (b : Blk) (Q U : List Blk) : Prop where
  sepP : Separated P
  sepQ : Separated Q
  cross : ∀ x ∈ P, ∀ y ∈ Q, endOf x < y.1
  left : ∀ x ∈ P, endOf x ≤ b.1
  right : ∀ y ∈ Q, endOf b ≤ y.1
  disj : (b :: (P ++ (Q ++ U))).Pairwise DisjointBlk

/-! ## Reachable states -/

/-- The operating system answers the extension by `H + n` bytes with fresh
space contiguous with the prior heap end: `sbrk` returns the previous break and
the break has advanced. -/
def OsFresh (n : Nat) (s : State) : Prop :=
  (sbrk ((METADATA_SIZE + n) % WORD) s).1 = s.brk ∧
    s.brk < (sbrk ((METADATA_SIZE + n) % WORD) s).2.brk

instance (n : Nat) (s : State) : Decidable (OsFresh n s) :=
  inferInstanceAs (Decidable (_ ∧ _))

/-- The extension is answered with fresh space and the byte count `H + n` does
not wrap around `2 ^ 64`. -/
def OsGrants (n : Nat) (s : State) : Prop :=
  OsFresh n s ∧ METADATA_SIZE + n < WORD

instance (n : Nat) (s : State) : Decidable (OsGrants n s) :=
  inferInstanceAs (Decidable (_ ∧ _))

/-- The relation `Reach hd ok s A`: the state `s` is reached from a fresh
process by calls of the allocation and release functions on the list rooted at
`hd`, and `A` lists the pointers returned by an allocation and not yet freed.
Every release respects the precondition that its pointer is in `A`; every heap
extension satisfies `ok`. -/
inductive Reach (hd : Loc) (ok : Nat → State → Prop) : State → List Nat → Prop where
  | init (start limit : Nat) (h0 : 0 < start) (hl : start ≤ limit) (hw : limit < WORD) :
      Reach hd ok (initState start limit) []
  | malloc {s : State} {A : List Nat} (fuel n : Nat) (r : Nat × State) :
      Reach hd ok s A → n ≠ 0 → mallocFrom hd fuel n s = some r →
      (scanBestFit n s fuel none hd = some none → ok n s) →
      Reach hd ok r.2 (r.1 :: A)
  | malloc_zero {s : State} {A : List Nat} (fuel : Nat) (r : Nat × State) :
      Reach hd ok s A → mallocFrom hd fuel 0 s = some r → Reach hd ok r.2 A
  | free {s : State} {A : List Nat} (fuel p : Nat) (s' : State) :
      Reach hd ok s A → p ∈ A → freeFrom hd fuel p s = some s' →
      Reach hd ok s' (A.erase p)
  | free_null {s : State} {A : List Nat} (fuel : Nat) (s' : State) :
      Reach hd ok s A → freeFrom hd fuel NULL s = some s' → Reach hd ok s' A

/-- The invariant of the reachable states, for the chain `xs` of free headers
and the list `H` of headers of allocated blocks. -/
structure InvX (hd : Loc) (s : State) (xs H : List Nat) : Prop where
  wf : WF s hd xs
  sep : Separated (blocksOf s xs)
  disj : (blocksOf s xs ++ blocksOf s H).Pairwise DisjointBlk
  freeIn : ∀ a ∈ xs, s.heap_start ≤ a
  allocIn : ∀ a ∈ H, s.heap_start ≤ a ∧ a + METADATA_SIZE + (s.mem a).size ≤ s.brk
  startPos : 0 < s.heap_start
  total : totalBytes (blocksOf s xs ++ blocksOf s H) = s.entire_heap_size
  counter : s.heap_start + s.entire_heap_size = s.brk

/-- The invariant of the reachable states: `A` lists the allocated pointers. -/
def Inv (hd : Loc) (s : State) (A : List Nat) : Prop :=
  ∃ xs H, A = H.map (· + METADATA_SIZE) ∧ InvX hd s xs H

/-- The states reached by calls of `ts_malloc_lock` and `ts_free_lock` from a
fresh process; `A` lists the pointers returned by an allocation and not yet
freed.  Every `ts_free_lock` respects the precondition that its pointer is in
`A`; every heap extension satisfies `ok`. -/
inductive ReachLock (ok : Nat → State → Prop) : State → List Nat → Prop where
  | init (start limit : Nat) (h0 : 0 < start) (hl : start ≤ limit) (hw : limit < WORD) :
      ReachLock ok (initState start limit) []
  | malloc {s : State} {A : List Nat} (fuel n : Nat) (r : Nat × State) :
      ReachLock ok s A → n ≠ 0 → ts_malloc_lock fuel n s = some r →
      (scanBestFit n s fuel none Loc.head = some none → ok n s) →
      ReachLock ok r.2 (r.1 :: A)
  | malloc_zero {s : State} {A : List Nat} (fuel : Nat) (r : Nat × State) :
      ReachLock ok s A → ts_malloc_lock fuel 0 s = some r → ReachLock ok r.2 A
  | free {s : State} {A : List Nat} (fuel p : Nat) (s' : State) :
      ReachLock ok s A → p ∈ A → ts_free_lock fuel p s = some s' →
      ReachLock ok s' (A.erase p)
  | free_null {s : State} {A : List Nat} (fuel : Nat) (s' : State) :
      ReachLock ok s A → ts_free_lock fuel NULL s = some s' → ReachLock ok s' A

/-- The header address the release functions compute from a payload pointer:
`(void *) ptr - METADATA_SIZE`. -/
def hdrOf (p : Nat) : Nat := (p + WORD - METADATA_SIZE) % WORD

/-- The blocks that are currently allocated, given the pointers handed out. -/
def allocBlocks (s : State) (A : List Nat) : List Blk := blocksOf s (A.map hdrOf)

/-- A call of the allocator. -/
inductive Op where
  | malloc (n : Nat) : Op
  | free (p : Nat) : Op
deriving DecidableEq, Repr

/-- One call of the locking variant on a state with its list of allocated
pointers; `none` when the call is not admitted: the fuel is too small, a
release does not respect its precondition, or a heap extension violates `ok`. -/
def stepLock (ok : Nat → State → Bool) (fuel : Nat) (c : State × List Nat) :
    Op → Option (State × List Nat)
  | Op.malloc n =>
    match ts_malloc_lock fuel n c.1 with
    | none => none
    | some r =>
      if n = 0 then some (r.2, c.2)
      else if scanBestFit n c.1 fuel none Loc.head = some none ∧ ok n c.1 = false then none
      else some (r.2, r.1 :: c.2)
  | Op.free p =>
    if p ∈ c.2 then
      match ts_free_lock fuel p c.1 with
      | none => none
      | some s' => some (s', c.2.erase p)
    else none

/-- A run of calls of the locking variant. -/
def runLock (ok : Nat → State → Bool) (fuel : Nat) :
    List Op → State × List Nat → Option (State × List Nat)
  | [], c => some c
  | op :: ops, c =>
    match stepLock ok fuel c op with
    | none => none
    | some c' => runLock ok fuel ops c'

/-- The final state and allocated pointers of a run from a fresh process, or the
fresh process itself if the run is not admitted. -/
def runFrom (ok : Nat → State → Bool) (fuel start limit : Nat) (ops : List Op) :
    State × List Nat :=
  (runLock ok fuel ops (initState start limit, [])).getD (initState start limit, [])

/-- Decision of `OsFresh`, for runs. -/
def okFresh (n : Nat) (s : State) : Bool := decide (OsFresh n s)

/-- Decision of `OsGrants`, for runs. -/
def okGrants (n : Nat) (s : State) : Bool := decide (OsGrants n s)

/-- The free-list blocks and the allocated blocks are pairwise disjoint. -/
def AllDisjoint (hd : Loc) (s : State) (A : List Nat) : Prop :=
  ∃ xs, FreeList s hd xs ∧ (blocksOf s xs ++ allocBlocks s A).Pairwise DisjointBlk

/-- The sum of header plus payload bytes over every block, free-listed or
allocated, equals the byte counter. -/
def BytesAccounted (hd : Loc) (s : State) (A : List Nat) : Prop :=
  ∃ xs, FreeList s hd xs ∧
    totalBytes (blocksOf s xs ++ allocBlocks s A) = s.entire_heap_size

/-- No two consecutive entries of the free list are address-adjacent. -/
def FreeListNoAdjacent (hd : Loc) (s : State) : Prop :=
  ∃ xs, FreeList s hd xs ∧ NoAdjacent (blocksOf s xs)

/-- A small reachable state used to instantiate the theorems: after
`allocate 64; allocate 128; free` of the first pointer on a fresh heap at
address 4096, the free list is `[4096]` (size 64), the block at 4176 (size
128) is allocated and the break is 4320. -/
def demoState : State :=
  (runFrom okGrants 4 4096 65536 [Op.malloc 64, Op.malloc 128, Op.free 4112]).1

/-- The free list rooted at `hd` is strictly increasing by block address. -/
def FreeListSorted (hd : Loc) (s : State) : Prop :=
  ∃ xs, FreeList s hd xs ∧ xs.Pairwise (· < ·)

/-- A state reached when a request of `2 ^ 64 - 8` bytes wraps the byte count
passed to `sbrk`: after `allocate (2 ^ 64 - 8); allocate 8; allocate 8` and the
release of the first and third pointers, the free list is `[4096, 4128]` and
the entry at 4096 records `2 ^ 64 - 8` bytes although the break is 4152. -/
def wrapState : State × List Nat :=
  runFrom okFresh 4 4096 65536
    [Op.malloc (2 ^ 64 - 8), Op.malloc 8, Op.malloc 8, Op.free 4112, Op.free 4144]

/-- The state after `allocate 10` and the release of its pointer on a fresh heap
at address 4096: the free list is `[4096]`, its entry records 10 bytes and ends
at the break 4122. -/
def edgeState : State :=
  (runFrom okGrants 4 4096 65536 [Op.malloc 10, Op.free 4112]).1

/-- The entry `e` of the list `xs` is the best fit for a request of `n` bytes,
in the words of the specification: it is large enough, no large enough entry
is smaller, and it has the lowest address among the large enough entries of
its size. -/
def IsBestFit (s : State) (xs : List Nat) (n e : Nat) : Prop :=
  e ∈ xs ∧ n ≤ (s.mem e).size ∧
    (∀ a ∈ xs, n ≤ (s.mem a).size → (s.mem e).size ≤ (s.mem a).size) ∧
    (∀ a ∈ xs, n ≤ (s.mem a).size → (s.mem a).size = (s.mem e).size → e ≤ a)

/-- The address `addr` lies in the range `[hdr, hdr + H + size)` of one of the
blocks of `L`. -/
def Covered (L : List Blk) (addr : Nat) : Prop :=
  ∃ x ∈ L, x.1 ≤ addr ∧ addr < endOf x

/-- The blocks of the free list whose header lies below the header `b`: the
entries the insertion loop of the release functions walks past. -/
def blocksBelow (s : State) (xs : List Nat) (b : Nat) : List Blk :=
  blocksOf s (xs.take (insIdx b xs))

/-- The blocks of the free list from the place of insertion of the header `b`
on. -/
def blocksAbove (s : State) (xs : List Nat) (b : Nat) : List Blk :=
  blocksOf s (xs.drop (insIdx b xs))

/-- A state of the thread-local variant in which thread 1 has allocated 64 and
32 bytes on a fresh heap at 4096 and released the first pointer: the list of
thread 1 is `[4096]`, the block at 4176 (32 bytes) is allocated, the list of
every other thread is empty. -/
def handoffState : State :=
  match ts_malloc_nolock 1 4 64 (initState 4096 65536) with
  | none => initState 4096 65536
  | some r1 =>
    match ts_malloc_nolock 1 4 32 r1.2 with
    | none => initState 4096 65536
    | some r2 => (ts_free_nolock 1 4 r1.1 r2.2).getD (initState 4096 65536)

/-! # Theorems -/

theorem ts_malloc_lock_eq (fuel size : Nat) (s : State) :
    ts_malloc_lock fuel size s = mallocFrom Loc.head fuel size s := rfl

theorem ts_malloc_nolock_eq (tid fuel size : Nat) (s : State) :
    ts_malloc_nolock tid fuel size s = mallocFrom (Loc.tls tid) fuel size s := rfl

theorem ts_free_lock_eq (fuel ptr : Nat) (s : State) :
    ts_free_lock fuel ptr s = freeFrom Loc.head fuel ptr s := rfl

theorem ts_free_nolock_eq (tid fuel ptr : Nat) (s : State) :
    ts_free_nolock tid fuel ptr s = freeFrom (Loc.tls tid) fuel ptr s := rfl

/-! ## Reading the state after a write -/

@[simp] theorem size_setSize (s : State) (b v a : Nat) :
    ((s.setSize b v).mem a).size = if a = b then v else (s.mem a).size := by
  unfold State.setSize; by_cases h : a = b <;> simp [h]

@[simp] theorem next_setSize (s : State) (b v a : Nat) :
    ((s.setSize b v).mem a).next = (s.mem a).next := by
  unfold State.setSize; by_cases h : a = b <;> simp [h]

@[simp] theorem size_setNext (s : State) (b v a : Nat) :
    ((s.setNext b v).mem a).size = (s.mem a).size := by
  unfold State.setNext; by_cases h : a = b <;> simp [h]

@[simp] theorem next_setNext (s : State) (b v a : Nat) :
    ((s.setNext b v).mem a).next = if a = b then v else (s.mem a).next := by
  unfold State.setNext; by_cases h : a = b <;> simp [h]

@[simp] theorem load_setSize (s : State) (b v : Nat) (l : Loc) :
    (s.setSize b v).load l = s.load l := by
  cases l <;> simp [State.load] <;> rfl

theorem load_setNext (s : State) (b v : Nat) (l : Loc) :
    (s.setNext b v).load l = if l = Loc.next b then v else s.load l := by
  cases l with
  | head => simp [State.load]; rfl
  | tls t => simp [State.load]; rfl
  | next c => simp [State.load]

theorem load_store (s : State) (l : Loc) (v : Nat) (l' : Loc) :
    (s.store l v).load l' = if l' = l then v else s.load l' := by
  cases l with
  | head => cases l' <;> simp [State.store, State.load]
  | tls t => cases l' <;> simp [State.store, State.load]
  | next b => simp [State.store, load_setNext]

@[simp] theorem size_store (s : State) (l : Loc) (v a : Nat) :
    ((s.store l v).mem a).size = (s.mem a).size := by
  cases l <;> simp [State.store]

@[simp] theorem brk_setSize (s : State) (b v : Nat) : (s.setSize b v).brk = s.brk := rfl
@[simp] theorem brk_setNext (s : State) (b v : Nat) : (s.setNext b v).brk = s.brk := rfl
@[simp] theorem brk_store (s : State) (l : Loc) (v : Nat) : (s.store l v).brk = s.brk := by
  cases l <;> rfl
@[simp] theorem limit_setSize (s : State) (b v : Nat) :
    (s.setSize b v).heap_limit = s.heap_limit := rfl
@[simp] theorem limit_setNext (s : State) (b v : Nat) :
    (s.setNext b v).heap_limit = s.heap_limit := rfl
@[simp] theorem limit_store (s : State) (l : Loc) (v : Nat) :
    (s.store l v).heap_limit = s.heap_limit := by
  cases l <;> rfl
@[simp] theorem start_setSize (s : State) (b v : Nat) :
    (s.setSize b v).heap_start = s.heap_start := rfl
@[simp] theorem start_setNext (s : State) (b v : Nat) :
    (s.setNext b v).heap_start = s.heap_start := rfl
@[simp] theorem start_store (s : State) (l : Loc) (v : Nat) :
    (s.store l v).heap_start = s.heap_start := by
  cases l <;> rfl
@[simp] theorem ehs_setSize (s : State) (b v : Nat) :
    (s.setSize b v).entire_heap_size = s.entire_heap_size := rfl
@[simp] theorem ehs_setNext (s : State) (b v : Nat) :
    (s.setNext b v).entire_heap_size = s.entire_heap_size := rfl
@[simp] theorem ehs_store (s : State) (l : Loc) (v : Nat) :
    (s.store l v).entire_heap_size = s.entire_heap_size := by
  cases l <;> rfl

/-! ## Chains -/

theorem Seg.congr {s s' : State} {xs : List Nat}
    (h : ∀ x ∈ xs, s'.load (Loc.next x) = s.load (Loc.next x)) :
    ∀ {a b : Nat}, Seg s a xs b → Seg s' a xs b := by
  induction xs with
  | nil => intro a b hs; exact hs
  | cons x xs ih =>
    intro a b hs
    obtain ⟨h1, h2, h3⟩ := hs
    refine ⟨h1, h2, ?_⟩
    rw [h x (List.mem_cons_self _ _)]
    exact ih (fun y hy => h y (List.mem_cons_of_mem _ hy)) h3

theorem Seg.append {s : State} {xs ys : List Nat} :
    ∀ {a b c : Nat}, Seg s a xs b → Seg s b ys c → Seg s a (xs ++ ys) c := by
  induction xs with
  | nil => intro a b c h1 h2; cases h1; exact h2
  | cons x xs ih =>
    intro a b c h1 h2
    exact ⟨h1.1, h1.2.1, ih h1.2.2 h2⟩

theorem Seg.split {s : State} {xs ys : List Nat} :
    ∀ {a c : Nat}, Seg s a (xs ++ ys) c →
      ∃ b, Seg s a xs b ∧ Seg s b ys c := by
  induction xs with
  | nil => intro a c h; exact ⟨a, rfl, h⟩
  | cons x xs ih =>
    intro a c h
    obtain ⟨b, hb1, hb2⟩ := ih h.2.2
    exact ⟨b, ⟨h.1, h.2.1, hb1⟩, hb2⟩

theorem Seg.ne_null {s : State} {xs : List Nat} :
    ∀ {a b : Nat}, Seg s a xs b → ∀ x ∈ xs, x ≠ NULL := by
  induction xs with
  | nil => intro a b _ x hx; cases hx
  | cons y ys ih =>
    intro a b h x hx
    rcases List.mem_cons.1 hx with rfl | hx
    · exact h.2.1
    · exact ih h.2.2 x hx

/-- The unique end of a segment. -/
theorem Seg.end_unique {s : State} {xs : List Nat} :
    ∀ {a b b' : Nat}, Seg s a xs b → Seg s a xs b' → b = b' := by
  induction xs with
  | nil => intro a b b' h h'; exact h.symm.trans h'
  | cons x xs ih => intro a b b' h h'; exact ih h.2.2 h'.2.2

theorem Seg.head_getD {s : State} {xs : List Nat} {a b : Nat} (h : Seg s a xs b) :
    a = xs.getD 0 b := by
  cases xs with
  | nil => exact h
  | cons x xs => exact h.1

theorem Seg.next_getD {s : State} {xs : List Nat} :
    ∀ {a b : Nat} (k c : Nat), Seg s a xs b → k < xs.length →
      s.load (Loc.next (xs.getD k c)) = xs.getD (k + 1) b := by
  induction xs with
  | nil => intro a b k c _ hk; simp at hk
  | cons x xs ih =>
    intro a b k c h hk
    cases k with
    | zero =>
      have := h.2.2.head_getD
      simpa using this
    | succ k =>
      have hk' : k < xs.length := by simpa using hk
      simpa using ih k c h.2.2 hk'

theorem FreeList.load_locAt_getD {s : State} {hd : Loc} {xs : List Nat}
    (h : FreeList s hd xs) (k : Nat) (hk : k ≤ xs.length) :
    s.load (locAt hd xs k) = xs.getD k NULL := by
  cases k with
  | zero => exact h.head_getD
  | succ k => exact h.next_getD k NULL hk

theorem FreeList.entry_ne_null {s : State} {hd : Loc} {xs : List Nat}
    (h : FreeList s hd xs) : ∀ x ∈ xs, x ≠ NULL :=
  Seg.ne_null h

/-! ## The scanning loop -/

theorem scanBestFit_aux {s : State} {hd : Loc} {xs : List Nat} (n : Nat)
    (h : FreeList s hd xs) :
    ∀ (ys : List Nat) (k fuel : Nat) (best : Option Loc) (ab : Option (Nat × Nat)),
      xs.drop k = ys → ys.length < fuel → k ≤ xs.length → BestRel s hd xs k best ab →
      ∃ r, scanBestFit n s fuel best (locAt hd xs k) = some r ∧
        BestRel s hd xs xs.length r (bestFitAux n (sizesOf s ys) k ab) := by
  intro ys
  induction ys with
  | nil =>
    intro k fuel best ab hd' hf hk hb
    obtain ⟨fuel, rfl⟩ : ∃ f, fuel = f + 1 := ⟨fuel - 1, by simp at hf; omega⟩
    have hk' : k = xs.length := by
      have := congrArg List.length hd'
      simp at this; omega
    have hl : s.load (locAt hd xs k) = NULL := by
      rw [h.load_locAt_getD k hk, hk']; simp
    refine ⟨best, by simp [scanBestFit, hl], ?_⟩
    simp only [sizesOf, List.map_nil, bestFitAux]
    rw [← hk']; exact hb
  | cons y ys ih =>
    intro k fuel best ab hd' hf hk hb
    obtain ⟨fuel, rfl⟩ : ∃ f, fuel = f + 1 := ⟨fuel - 1, by simp at hf; omega⟩
    have hklt : k < xs.length := by
      have := congrArg List.length hd'
      simp at this; omega
    have hy : xs.getD k NULL = y := by
      have : xs[k]? = some y := by
        rw [← List.head?_drop, hd']; rfl
      simp [List.getD, this]
    have hys : xs.drop (k + 1) = ys := by
      rw [← List.drop_drop 1 k, hd']; rfl
    have hl : s.load (locAt hd xs k) = y := by rw [h.load_locAt_getD k hk, hy]
    have hy0 : y ≠ NULL := h.entry_ne_null y (by rw [← hy, List.getD_eq_getElem _ _ hklt]; exact List.getElem_mem _)
    have hnext : Loc.next y = locAt hd xs (k + 1) := by
      show Loc.next y = Loc.next (xs.getD k NULL)
      rw [hy]
    simp only [sizesOf, List.map_cons, bestFitAux]
    by_cases hex : (s.mem y).size = n
    · refine ⟨some (locAt hd xs k), by simp [scanBestFit, hl, hy0, hex], ?_⟩
      simp only [hex, if_true]
      exact ⟨hklt, rfl, by rw [hy, hex]⟩
    · have hf' : ys.length < fuel := by simpa using hf
      simp only [hex, if_false]
      have key : ∀ best' ab', BestRel s hd xs (k + 1) best' ab' →
          ∃ r, scanBestFit n s fuel best' (locAt hd xs (k + 1)) = some r ∧
            BestRel s hd xs xs.length r (bestFitAux n (sizesOf s ys) (k + 1) ab') :=
        fun best' ab' hb' => ih (k + 1) fuel best' ab' hys hf' hklt hb'
      have step : ∀ best : Option Loc, scanBestFit n s (fuel + 1) best (locAt hd xs k) =
          scanBestFit n s fuel
            (match best with
             | none => if (s.mem y).size > n then some (locAt hd xs k) else none
             | some b =>
               if (s.mem y).size > n ∧ (s.mem y).size < (s.mem (s.load b)).size
               then some (locAt hd xs k) else some b) (locAt hd xs (k + 1)) := by
        intro best
        simp only [scanBestFit, hl, hy0, hex, if_false, hnext]
      rw [step best]
      cases best with
      | none =>
        cases ab with
        | some b => exact absurd hb (by simp [BestRel])
        | none =>
          apply key
          by_cases hgt : (s.mem y).size > n
          · simp only [hgt, if_true]
            exact ⟨Nat.lt_succ_self k, rfl, by rw [hy]⟩
          · simp only [hgt, if_false]; trivial
      | some l =>
        cases ab with
        | none => exact absurd hb (by simp [BestRel])
        | some b =>
          obtain ⟨hb1, hb2, hb3⟩ := hb
          have hlb : s.load l = xs.getD b.1 NULL := by
            rw [hb2]; exact h.load_locAt_getD _ (by omega)
          apply key
          dsimp only
          rw [hlb, hb3]
          by_cases hc : (s.mem y).size > n ∧ (s.mem y).size < b.2
          · simp only [hc, and_self, if_true]
            exact ⟨Nat.lt_succ_self k, rfl, by rw [hy]⟩
          · simp only [hc, if_false]
            exact ⟨by omega, hb2, hb3⟩

/-- With enough fuel the scanning loop ends and selects the place of the entry
whose index `bestFit` computes from the recorded sizes. -/
theorem scanBestFit_eq {s : State} {hd : Loc} {xs : List Nat} (n fuel : Nat)
    (h : FreeList s hd xs) (hf : xs.length < fuel) :
    scanBestFit n s fuel none hd = some ((bestFit n (sizesOf s xs)).map (locAt hd xs)) := by
  obtain ⟨r, hr, hrel⟩ := scanBestFit_aux n h xs 0 fuel none none rfl hf (Nat.zero_le _) trivial
  have h0 : locAt hd xs 0 = hd := rfl
  rw [h0] at hr
  rw [hr, bestFit]
  cases hres : bestFitAux n (sizesOf s xs) 0 none with
  | none =>
    rw [hres] at hrel
    cases r with
    | none => rfl
    | some l => exact absurd hrel (by simp [BestRel])
  | some b =>
    rw [hres] at hrel
    cases r with
    | none => exact absurd hrel (by simp [BestRel])
    | some l => simp [hrel.2.1]

/-! ## Properties of the selected index -/

theorem bestFitAux_some {n : Nat} {full : List Nat} :
    ∀ (zs : List Nat) (k : Nat) (best : Option (Nat × Nat)) (r : Nat × Nat),
      full.drop k = zs →
      (∀ b, best = some b → full[b.1]? = some b.2 ∧ n ≤ b.2) →
      bestFitAux n zs k best = some r → full[r.1]? = some r.2 ∧ n ≤ r.2 := by
  intro zs
  induction zs with
  | nil =>
    intro k best r _ hb hr
    exact hb r hr
  | cons z zs ih =>
    intro k best r hd hb hr
    have hz : full[k]? = some z := by rw [← List.head?_drop, hd]; rfl
    have hzs : full.drop (k + 1) = zs := by rw [← List.drop_drop 1 k, hd]; rfl
    simp only [bestFitAux] at hr
    by_cases hex : z = n
    · simp only [hex, if_true, Option.some.injEq] at hr
      subst hr
      exact ⟨by rw [hz, hex], le_refl _⟩
    · simp only [hex, if_false] at hr
      refine ih (k + 1) _ r hzs ?_ hr
      intro b hbb
      cases best with
      | none =>
        by_cases hgt : z > n
        · simp only [hgt, if_true, Option.some.injEq] at hbb
          subst hbb; exact ⟨hz, Nat.le_of_lt hgt⟩
        · simp [hgt] at hbb
      | some b0 =>
        dsimp only at hbb
        by_cases hc : z > n ∧ z < b0.2
        · simp only [hc, and_self, if_true, Option.some.injEq] at hbb
          subst hbb; exact ⟨hz, Nat.le_of_lt hc.1⟩
        · simp only [hc, if_false, Option.some.injEq] at hbb
          subst hbb; exact hb b0 rfl

theorem bestFitAux_none {n : Nat} :
    ∀ (zs : List Nat) (k : Nat) (best : Option (Nat × Nat)),
      bestFitAux n zs k best = none → best = none ∧ ∀ z ∈ zs, z < n := by
  intro zs
  induction zs with
  | nil => intro k best h; exact ⟨h, by simp⟩
  | cons z zs ih =>
    intro k best h
    simp only [bestFitAux] at h
    by_cases hex : z = n
    · simp [hex] at h
    · simp only [hex, if_false] at h
      obtain ⟨h1, h2⟩ := ih _ _ h
      cases best with
      | none =>
        by_cases hgt : z > n
        · simp [hgt] at h1
        · refine ⟨rfl, ?_⟩
          intro w hw
          rcases List.mem_cons.1 hw with rfl | hw
          · omega
          · exact h2 w hw
      | some b0 =>
        dsimp only at h1
        by_cases hc : z > n ∧ z < b0.2 <;> simp [hc] at h1

/-- The selected entry exists and is large enough. -/
theorem bestFit_some {n i : Nat} {sizes : List Nat} (h : bestFit n sizes = some i) :
    ∃ z, sizes[i]? = some z ∧ n ≤ z := by
  unfold bestFit at h
  cases hr : bestFitAux n sizes 0 none with
  | none => rw [hr] at h; cases h
  | some r =>
    rw [hr] at h
    simp only [Option.map_some', Option.some.injEq] at h
    subst h
    exact ⟨r.2, @bestFitAux_some _ sizes sizes 0 none r rfl (by simp) hr⟩

theorem bestFit_lt_length {n i : Nat} {sizes : List Nat} (h : bestFit n sizes = some i) :
    i < sizes.length := by
  obtain ⟨z, hz, _⟩ := bestFit_some h
  exact (List.getElem?_eq_some_iff.1 hz).1

/-- The scan selects nothing exactly when every entry is too small. -/
theorem bestFit_eq_none_iff {n : Nat} {sizes : List Nat} :
    bestFit n sizes = none ↔ ∀ z ∈ sizes, z < n := by
  constructor
  · intro h
    unfold bestFit at h
    cases hr : bestFitAux n sizes 0 none with
    | none => exact (bestFitAux_none sizes 0 none hr).2
    | some r => rw [hr] at h; cases h
  · intro h
    cases hr : bestFit n sizes with
    | none => rfl
    | some i =>
      obtain ⟨z, hz, hn⟩ := bestFit_some hr
      have := h z (List.getElem?_mem hz)
      omega

/-! ## `popFreeBlk` -/

theorem popFreeBlk_split_eq {s : State} {ptr : Loc} {e n : Nat}
    (hl : s.load ptr = e) (hgt : n + METADATA_SIZE < (s.mem e).size)
    (hw : e + METADATA_SIZE + (s.mem e).size ≤ WORD)
    (hp : ptr ≠ Loc.next (e + METADATA_SIZE + n)) :
    popFreeBlk ptr n s =
      (e + METADATA_SIZE,
        (((s.setSize (e + METADATA_SIZE + n) ((s.mem e).size - (n + METADATA_SIZE))).setNext
          (e + METADATA_SIZE + n) (s.mem e).next).setSize e n).store ptr
            (e + METADATA_SIZE + n)) := by
  have h1 : (n + METADATA_SIZE) % WORD = n + METADATA_SIZE := Nat.mod_eq_of_lt (by omega)
  have h2 : (e + METADATA_SIZE + n) % WORD = e + METADATA_SIZE + n :=
    Nat.mod_eq_of_lt (by omega)
  have h3 : (e + METADATA_SIZE) % WORD = e + METADATA_SIZE := Nat.mod_eq_of_lt (by omega)
  unfold popFreeBlk
  simp only [hl, h1, h2, h3, load_setSize, next_setSize, load_setNext, hp, if_false]
  rw [if_pos (show (s.mem e).size > n + METADATA_SIZE from hgt)]

theorem popFreeBlk_nosplit_eq {s : State} {ptr : Loc} {e n : Nat}
    (hl : s.load ptr = e) (hle : (s.mem e).size ≤ n + METADATA_SIZE)
    (hn : n + METADATA_SIZE < WORD) (he : e + METADATA_SIZE < WORD) :
    popFreeBlk ptr n s = (e + METADATA_SIZE, s.store ptr (s.mem e).next) := by
  have h1 : (n + METADATA_SIZE) % WORD = n + METADATA_SIZE := Nat.mod_eq_of_lt hn
  have h3 : (e + METADATA_SIZE) % WORD = e + METADATA_SIZE := Nat.mod_eq_of_lt he
  unfold popFreeBlk
  simp only [hl, h1, h3]
  rw [if_neg (show ¬ (s.mem e).size > n + METADATA_SIZE by omega)]

/-! ## Surgery on chains -/

theorem FreeList.take_drop {s : State} {hd : Loc} {xs : List Nat}
    (h : FreeList s hd xs) (i : Nat) :
    Seg s (s.load hd) (xs.take i) (xs.getD i NULL) ∧
      Seg s (xs.getD i NULL) (xs.drop i) NULL := by
  have h' : Seg s (s.load hd) (xs.take i ++ xs.drop i) NULL := by
    rw [List.take_append_drop]; exact h
  obtain ⟨b, hb1, hb2⟩ := h'.split
  have : b = xs.getD i NULL := by
    have := hb2.head_getD
    rw [this]
    simp [List.getD]
  rw [← this]
  exact ⟨hb1, hb2⟩

theorem nodup_getElem_inj {xs : List Nat} (hnd : xs.Nodup) {i j : Nat}
    (hi : i < xs.length) (hj : j < xs.length) (h : xs[i] = xs[j]) : i = j :=
  (List.Nodup.getElem_inj_iff hnd).1 h

/-- Links held by the root and by the headers before index `i` differ from the
link that leads to entry `i`. -/
theorem locAt_ne_of_mem_take {hd : Loc} {xs : List Nat} (hroot : ∀ b, hd ≠ Loc.next b)
    (hnd : xs.Nodup) {i : Nat} (hi : i ≤ xs.length) {x : Nat} (hx : x ∈ xs.take (i - 1)) :
    Loc.next x ≠ locAt hd xs i := by
  cases i with
  | zero => exact fun h => hroot x h.symm
  | succ k =>
    intro h
    have hk : k < xs.length := hi
    have hxk : x = xs.getD k NULL := by
      simpa [locAt] using h
    simp only [Nat.add_sub_cancel] at hx
    rw [List.getD_eq_getElem _ _ hk] at hxk
    obtain ⟨j, hj, hjx⟩ := List.getElem_of_mem hx
    rw [List.length_take] at hj
    rw [List.getElem_take] at hjx
    have := nodup_getElem_inj hnd (by omega) hk (hjx.trans hxk)
    omega

/-- After the link that leads to entry `i` is redirected to `v`, the entries
before index `i` still form a chain from the root, now ending at `v`. -/
theorem FreeList.relink {s s' : State} {hd : Loc} {xs : List Nat} {i v : Nat}
    (h : FreeList s hd xs) (hroot : ∀ b, hd ≠ Loc.next b) (hnd : xs.Nodup)
    (hi : i ≤ xs.length)
    (hv : s'.load (locAt hd xs i) = v)
    (hframe : ∀ l, l ≠ locAt hd xs i → (l = hd ∨ ∃ x ∈ xs.take i, l = Loc.next x) →
      s'.load l = s.load l) :
    Seg s' (s'.load hd) (xs.take i) v := by
  cases i with
  | zero => simpa [locAt] using hv
  | succ k =>
    have hk : k < xs.length := hi
    have hne : ∀ x ∈ xs.take k, Loc.next x ≠ locAt hd xs (k + 1) := fun x hx =>
      locAt_ne_of_mem_take hroot hnd hi (by simpa using hx)
    have hhd : s'.load hd = s.load hd :=
      hframe hd (fun hh => hroot _ hh) (Or.inl rfl)
    have h1 : Seg s' (s'.load hd) (xs.take k) (xs.getD k NULL) := by
      rw [hhd]
      refine Seg.congr ?_ (h.take_drop k).1
      intro x hx
      exact hframe _ (hne x hx)
        (Or.inr ⟨x, List.take_subset_take_left _ (Nat.le_succ k) hx, rfl⟩)
    have hxk : xs.getD k NULL = xs[k] := List.getD_eq_getElem _ _ hk
    have h2 : Seg s' (xs.getD k NULL) [xs.getD k NULL] v := by
      refine ⟨rfl, ?_, hv⟩
      rw [hxk]
      exact h.entry_ne_null _ (List.getElem_mem _)
    have h3 := h1.append h2
    rw [hxk] at h3
    rw [← List.take_concat_get _ _ hk]
    simpa using h3

theorem next_ne_locAt {hd : Loc} {xs : List Nat} (hroot : ∀ b, hd ≠ Loc.next b)
    {x i : Nat} (hx : ∀ k, i = k + 1 → x ≠ xs.getD k NULL) :
    Loc.next x ≠ locAt hd xs i := by
  cases i with
  | zero => exact fun h => hroot x h.symm
  | succ k =>
    intro h
    exact hx k rfl (by simpa [locAt] using h)

theorem Nodup.ne_getD_of_mem_drop {xs : List Nat} (hnd : xs.Nodup) {k j x : Nat}
    (hkj : k < j) (hx : x ∈ xs.drop j) : x ≠ xs.getD k NULL := by
  obtain ⟨m, hm, hmx⟩ := List.getElem_of_mem hx
  rw [List.length_drop] at hm
  rw [List.getElem_drop] at hmx
  have hk : k < xs.length := by omega
  rw [List.getD_eq_getElem _ _ hk]
  intro h
  have := nodup_getElem_inj hnd (by omega) hk (hmx.trans h)
  omega

theorem Nodup.ne_getD_of_mem_take {xs : List Nat} (hnd : xs.Nodup) {k j x : Nat}
    (hjk : j ≤ k) (hk : k < xs.length) (hx : x ∈ xs.take j) : x ≠ xs.getD k NULL := by
  obtain ⟨m, hm, hmx⟩ := List.getElem_of_mem hx
  rw [List.length_take] at hm
  rw [List.getElem_take] at hmx
  rw [List.getD_eq_getElem _ _ hk]
  intro h
  have := nodup_getElem_inj hnd (by omega) hk (hmx.trans h)
  omega

/-! ## Consequences of well-formedness -/

theorem WF.lt_of_pairwise {s : State} {xs : List Nat}
    (h : xs.Pairwise (fun a b => a + METADATA_SIZE + (s.mem a).size ≤ b)) :
    xs.Pairwise (· < ·) :=
  h.imp (fun {a b} hab => by simp only [METADATA_SIZE] at hab; omega)

theorem WF.nodup {s : State} {hd : Loc} {xs : List Nat} (w : WF s hd xs) : xs.Nodup :=
  (WF.lt_of_pairwise w.disj).imp (fun {a b} hab => by omega)

theorem WF.sorted {s : State} {hd : Loc} {xs : List Nat} (w : WF s hd xs) :
    xs.Sorted (· < ·) :=
  WF.lt_of_pairwise w.disj

theorem WF.brk_lt {s : State} {hd : Loc} {xs : List Nat} (w : WF s hd xs) :
    s.brk < WORD :=
  Nat.lt_of_le_of_lt w.brk_le w.limit_lt

/-- Entries before index `i` end at or before entry `i`; entries after it start
at or after its end. -/
theorem pairwise_getElem_lt {R : Nat → Nat → Prop} {xs : List Nat} (h : xs.Pairwise R)
    {i j : Nat} (hi : i < xs.length) (hj : j < xs.length) (hij : i < j) :
    R xs[i] xs[j] :=
  List.pairwise_iff_getElem.1 h i j hi hj hij

theorem WF.mem_cases {s : State} {hd : Loc} {xs : List Nat} (w : WF s hd xs)
    {i : Nat} (hi : i < xs.length) {x : Nat} (hx : x ∈ xs) :
    x + METADATA_SIZE + (s.mem x).size ≤ xs[i] ∨ x = xs[i] ∨
      xs[i] + METADATA_SIZE + (s.mem xs[i]).size ≤ x := by
  obtain ⟨j, hj, rfl⟩ := List.getElem_of_mem hx
  rcases Nat.lt_trichotomy j i with h | h | h
  · exact Or.inl (pairwise_getElem_lt w.disj hj hi h)
  · subst h; exact Or.inr (Or.inl rfl)
  · exact Or.inr (Or.inr (pairwise_getElem_lt w.disj hi hj h))

theorem WF.load_locAt {s : State} {hd : Loc} {xs : List Nat} (w : WF s hd xs)
    {i : Nat} (hi : i < xs.length) : s.load (locAt hd xs i) = xs[i] := by
  rw [w.chain.load_locAt_getD i (Nat.le_of_lt hi), List.getD_eq_getElem _ _ hi]

theorem locAt_succ {hd : Loc} {xs : List Nat} {i : Nat} (hi : i < xs.length) :
    locAt hd xs (i + 1) = Loc.next xs[i] := by
  show Loc.next (xs.getD i NULL) = _
  rw [List.getD_eq_getElem _ _ hi]

theorem FreeList.next_getElem {s : State} {hd : Loc} {xs : List Nat} (h : FreeList s hd xs)
    {i : Nat} (hi : i < xs.length) : (s.mem xs[i]).next = xs.getD (i + 1) NULL := by
  have h1 := h.load_locAt_getD (i + 1) hi
  rw [locAt_succ hi] at h1
  exact h1

/-- The remainder of a split lies strictly inside the split block, so it is no
entry of the list. -/
theorem WF.rem_not_mem {s : State} {hd : Loc} {xs : List Nat} (w : WF s hd xs)
    {i n : Nat} (hi : i < xs.length) (hgt : n + METADATA_SIZE < (s.mem xs[i]).size) :
    xs[i] + METADATA_SIZE + n ∉ xs := by
  intro hx
  have h1 := w.mem_cases hi hx
  simp only [METADATA_SIZE] at h1 hgt
  omega

/-- Redirecting the link that leads to entry `i` to a new header `r` whose own
link leads to entry `j` replaces the entries `i .. j - 1` by `r`. -/
theorem FreeList.splice_in {s s' : State} {hd : Loc} {xs : List Nat} {i j r : Nat}
    (h : FreeList s hd xs) (hroot : ∀ b, hd ≠ Loc.next b) (hnd : xs.Nodup)
    (hij : i ≤ j) (hi : i ≤ xs.length) (hr : r ∉ xs) (hr0 : r ≠ NULL)
    (hload : ∀ l, s'.load l =
      if l = locAt hd xs i then r
      else if l = Loc.next r then xs.getD j NULL
      else s.load l) :
    FreeList s' hd (xs.take i ++ r :: xs.drop j) := by
  have hp : Loc.next r ≠ locAt hd xs i := by
    refine next_ne_locAt hroot ?_
    intro k hk heq
    subst hk
    apply hr
    rw [heq, List.getD_eq_getElem _ _ (by omega)]
    exact List.getElem_mem _
  have hpre : Seg s' (s'.load hd) (xs.take i) r :=
    FreeList.relink h hroot hnd hi (by rw [hload]; simp) (by
      intro l hl hcase
      rw [hload, if_neg hl, if_neg]
      rcases hcase with rfl | ⟨x, hx, rfl⟩
      · exact hroot _
      · intro hh
        injection hh with hh
        exact hr (hh ▸ List.mem_of_mem_take hx))
  have hsuf : Seg s' (xs.getD j NULL) (xs.drop j) NULL := by
    refine Seg.congr ?_ (h.take_drop j).2
    intro x hx
    rw [hload, if_neg, if_neg]
    · intro hh
      injection hh with hh
      exact hr (hh ▸ List.mem_of_mem_drop hx)
    · refine next_ne_locAt hroot ?_
      intro k hk
      exact Nodup.ne_getD_of_mem_drop hnd (by omega) hx
  have hmid : Seg s' r (r :: xs.drop j) NULL := by
    refine ⟨rfl, hr0, ?_⟩
    rw [hload, if_neg hp, if_pos rfl]
    exact hsuf
  exact hpre.append hmid

/-- Redirecting the link that leads to entry `i` to entry `j` removes the
entries `i .. j - 1`. -/
theorem FreeList.splice_out {s s' : State} {hd : Loc} {xs : List Nat} {i j : Nat}
    (h : FreeList s hd xs) (hroot : ∀ b, hd ≠ Loc.next b) (hnd : xs.Nodup)
    (hij : i ≤ j) (hi : i ≤ xs.length)
    (hload : ∀ l, s'.load l =
      if l = locAt hd xs i then xs.getD j NULL else s.load l) :
    FreeList s' hd (xs.take i ++ xs.drop j) := by
  have hpre : Seg s' (s'.load hd) (xs.take i) (xs.getD j NULL) :=
    FreeList.relink h hroot hnd hi (by rw [hload]; simp) (by
      intro l hl _
      rw [hload, if_neg hl])
  have hsuf : Seg s' (xs.getD j NULL) (xs.drop j) NULL := by
    refine Seg.congr ?_ (h.take_drop j).2
    intro x hx
    rw [hload, if_neg]
    refine next_ne_locAt hroot ?_
    intro k hk
    exact Nodup.ne_getD_of_mem_drop hnd (by omega) hx
  exact hpre.append hsuf

theorem popFreeBlk_split_spec {s : State} {hd : Loc} {xs : List Nat} (w : WF s hd xs)
    {i n : Nat} (hi : i < xs.length) (hgt : n + METADATA_SIZE < (s.mem xs[i]).size) :
    (popFreeBlk (locAt hd xs i) n s).1 = xs[i] + METADATA_SIZE ∧
    FreeList (popFreeBlk (locAt hd xs i) n s).2 hd
      (xs.take i ++ (xs[i] + METADATA_SIZE + n) :: xs.drop (i + 1)) ∧
    (∀ a, ((popFreeBlk (locAt hd xs i) n s).2.mem a).size =
      if a = xs[i] then n
      else if a = xs[i] + METADATA_SIZE + n then (s.mem xs[i]).size - (n + METADATA_SIZE)
      else (s.mem a).size) ∧
    (∀ l, l ≠ locAt hd xs i → l ≠ Loc.next (xs[i] + METADATA_SIZE + n) →
      (popFreeBlk (locAt hd xs i) n s).2.load l = s.load l) ∧
    SameHeap s (popFreeBlk (locAt hd xs i) n s).2 := by
  have hmem : xs[i] ∈ xs := List.getElem_mem _
  have hbr := w.inHeap _ hmem
  have hlt := w.brk_lt
  have hrem := w.rem_not_mem hi hgt
  have hnd := w.nodup
  have hp : locAt hd xs i ≠ Loc.next (xs[i] + METADATA_SIZE + n) := by
    intro h
    refine next_ne_locAt w.root (x := xs[i] + METADATA_SIZE + n) (i := i) ?_ h.symm
    intro k hk heq
    subst hk
    apply hrem
    rw [heq, List.getD_eq_getElem _ _ (by omega)]
    exact List.getElem_mem _
  rw [popFreeBlk_split_eq (w.load_locAt hi) hgt (by omega) hp]
  have hload : ∀ l, ((((s.setSize (xs[i] + METADATA_SIZE + n)
      ((s.mem xs[i]).size - (n + METADATA_SIZE))).setNext
        (xs[i] + METADATA_SIZE + n) (s.mem xs[i]).next).setSize xs[i] n).store (locAt hd xs i)
          (xs[i] + METADATA_SIZE + n)).load l =
      if l = locAt hd xs i then xs[i] + METADATA_SIZE + n
      else if l = Loc.next (xs[i] + METADATA_SIZE + n) then xs.getD (i + 1) NULL
      else s.load l := by
    intro l
    simp only [load_store, load_setSize, load_setNext, w.chain.next_getElem hi]
  refine ⟨rfl, ?_, ?_, ?_, ⟨by simp, by simp, by simp, by simp⟩⟩
  · exact FreeList.splice_in w.chain w.root hnd (Nat.le_succ i) (Nat.le_of_lt hi) hrem
      (by simp) hload
  · intro a
    simp only [size_store, size_setSize, size_setNext]
  · intro l h1 h2
    rw [hload, if_neg h1, if_neg h2]

theorem popFreeBlk_nosplit_spec {s : State} {hd : Loc} {xs : List Nat} (w : WF s hd xs)
    {i n : Nat} (hi : i < xs.length) (hge : n ≤ (s.mem xs[i]).size)
    (hle : (s.mem xs[i]).size ≤ n + METADATA_SIZE) :
    (popFreeBlk (locAt hd xs i) n s).1 = xs[i] + METADATA_SIZE ∧
    FreeList (popFreeBlk (locAt hd xs i) n s).2 hd (xs.take i ++ xs.drop (i + 1)) ∧
    (∀ a, ((popFreeBlk (locAt hd xs i) n s).2.mem a).size = (s.mem a).size) ∧
    (∀ l, l ≠ locAt hd xs i → (popFreeBlk (locAt hd xs i) n s).2.load l = s.load l) ∧
    SameHeap s (popFreeBlk (locAt hd xs i) n s).2 := by
  have hmem : xs[i] ∈ xs := List.getElem_mem _
  have hbr := w.inHeap _ hmem
  have hlt := w.brk_lt
  have h0 := w.chain.entry_ne_null _ hmem
  rw [popFreeBlk_nosplit_eq (w.load_locAt hi) hle
    (by simp only [METADATA_SIZE, WORD] at *; omega)
    (by simp only [METADATA_SIZE, WORD] at *; omega)]
  have hload : ∀ l, (s.store (locAt hd xs i) (s.mem xs[i]).next).load l =
      if l = locAt hd xs i then xs.getD (i + 1) NULL else s.load l := by
    intro l
    simp only [load_store, w.chain.next_getElem hi]
  refine ⟨rfl, ?_, ?_, ?_, ⟨by simp, by simp, by simp, by simp⟩⟩
  · exact FreeList.splice_out w.chain w.root w.nodup (Nat.le_succ i) (Nat.le_of_lt hi) hload
  · intro a; simp
  · intro l h1
    rw [hload, if_neg h1]

/-! ## `reqSysBlk` -/

/-- When the operating system grants the extension, `sbrk` returns the previous
break and advances it by the requested number of bytes. -/
theorem sbrk_granted {s : State} {n : Nat} (hn : METADATA_SIZE + n < 2 ^ 63)
    (hg : s.brk + (METADATA_SIZE + n) ≤ s.heap_limit) :
    sbrk ((METADATA_SIZE + n) % WORD) s =
      (s.brk, { s with brk := s.brk + (METADATA_SIZE + n) }) := by
  have h1 : (METADATA_SIZE + n) % WORD = METADATA_SIZE + n :=
    Nat.mod_eq_of_lt (by simp only [WORD]; omega)
  unfold sbrk
  rw [h1, if_pos hn, if_pos hg]

theorem reqSysBlk_spec {s : State} {n : Nat} (hn : METADATA_SIZE + n < 2 ^ 63)
    (hg : s.brk + (METADATA_SIZE + n) ≤ s.heap_limit) (hlim : s.heap_limit < WORD) :
    (reqSysBlk n s).1 = s.brk + METADATA_SIZE ∧
    (∀ a, ((reqSysBlk n s).2.mem a).size = if a = s.brk then n else (s.mem a).size) ∧
    (∀ l, (reqSysBlk n s).2.load l = if l = Loc.next s.brk then NULL else s.load l) ∧
    (reqSysBlk n s).2.brk = s.brk + (METADATA_SIZE + n) ∧
    (reqSysBlk n s).2.heap_start = s.heap_start ∧
    (reqSysBlk n s).2.heap_limit = s.heap_limit ∧
    (reqSysBlk n s).2.entire_heap_size =
      (s.entire_heap_size + (METADATA_SIZE + n)) % WORD := by
  have h1 : (METADATA_SIZE + n) % WORD = METADATA_SIZE + n :=
    Nat.mod_eq_of_lt (by simp only [WORD]; omega)
  have h2 : (s.brk + METADATA_SIZE) % WORD = s.brk + METADATA_SIZE :=
    Nat.mod_eq_of_lt (by simp only [METADATA_SIZE] at *; omega)
  unfold reqSysBlk
  rw [sbrk_granted hn hg]
  simp only [h1, h2]
  refine ⟨trivial, ?_, ?_, rfl, rfl, rfl, rfl⟩
  · intro a
    exact (size_setSize _ _ _ _).trans (by rw [size_setNext])
  · intro l
    have : ∀ t : State, ({ t with entire_heap_size :=
        (t.entire_heap_size + (METADATA_SIZE + n)) % WORD } : State).load l = t.load l := by
      intro t; cases l <;> rfl
    have h3 : ∀ t : State, ({ t with brk := t.brk + (METADATA_SIZE + n) } : State).load l
        = t.load l := by
      intro t; cases l <;> rfl
    rw [this, load_setSize, load_setNext, h3]

/-! ## The loop of the release functions -/

/-- Number of entries of `xs` the insertion loop walks past for the block `b`. -/
theorem findInsertPos_aux {s : State} {hd : Loc} {xs : List Nat} (b : Nat)
    (h : FreeList s hd xs) :
    ∀ (ys : List Nat) (k fuel : Nat) (prev : Nat),
      xs.drop k = ys → ys.length < fuel → k ≤ xs.length →
      prev = (if k = 0 then NULL else xs.getD (k - 1) NULL) →
      findInsertPos b s fuel (locAt hd xs k) prev =
        some (locAt hd xs (k + (ys.takeWhile (· < b)).length),
          if k + (ys.takeWhile (· < b)).length = 0 then NULL
          else xs.getD (k + (ys.takeWhile (· < b)).length - 1) NULL) := by
  intro ys
  induction ys with
  | nil =>
    intro k fuel prev hd' hf hk hp
    obtain ⟨fuel, rfl⟩ : ∃ f, fuel = f + 1 := ⟨fuel - 1, by simp at hf; omega⟩
    have hk' : k = xs.length := by
      have := congrArg List.length hd'
      simp at this; omega
    have hl : s.load (locAt hd xs k) = NULL := by
      rw [h.load_locAt_getD k hk, hk']; simp
    simp [findInsertPos, hl, hp]
  | cons y ys ih =>
    intro k fuel prev hd' hf hk hp
    obtain ⟨fuel, rfl⟩ : ∃ f, fuel = f + 1 := ⟨fuel - 1, by simp at hf; omega⟩
    have hklt : k < xs.length := by
      have := congrArg List.length hd'
      simp at this; omega
    have hy : xs.getD k NULL = y := by
      have : xs[k]? = some y := by
        rw [← List.head?_drop, hd']; rfl
      simp [List.getD, this]
    have hys : xs.drop (k + 1) = ys := by
      rw [← List.drop_drop 1 k, hd']; rfl
    have hl : s.load (locAt hd xs k) = y := by rw [h.load_locAt_getD k hk, hy]
    have hy0 : y ≠ NULL :=
      h.entry_ne_null y (by rw [← hy, List.getD_eq_getElem _ _ hklt]; exact List.getElem_mem _)
    have hnext : Loc.next y = locAt hd xs (k + 1) := by
      show Loc.next y = Loc.next (xs.getD k NULL)
      rw [hy]
    by_cases hlt : y < b
    · have hf' : ys.length < fuel := by simpa using hf
      have := ih (k + 1) fuel y hys hf' hklt
        (by rw [if_neg (Nat.succ_ne_zero k), Nat.add_sub_cancel]; exact hy.symm)
      have htw : ((y :: ys).takeWhile (· < b)).length =
          (ys.takeWhile (· < b)).length + 1 := by
        rw [List.takeWhile_cons_of_pos (by simpa using hlt)]; rfl
      rw [findInsertPos]
      simp only [hl, hy0, hlt, ne_eq, not_false_eq_true, and_self, if_true, hnext]
      rw [this, htw]
      have e : k + 1 + (List.takeWhile (fun x => decide (x < b)) ys).length =
          k + ((List.takeWhile (fun x => decide (x < b)) ys).length + 1) := by omega
      rw [e]
    · have htw : ((y :: ys).takeWhile (· < b)).length = 0 := by
        rw [List.takeWhile_cons_of_neg (by simpa using hlt)]; rfl
      rw [findInsertPos]
      simp only [hl, hlt, and_false, if_false]
      rw [htw, hp]
      rfl

theorem findInsertPos_eq {s : State} {hd : Loc} {xs : List Nat} (b fuel : Nat)
    (h : FreeList s hd xs) (hf : xs.length < fuel) :
    findInsertPos b s fuel hd NULL =
      some (locAt hd xs (insIdx b xs), prevAt xs (insIdx b xs)) := by
  have := findInsertPos_aux b h xs 0 fuel NULL rfl hf (Nat.zero_le _) rfl
  simpa [locAt, insIdx, prevAt] using this

theorem insIdx_le (b : Nat) (xs : List Nat) : insIdx b xs ≤ xs.length :=
  (List.takeWhile_sublist _).length_le

theorem WF.chained {s : State} {hd : Loc} {xs : List Nat} (w : WF s hd xs) :
    Chained s hd xs :=
  ⟨w.root, w.chain, w.nodup, w.inHeap, w.brk_lt⟩

/-! ## `tryMergeAdjBlk` -/

theorem tryMergeAdjBlk_merge_eq {s : State} {first second : Nat}
    (h1 : first ≠ NULL) (h2 : second ≠ NULL)
    (hadj : first + METADATA_SIZE + (s.mem first).size = second)
    (hw : second + METADATA_SIZE + (s.mem second).size < WORD) :
    tryMergeAdjBlk first second s =
      (first, (s.setNext first (s.mem second).next).setSize first
        ((s.mem first).size + (METADATA_SIZE + (s.mem second).size))) := by
  have e1 : (first + METADATA_SIZE + (s.mem first).size) % WORD = second := by
    rw [hadj]; exact Nat.mod_eq_of_lt (by omega)
  have e2 : (METADATA_SIZE + (s.mem second).size) % WORD =
      METADATA_SIZE + (s.mem second).size := Nat.mod_eq_of_lt (by omega)
  have e3 : ((s.mem first).size + (METADATA_SIZE + (s.mem second).size)) % WORD =
      (s.mem first).size + (METADATA_SIZE + (s.mem second).size) :=
    Nat.mod_eq_of_lt (by omega)
  unfold tryMergeAdjBlk
  rw [if_pos ⟨h1, h2, e1⟩]
  simp only [size_setNext, e2, e3]

theorem tryMergeAdjBlk_keep_eq {s : State} {first second : Nat}
    (h : ¬ (first ≠ NULL ∧ second ≠ NULL ∧
      (first + METADATA_SIZE + (s.mem first).size) % WORD = second)) :
    tryMergeAdjBlk first second s = (if second = NULL then first else second, s) := by
  unfold tryMergeAdjBlk
  rw [if_neg h]
  by_cases h2 : second = NULL <;> simp [h2]

/-! ## Lists of blocks -/

theorem blocksOf_congr {s s' : State} {xs : List Nat}
    (h : ∀ a ∈ xs, (s'.mem a).size = (s.mem a).size) : blocksOf s' xs = blocksOf s xs := by
  unfold blocksOf
  exact List.map_congr_left (fun a ha => by rw [h a ha])

@[simp] theorem blocksOf_append (s : State) (xs ys : List Nat) :
    blocksOf s (xs ++ ys) = blocksOf s xs ++ blocksOf s ys := by
  simp [blocksOf]

@[simp] theorem blocksOf_cons (s : State) (x : Nat) (xs : List Nat) :
    blocksOf s (x :: xs) = (x, (s.mem x).size) :: blocksOf s xs := rfl

@[simp] theorem blocksOf_nil (s : State) : blocksOf s [] = [] := rfl

theorem blocksOf_take (s : State) (xs : List Nat) (i : Nat) :
    blocksOf s (xs.take i) = (blocksOf s xs).take i := by
  simp [blocksOf, List.map_take]

theorem blocksOf_drop (s : State) (xs : List Nat) (i : Nat) :
    blocksOf s (xs.drop i) = (blocksOf s xs).drop i := by
  simp [blocksOf, List.map_drop]

@[simp] theorem blocksOf_length (s : State) (xs : List Nat) :
    (blocksOf s xs).length = xs.length := by
  simp [blocksOf]

@[simp] theorem blocksOf_map_fst (s : State) (xs : List Nat) :
    (blocksOf s xs).map Prod.fst = xs := by
  simp [blocksOf, Function.comp_def]

theorem blocksOf_map_snd (s : State) (xs : List Nat) :
    (blocksOf s xs).map Prod.snd = sizesOf s xs := by
  simp [blocksOf, sizesOf, Function.comp_def]

theorem blocksOf_getElem? (s : State) (xs : List Nat) (i : Nat) :
    (blocksOf s xs)[i]? = xs[i]?.map (fun a => (a, (s.mem a).size)) := by
  simp [blocksOf]

theorem blocksOf_getElem?_of_lt (s : State) (xs : List Nat) {i : Nat} (hi : i < xs.length) :
    (blocksOf s xs)[i]? = some (xs[i], (s.mem xs[i]).size) := by
  rw [blocksOf_getElem?, List.getElem?_eq_getElem hi]; rfl

theorem Chained.hdr_ne_null {s : State} {hd : Loc} {xs : List Nat} (c : Chained s hd xs) :
    ∀ x ∈ xs, x ≠ NULL := c.chain.entry_ne_null

/-- The effect of `tryMergeAdjBlk` on the entries of index `i` and `i + 1` of a
chain. -/
theorem tryMergeAdjBlk_spec {s : State} {hd : Loc} {ys : List Nat} (c : Chained s hd ys)
    {i : Nat} (hi : i < ys.length) :
    ∃ ys', Chained (tryMergeAdjBlk ys[i] (ys.getD (i + 1) NULL) s).2 hd ys' ∧
      blocksOf (tryMergeAdjBlk ys[i] (ys.getD (i + 1) NULL) s).2 ys' =
        (tryMergeA i (blocksOf s ys)).2 ∧
      (tryMergeAdjBlk ys[i] (ys.getD (i + 1) NULL) s).1 =
        ys'.getD (tryMergeA i (blocksOf s ys)).1 NULL ∧
      (tryMergeA i (blocksOf s ys)).1 < ys'.length ∧
      (∀ a ∈ ys', a ∈ ys) ∧
      (∀ a, a ∉ ys →
        ((tryMergeAdjBlk ys[i] (ys.getD (i + 1) NULL) s).2.mem a).size = (s.mem a).size) ∧
      (∀ l, (∀ x ∈ ys, l ≠ Loc.next x) →
        (tryMergeAdjBlk ys[i] (ys.getD (i + 1) NULL) s).2.load l = s.load l) ∧
      SameHeap s (tryMergeAdjBlk ys[i] (ys.getD (i + 1) NULL) s).2 := by
  have hmi : ys[i] ∈ ys := List.getElem_mem _
  have h0 := c.hdr_ne_null _ hmi
  have hbi := c.inHeap _ hmi
  have hblt := c.brk_lt
  have hLi := blocksOf_getElem?_of_lt s ys hi
  by_cases hi1 : i + 1 < ys.length
  · have hmi1 : ys[i + 1] ∈ ys := List.getElem_mem _
    have h01 := c.hdr_ne_null _ hmi1
    have hbi1 := c.inHeap _ hmi1
    have hLi1 := blocksOf_getElem?_of_lt s ys hi1
    have hg : ys.getD (i + 1) NULL = ys[i + 1] := List.getD_eq_getElem _ _ hi1
    rw [hg]
    by_cases hadj : ys[i] + METADATA_SIZE + (s.mem ys[i]).size = ys[i + 1]
    · -- the two blocks are merged
      rw [tryMergeAdjBlk_merge_eq h0 h01 hadj (by omega)]
      have hA : tryMergeA i (blocksOf s ys) =
          (i, (blocksOf s ys).take i ++
            (ys[i], (s.mem ys[i]).size + (METADATA_SIZE + (s.mem ys[i + 1]).size)) ::
              (blocksOf s ys).drop (i + 2)) := by
        unfold tryMergeA
        rw [hLi, hLi1]
        simp only [hadj, if_true]
      rw [hA]
      have hload : ∀ l, ((s.setNext ys[i] (s.mem ys[i + 1]).next).setSize ys[i]
          ((s.mem ys[i]).size + (METADATA_SIZE + (s.mem ys[i + 1]).size))).load l =
          if l = locAt hd ys (i + 1) then ys.getD (i + 2) NULL else s.load l := by
        intro l
        rw [load_setSize, load_setNext, locAt_succ hi, c.chain.next_getElem hi1]
      have hchain := FreeList.splice_out c.chain c.root c.nodup (Nat.le_succ (i + 1)) hi hload
      have hlist : ys.take (i + 1) ++ ys.drop (i + 2) = ys.take i ++ ys[i] :: ys.drop (i + 2) := by
        rw [← List.take_concat_get _ _ hi, List.concat_eq_append, List.append_assoc]; rfl
      have hchain : FreeList ((s.setNext ys[i] (s.mem ys[i + 1]).next).setSize ys[i]
          ((s.mem ys[i]).size + (METADATA_SIZE + (s.mem ys[i + 1]).size))) hd
          (ys.take (i + 1) ++ ys.drop (i + 2)) := hchain
      rw [hlist] at hchain
      have hsub : (ys.take i ++ ys[i] :: ys.drop (i + 2)).Sublist ys := by
        rw [← hlist]
        conv_rhs => rw [← List.take_append_drop (i + 1) ys]
        exact List.Sublist.append (List.Sublist.refl _)
          (by rw [← List.drop_drop 1 (i + 1)]; exact List.drop_sublist _ _)
      have hnd' := c.nodup.sublist hsub
      have hnot1 : ∀ a ∈ ys.take i, a ≠ ys[i] := fun a ha => by
        have := Nodup.ne_getD_of_mem_take c.nodup (le_refl i) hi ha
        rwa [List.getD_eq_getElem _ _ hi] at this
      have hnot2 : ∀ a ∈ ys.drop (i + 2), a ≠ ys[i] := fun a ha => by
        have := Nodup.ne_getD_of_mem_drop c.nodup (show i < i + 2 by omega) ha
        rwa [List.getD_eq_getElem _ _ hi] at this
      refine ⟨ys.take i ++ ys[i] :: ys.drop (i + 2), ⟨c.root, hchain, hnd', ?_, by simpa using hblt⟩,
        ?_, ?_, ?_, fun a ha => hsub.subset ha, ?_, ?_, ⟨by simp, by simp, by simp, by simp⟩⟩
      · intro a ha
        simp only [brk_setSize, brk_setNext, size_setSize, size_setNext]
        by_cases hai : a = ys[i]
        · rw [if_pos hai, hai]; omega
        · rw [if_neg hai]; exact c.inHeap a (hsub.subset ha)
      · simp only [blocksOf_append, blocksOf_cons, size_setSize, size_setNext, if_true]
        rw [← blocksOf_take, ← blocksOf_drop]
        congr 1
        · exact blocksOf_congr (fun a ha => by
            simp only [size_setSize, size_setNext, if_neg (hnot1 a ha)])
        · congr 1
          exact blocksOf_congr (fun a ha => by
            simp only [size_setSize, size_setNext, if_neg (hnot2 a ha)])
      · have hlen : (ys.take i).length = i := by simp; omega
        rw [List.getD_eq_getElem?_getD, List.getElem?_append_right (by omega)]
        simp [hlen]
      · simp; omega
      · intro a ha
        have : a ≠ ys[i] := fun h => ha (h ▸ hmi)
        simp only [size_setSize, size_setNext, if_neg this]
      · intro l hl
        rw [load_setSize, load_setNext, if_neg (hl _ hmi)]
    · -- not adjacent: nothing changes and the second block is returned
      have hmod : (ys[i] + METADATA_SIZE + (s.mem ys[i]).size) % WORD =
          ys[i] + METADATA_SIZE + (s.mem ys[i]).size := Nat.mod_eq_of_lt (by omega)
      rw [tryMergeAdjBlk_keep_eq (by rw [hmod]; exact fun h => hadj h.2.2), if_neg h01]
      have hA : tryMergeA i (blocksOf s ys) = (i + 1, blocksOf s ys) := by
        unfold tryMergeA
        rw [hLi, hLi1]
        simp only [hadj, if_false]
      rw [hA]
      exact ⟨ys, c, rfl, (List.getD_eq_getElem _ _ hi1).symm, hi1, fun _ h => h, fun _ _ => rfl,
        fun _ _ => rfl, ⟨rfl, rfl, rfl, rfl⟩⟩
  · -- there is no second block
    have hg : ys.getD (i + 1) NULL = NULL := by
      rw [List.getD_eq_getElem?_getD, List.getElem?_eq_none (by omega)]; rfl
    rw [hg, tryMergeAdjBlk_keep_eq (fun h => h.2.1 rfl), if_pos rfl]
    have hA : tryMergeA i (blocksOf s ys) = (i, blocksOf s ys) := by
      unfold tryMergeA
      rw [hLi, List.getElem?_eq_none (by simp; omega)]
    rw [hA]
    exact ⟨ys, c, rfl, (List.getD_eq_getElem _ _ hi).symm, hi, fun _ h => h, fun _ _ => rfl,
      fun _ _ => rfl, ⟨rfl, rfl, rfl, rfl⟩⟩

/-! ## The release functions -/

theorem freeFrom_eq {s : State} {hd : Loc} {xs : List Nat} {b fuel : Nat}
    (h : FreeList s hd xs) (hf : xs.length < fuel) (hb : b + METADATA_SIZE < WORD) :
    freeFrom hd fuel (b + METADATA_SIZE) s =
      some (tryMergeAdjBlk
        (tryMergeAdjBlk (prevAt xs (insIdx b xs)) b
          ((s.setNext b (xs.getD (insIdx b xs) NULL)).store (locAt hd xs (insIdx b xs)) b)).1
        ((tryMergeAdjBlk (prevAt xs (insIdx b xs)) b
          ((s.setNext b (xs.getD (insIdx b xs) NULL)).store (locAt hd xs (insIdx b xs)) b)).2.mem
          (tryMergeAdjBlk (prevAt xs (insIdx b xs)) b
            ((s.setNext b (xs.getD (insIdx b xs) NULL)).store
              (locAt hd xs (insIdx b xs)) b)).1).next
        (tryMergeAdjBlk (prevAt xs (insIdx b xs)) b
          ((s.setNext b (xs.getD (insIdx b xs) NULL)).store
            (locAt hd xs (insIdx b xs)) b)).2).2 := by
  have e1 : (b + METADATA_SIZE + WORD - METADATA_SIZE) % WORD = b := by
    have : b + METADATA_SIZE + WORD - METADATA_SIZE = b + WORD := by
      simp only [METADATA_SIZE]; omega
    rw [this, Nat.add_mod_right]
    exact Nat.mod_eq_of_lt (by omega)
  have e2 : ¬ (b + METADATA_SIZE = NULL) := by simp [METADATA_SIZE]
  unfold freeFrom
  rw [if_neg e2]
  simp only [e1, findInsertPos_eq b fuel h hf, h.load_locAt_getD _ (insIdx_le b xs)]

theorem insertA_blocksOf (s : State) (xs : List Nat) (b z : Nat) :
    insertA (b, z) (blocksOf s xs) =
      (blocksOf s xs).take (insIdx b xs) ++ (b, z) :: (blocksOf s xs).drop (insIdx b xs) := by
  unfold insertA
  simp only [blocksOf_map_fst]

theorem freeFrom_spec {s : State} {hd : Loc} {xs : List Nat} {b fuel : Nat}
    (c : Chained s hd xs) (hb : b ∉ xs) (hb0 : b ≠ NULL)
    (hbh : b + METADATA_SIZE + (s.mem b).size ≤ s.brk) (hf : xs.length < fuel) :
    ∃ s' xs', freeFrom hd fuel (b + METADATA_SIZE) s = some s' ∧ Chained s' hd xs' ∧
      blocksOf s' xs' = freeA (b, (s.mem b).size) (blocksOf s xs) ∧
      (∀ a, a ∉ xs → a ≠ b → (s'.mem a).size = (s.mem a).size) ∧
      (∀ l, (∀ x ∈ xs, l ≠ Loc.next x) → l ≠ Loc.next b → l ≠ hd → s'.load l = s.load l) ∧
      SameHeap s s' := by
  have hblt := c.brk_lt
  rw [freeFrom_eq c.chain hf (by omega)]
  -- the state after the block is linked in
  have hk := insIdx_le b xs
  have hload2 : ∀ l, ((s.setNext b (xs.getD (insIdx b xs) NULL)).store
      (locAt hd xs (insIdx b xs)) b).load l =
      if l = locAt hd xs (insIdx b xs) then b
      else if l = Loc.next b then xs.getD (insIdx b xs) NULL
      else s.load l := by
    intro l; rw [load_store, load_setNext]
  have hsize2 : ∀ a, (((s.setNext b (xs.getD (insIdx b xs) NULL)).store
      (locAt hd xs (insIdx b xs)) b).mem a).size = (s.mem a).size := by
    intro a; rw [size_store, size_setNext]
  have hsame2 : SameHeap s ((s.setNext b (xs.getD (insIdx b xs) NULL)).store
      (locAt hd xs (insIdx b xs)) b) := ⟨by simp, by simp, by simp, by simp⟩
  have hchain2 := FreeList.splice_in c.chain c.root c.nodup (le_refl _) hk hb hb0 hload2
  have hnd2 : (xs.take (insIdx b xs) ++ b :: xs.drop (insIdx b xs)).Nodup := by
    have hp : (b :: (xs.take (insIdx b xs) ++ xs.drop (insIdx b xs))).Nodup := by
      rw [List.take_append_drop]; exact List.nodup_cons.2 ⟨hb, c.nodup⟩
    exact (List.perm_middle.nodup_iff).2 hp
  have hmem2 : ∀ a, a ∈ xs.take (insIdx b xs) ++ b :: xs.drop (insIdx b xs) ↔ a = b ∨ a ∈ xs := by
    intro a
    rw [(List.perm_middle.mem_iff), List.mem_cons, List.take_append_drop]
  generalize hs2 : (s.setNext b (xs.getD (insIdx b xs) NULL)).store
      (locAt hd xs (insIdx b xs)) b = s2 at *
  have c2 : Chained s2 hd (xs.take (insIdx b xs) ++ b :: xs.drop (insIdx b xs)) := by
    refine ⟨c.root, hchain2, hnd2, ?_, by rw [hsame2.1]; exact hblt⟩
    intro a ha
    rw [hsize2, hsame2.1]
    rcases (hmem2 a).1 ha with rfl | ha
    · exact hbh
    · exact c.inHeap a ha
  have hblocks2 : blocksOf s2 (xs.take (insIdx b xs) ++ b :: xs.drop (insIdx b xs)) =
      insertA (b, (s.mem b).size) (blocksOf s xs) := by
    rw [insertA_blocksOf, blocksOf_append, blocksOf_cons, hsize2, ← blocksOf_take,
      ← blocksOf_drop, blocksOf_congr (fun a _ => hsize2 a),
      @blocksOf_congr s s2 _ (fun a _ => hsize2 a)]
  generalize hys : xs.take (insIdx b xs) ++ b :: xs.drop (insIdx b xs) = ys at *
  have hlen_take : (xs.take (insIdx b xs)).length = insIdx b xs := by
    rw [List.length_take]; omega
  have hysk : ys[insIdx b xs]? = some b := by
    rw [← hys, List.getElem?_append_right (by omega), hlen_take]; simp
  have hklt : insIdx b xs < ys.length := (List.getElem?_eq_some_iff.1 hysk).1
  have hyskb : ys[insIdx b xs] = b := (List.getElem?_eq_some_iff.1 hysk).2
  -- the first merge attempt
  obtain ⟨R, hR⟩ : ∃ R, R = (if insIdx b xs = 0 then (0, insertA (b, (s.mem b).size) (blocksOf s xs))
      else tryMergeA (insIdx b xs - 1) (insertA (b, (s.mem b).size) (blocksOf s xs))) := ⟨_, rfl⟩
  have first : ∃ ys1, Chained (tryMergeAdjBlk (prevAt xs (insIdx b xs)) b s2).2 hd ys1 ∧
      blocksOf (tryMergeAdjBlk (prevAt xs (insIdx b xs)) b s2).2 ys1 = R.2 ∧
      ∃ hj : R.1 < ys1.length, (tryMergeAdjBlk (prevAt xs (insIdx b xs)) b s2).1 = ys1[R.1] ∧
      (∀ a, a ∉ ys → ((tryMergeAdjBlk (prevAt xs (insIdx b xs)) b s2).2.mem a).size =
        (s2.mem a).size) ∧
      (∀ l, (∀ x ∈ ys, l ≠ Loc.next x) →
        (tryMergeAdjBlk (prevAt xs (insIdx b xs)) b s2).2.load l = s2.load l) ∧
      SameHeap s2 (tryMergeAdjBlk (prevAt xs (insIdx b xs)) b s2).2 ∧
      (∀ a, a ∈ ys1 → a ∈ ys) := by
    by_cases hk0 : insIdx b xs = 0
    · have hp : prevAt xs (insIdx b xs) = NULL := by simp [prevAt, hk0]
      have hRv : R = (0, insertA (b, (s.mem b).size) (blocksOf s xs)) := by
        rw [hR, if_pos hk0]
      rw [hp, tryMergeAdjBlk_keep_eq (fun h => h.1 rfl), if_neg hb0, hRv]
      refine ⟨ys, c2, hblocks2, hk0 ▸ hklt, ?_, fun _ _ => rfl, fun _ _ => rfl,
        ⟨rfl, rfl, rfl, rfl⟩, fun _ h => h⟩
      simp only [hk0] at hyskb
      exact hyskb.symm
    · have hk1 : insIdx b xs - 1 < ys.length := by omega
      have hk1' : insIdx b xs - 1 < xs.length := by omega
      have hp : prevAt xs (insIdx b xs) = ys[insIdx b xs - 1] := by
        simp only [prevAt, hk0, if_false]
        rw [List.getD_eq_getElem _ _ hk1']
        have : ys[insIdx b xs - 1]? = some xs[insIdx b xs - 1] := by
          rw [← hys, List.getElem?_append_left (by omega), List.getElem?_take,
            if_pos (by omega), List.getElem?_eq_getElem hk1']
        exact ((List.getElem?_eq_some_iff.1 this).2).symm
      have hsec : b = ys.getD (insIdx b xs - 1 + 1) NULL := by
        rw [List.getD_eq_getElem?_getD, Nat.sub_add_cancel (by omega), hysk]; rfl
      have hRv : R = tryMergeA (insIdx b xs - 1) (insertA (b, (s.mem b).size) (blocksOf s xs)) := by
        rw [hR, if_neg hk0]
      obtain ⟨ys1, hc1, hb1, hr1, hj1, hsub1, hsz1, hld1, hsm1⟩ := tryMergeAdjBlk_spec c2 hk1
      rw [← hp, ← hsec] at hc1 hb1 hr1 hsz1 hld1 hsm1
      rw [hblocks2, ← hRv] at hb1 hr1 hj1
      refine ⟨ys1, hc1, hb1, hj1, ?_, hsz1, hld1, hsm1, hsub1⟩
      rw [hr1, List.getD_eq_getElem _ _ hj1]
  obtain ⟨ys1, c1, hb1, hj1, hr1, hsz1, hld1, hsm1, hsub1⟩ := first
  -- the second merge attempt
  have hnext : ((tryMergeAdjBlk (prevAt xs (insIdx b xs)) b s2).2.mem
      (tryMergeAdjBlk (prevAt xs (insIdx b xs)) b s2).1).next = ys1.getD (R.1 + 1) NULL := by
    rw [hr1]; exact c1.chain.next_getElem hj1
  rw [hnext, hr1]
  obtain ⟨ys3, c3, hb3, _, _, hsub3, hsz3, hld3, hsm3⟩ := tryMergeAdjBlk_spec c1 hj1
  refine ⟨_, ys3, rfl, c3, ?_, ?_, ?_, ?_⟩
  · rw [hb3, hb1, hR]
    unfold freeA
    simp only [blocksOf_map_fst]
  · intro a ha hab
    have hays : a ∉ ys := fun h => by
      rcases (hmem2 a).1 h with h | h
      · exact hab h
      · exact ha h
    rw [hsz3 a (fun h => hays (hsub1 a h)), hsz1 a hays, hsize2]
  · intro l hl hlb hlhd
    have hlys : ∀ x ∈ ys, l ≠ Loc.next x := fun x hx => by
      rcases (hmem2 x).1 hx with h | h
      · rw [h]; exact hlb
      · exact hl x h
    rw [hld3 l (fun x hx => hlys x (hsub1 x hx)), hld1 l hlys, hload2, if_neg, if_neg hlb]
    intro h
    cases hi : insIdx b xs with
    | zero => rw [hi] at h; exact hlhd h
    | succ k =>
      rw [hi] at h hk
      rw [locAt_succ (by omega)] at h
      exact hl _ (List.getElem_mem _) h
  · obtain ⟨a1, a2, a3, a4⟩ := hsame2
    obtain ⟨b1, b2, b3, b4⟩ := hsm1
    obtain ⟨c1, c2, c3, c4⟩ := hsm3
    exact ⟨by rw [c1, b1, a1], by rw [c2, b2, a2], by rw [c3, b3, a3], by rw [c4, b4, a4]⟩

/-! ## Lists of blocks: separation, disjointness, byte count -/

theorem separated_mid {P Q : List Blk} {m : Blk} :
    Separated (P ++ m :: Q) ↔
      Separated P ∧ Separated Q ∧ (∀ x ∈ P, endOf x < m.1) ∧ (∀ y ∈ Q, endOf m < y.1) ∧
        (∀ x ∈ P, ∀ y ∈ Q, endOf x < y.1) := by
  simp only [Separated, List.pairwise_append, List.pairwise_cons, List.mem_cons]
  constructor
  · rintro ⟨h1, ⟨h2, h3⟩, h4⟩
    exact ⟨h1, h3, fun x hx => h4 x hx m (Or.inl rfl), h2,
      fun x hx y hy => h4 x hx y (Or.inr hy)⟩
  · rintro ⟨h1, h2, h3, h4, h5⟩
    refine ⟨h1, ⟨h4, h2⟩, ?_⟩
    intro x hx y hy
    rcases hy with rfl | hy
    · exact h3 x hx
    · exact h5 x hx y hy

theorem separated_append {P Q : List Blk} :
    Separated (P ++ Q) ↔ Separated P ∧ Separated Q ∧ (∀ x ∈ P, ∀ y ∈ Q, endOf x < y.1) := by
  simp only [Separated, List.pairwise_append]

theorem sortedDisj_mid {P Q : List Blk} {m : Blk} :
    SortedDisj (P ++ m :: Q) ↔
      SortedDisj P ∧ SortedDisj Q ∧ (∀ x ∈ P, endOf x ≤ m.1) ∧ (∀ y ∈ Q, endOf m ≤ y.1) ∧
        (∀ x ∈ P, ∀ y ∈ Q, endOf x ≤ y.1) := by
  simp only [SortedDisj, List.pairwise_append, List.pairwise_cons, List.mem_cons]
  constructor
  · rintro ⟨h1, ⟨h2, h3⟩, h4⟩
    exact ⟨h1, h3, fun x hx => h4 x hx m (Or.inl rfl), h2,
      fun x hx y hy => h4 x hx y (Or.inr hy)⟩
  · rintro ⟨h1, h2, h3, h4, h5⟩
    refine ⟨h1, ⟨h4, h2⟩, ?_⟩
    intro x hx y hy
    rcases hy with rfl | hy
    · exact h3 x hx
    · exact h5 x hx y hy

theorem sortedDisj_append {P Q : List Blk} :
    SortedDisj (P ++ Q) ↔ SortedDisj P ∧ SortedDisj Q ∧ (∀ x ∈ P, ∀ y ∈ Q, endOf x ≤ y.1) := by
  simp only [SortedDisj, List.pairwise_append]

theorem Separated.sortedDisj {L : List Blk} (h : Separated L) : SortedDisj L :=
  List.Pairwise.imp (fun hxy => Nat.le_of_lt hxy) h

theorem SortedDisj.addrSorted {L : List Blk} (h : SortedDisj L) : AddrSorted L :=
  List.Pairwise.imp (fun {x y} hxy => by
    simp only [endOf, METADATA_SIZE] at hxy; omega) h

theorem Separated.noAdjacent {L : List Blk} (h : Separated L) : NoAdjacent L :=
  List.Pairwise.chain' (List.Pairwise.imp (fun hxy => Nat.ne_of_lt hxy) h)

theorem disjointBlk_symm {x y : Blk} (h : DisjointBlk x y) : DisjointBlk y x := Or.symm h

theorem allDisj_perm {L L' : List Blk} (p : L.Perm L') (h : L.Pairwise DisjointBlk) :
    L'.Pairwise DisjointBlk :=
  (p.pairwise_iff (fun {_ _} hxy => disjointBlk_symm hxy)).1 h

/-- A block may be replaced by two blocks that tile it. -/
theorem allDisj_split {e e1 e2 : Blk} {M : List Blk} (h : (e :: M).Pairwise DisjointBlk)
    (h1 : e1.1 = e.1) (h2 : endOf e1 = e2.1) (h3 : endOf e2 = endOf e) :
    (e1 :: e2 :: M).Pairwise DisjointBlk := by
  rw [List.pairwise_cons] at h
  obtain ⟨he, hM⟩ := h
  refine List.pairwise_cons.2 ⟨?_, List.pairwise_cons.2 ⟨?_, hM⟩⟩
  · intro y hy
    rcases List.mem_cons.1 hy with rfl | hy
    · exact Or.inl (Nat.le_of_eq h2)
    · have := he y hy
      simp only [DisjointBlk, endOf, METADATA_SIZE] at *
      omega
  · intro y hy
    have := he y hy
    simp only [DisjointBlk, endOf, METADATA_SIZE] at *
    omega

/-- Two adjacent blocks may be replaced by their union. -/
theorem allDisj_merge {x y : Blk} {M : List Blk} (h : (x :: y :: M).Pairwise DisjointBlk)
    (hadj : endOf x = y.1) :
    ((x.1, x.2 + (METADATA_SIZE + y.2)) :: M).Pairwise DisjointBlk := by
  rw [List.pairwise_cons, List.pairwise_cons] at h
  obtain ⟨hx, hy, hM⟩ := h
  refine List.pairwise_cons.2 ⟨?_, hM⟩
  intro z hz
  have h1 := hx z (List.mem_cons_of_mem _ hz)
  have h2 := hy z hz
  simp only [DisjointBlk, endOf, METADATA_SIZE] at *
  omega

theorem totalBytes_append (L L' : List Blk) :
    totalBytes (L ++ L') = totalBytes L + totalBytes L' := by
  simp [totalBytes]

theorem totalBytes_cons (x : Blk) (L : List Blk) :
    totalBytes (x :: L) = METADATA_SIZE + x.2 + totalBytes L := by
  simp [totalBytes]

@[simp] theorem totalBytes_nil : totalBytes [] = 0 := rfl

theorem totalBytes_perm {L L' : List Blk} (p : L.Perm L') : totalBytes L = totalBytes L' := by
  unfold totalBytes
  exact (p.map _).sum_eq

/-! ## `popA` -/

theorem popA_eq {n : Nat} {P Q : List Blk} {e : Blk} :
    popA n P.length (P ++ e :: Q) =
      if e.2 > n + METADATA_SIZE then
        ((e.1, n), P ++ (e.1 + METADATA_SIZE + n, e.2 - (n + METADATA_SIZE)) :: Q)
      else (e, P ++ Q) := by
  unfold popA
  have h1 : (P ++ e :: Q)[P.length]? = some e := by
    rw [List.getElem?_append_right (le_refl _)]; simp
  have h2 : (P ++ e :: Q).take P.length = P := by simp
  have h3 : (P ++ e :: Q).drop (P.length + 1) = Q := by
    rw [← List.drop_drop]; simp
  rw [h1]
  simp only [h2, h3]

theorem list_split_at {α : Type} (L : List α) {i : Nat} (hi : i < L.length) :
    L = L.take i ++ L[i] :: L.drop (i + 1) ∧ (L.take i).length = i := by
  constructor
  · conv_lhs => rw [← List.take_append_drop i L]
    rw [List.drop_eq_getElem_cons hi]
  · rw [List.length_take]; omega

/-! ## More fuel does not change a result -/

theorem scanBestFit_mono {n : Nat} {s : State} :
    ∀ (fuel : Nat) (best : Option Loc) (ptr : Loc) (r : Option Loc) (fuel' : Nat),
      scanBestFit n s fuel best ptr = some r → fuel ≤ fuel' →
      scanBestFit n s fuel' best ptr = some r := by
  intro fuel
  induction fuel with
  | zero => intro best ptr r fuel' h; simp [scanBestFit] at h
  | succ fuel ih =>
    intro best ptr r fuel' h hle
    obtain ⟨f', rfl⟩ : ∃ f, fuel' = f + 1 := ⟨fuel' - 1, by omega⟩
    simp only [scanBestFit] at h ⊢
    by_cases h1 : s.load ptr = NULL
    · simpa [h1] using h
    · by_cases h2 : (s.mem (s.load ptr)).size = n
      · simpa [h1, h2] using h
      · simp only [h1, h2, if_false] at h ⊢
        exact ih _ _ _ _ h (by omega)

theorem findInsertPos_mono {b : Nat} {s : State} :
    ∀ (fuel : Nat) (it : Loc) (prev : Nat) (r : Loc × Nat) (fuel' : Nat),
      findInsertPos b s fuel it prev = some r → fuel ≤ fuel' →
      findInsertPos b s fuel' it prev = some r := by
  intro fuel
  induction fuel with
  | zero => intro it prev r fuel' h; simp [findInsertPos] at h
  | succ fuel ih =>
    intro it prev r fuel' h hle
    obtain ⟨f', rfl⟩ : ∃ f, fuel' = f + 1 := ⟨fuel' - 1, by omega⟩
    rw [findInsertPos] at h ⊢
    by_cases h1 : s.load it ≠ NULL ∧ s.load it < b
    · rw [if_pos h1] at h ⊢
      exact ih _ _ _ _ h (Nat.le_of_succ_le_succ hle)
    · rw [if_neg h1] at h ⊢
      exact h

theorem mallocFrom_mono {hd : Loc} {fuel fuel' n : Nat} {s : State} {r : Nat × State}
    (h : mallocFrom hd fuel n s = some r) (hle : fuel ≤ fuel') :
    mallocFrom hd fuel' n s = some r := by
  unfold mallocFrom at h ⊢
  by_cases hn : n = 0
  · simpa [hn] using h
  · simp only [hn, if_false] at h ⊢
    cases hs : scanBestFit n s fuel none hd with
    | none => rw [hs] at h; cases h
    | some b =>
      rw [scanBestFit_mono _ _ _ _ _ hs hle]
      rw [hs] at h
      exact h

theorem freeFrom_mono {hd : Loc} {fuel fuel' p : Nat} {s s' : State}
    (h : freeFrom hd fuel p s = some s') (hle : fuel ≤ fuel') :
    freeFrom hd fuel' p s = some s' := by
  unfold freeFrom at h ⊢
  by_cases hn : p = NULL
  · simpa [hn] using h
  · simp only [hn, if_false] at h ⊢
    cases hs : findInsertPos ((p + WORD - METADATA_SIZE) % WORD) s fuel hd NULL with
    | none => rw [hs] at h; cases h
    | some b =>
      rw [findInsertPos_mono _ _ _ _ _ hs hle]
      rw [hs] at h
      exact h

/-! ## The allocation functions on a well-formed list -/

theorem mallocFrom_eq {s : State} {hd : Loc} {xs : List Nat} {n fuel : Nat}
    (h : FreeList s hd xs) (hf : xs.length < fuel) (hn : n ≠ 0) :
    mallocFrom hd fuel n s =
      match bestFit n (sizesOf s xs) with
      | none => some (reqSysBlk n s)
      | some i => some (popFreeBlk (locAt hd xs i) n s) := by
  unfold mallocFrom
  rw [if_neg hn, scanBestFit_eq n fuel h hf]
  cases bestFit n (sizesOf s xs) <;> rfl

theorem sizesOf_getElem? (s : State) (xs : List Nat) (i : Nat) :
    (sizesOf s xs)[i]? = xs[i]?.map (fun a => (s.mem a).size) := by
  simp [sizesOf]

/-- The entry selected by the scan exists and its recorded size covers the
request. -/
theorem bestFit_sizesOf {s : State} {xs : List Nat} {n i : Nat}
    (h : bestFit n (sizesOf s xs) = some i) :
    ∃ hi : i < xs.length, n ≤ (s.mem xs[i]).size := by
  obtain ⟨z, hz, hn⟩ := bestFit_some h
  have hi : i < xs.length := by
    have := bestFit_lt_length h
    simpa [sizesOf] using this
  refine ⟨hi, ?_⟩
  rw [sizesOf_getElem?, List.getElem?_eq_getElem hi] at hz
  simp only [Option.map_some', Option.some.injEq] at hz
  omega

/-! ## Allocation preserves the properties of the block lists -/

theorem pop_split_abs {P Q U : List Blk} {e : Blk} {n : Nat}
    (hgt : n + METADATA_SIZE < e.2)
    (hsep : Separated (P ++ e :: Q))
    (hdisj : (P ++ e :: Q ++ U).Pairwise DisjointBlk) :
    Separated (P ++ (e.1 + METADATA_SIZE + n, e.2 - (n + METADATA_SIZE)) :: Q) ∧
    (P ++ (e.1 + METADATA_SIZE + n, e.2 - (n + METADATA_SIZE)) :: Q ++ (e.1, n) :: U).Pairwise
      DisjointBlk ∧
    totalBytes (P ++ (e.1 + METADATA_SIZE + n, e.2 - (n + METADATA_SIZE)) :: Q ++ (e.1, n) :: U) =
      totalBytes (P ++ e :: Q ++ U) := by
  refine ⟨?_, ?_, ?_⟩
  · rw [separated_mid] at hsep ⊢
    obtain ⟨h1, h2, h3, h4, h5⟩ := hsep
    refine ⟨h1, h2, ?_, ?_, h5⟩
    · intro x hx
      have := h3 x hx
      simp only [endOf, METADATA_SIZE] at *
      omega
    · intro y hy
      have := h4 y hy
      simp only [endOf, METADATA_SIZE] at *
      omega
  · have p1 : (P ++ e :: Q ++ U).Perm (e :: (P ++ Q ++ U)) := by
      rw [List.append_assoc, List.append_assoc]
      exact List.perm_middle
    have h1 := allDisj_perm p1 hdisj
    have h2 := @allDisj_split e (e.1, n)
      (e.1 + METADATA_SIZE + n, e.2 - (n + METADATA_SIZE)) _ h1 rfl rfl
      (by simp only [endOf, METADATA_SIZE] at *; omega)
    refine allDisj_perm ?_ h2
    have p2 : (P ++ (e.1 + METADATA_SIZE + n, e.2 - (n + METADATA_SIZE)) :: Q ++ (e.1, n) :: U).Perm
        ((e.1, n) :: (P ++ (e.1 + METADATA_SIZE + n, e.2 - (n + METADATA_SIZE)) :: Q ++ U)) :=
      List.perm_middle
    refine List.Perm.trans ?_ p2.symm
    refine List.Perm.cons _ ?_
    rw [List.append_assoc, List.append_assoc]
    exact List.perm_middle.symm
  · simp only [totalBytes_append, totalBytes_cons]
    simp only [METADATA_SIZE] at *
    omega

theorem pop_nosplit_abs {P Q U : List Blk} {e : Blk}
    (hsep : Separated (P ++ e :: Q))
    (hdisj : (P ++ e :: Q ++ U).Pairwise DisjointBlk) :
    Separated (P ++ Q) ∧ (P ++ Q ++ e :: U).Pairwise DisjointBlk ∧
    totalBytes (P ++ Q ++ e :: U) = totalBytes (P ++ e :: Q ++ U) := by
  refine ⟨?_, ?_, ?_⟩
  · rw [separated_mid] at hsep
    rw [separated_append]
    exact ⟨hsep.1, hsep.2.1, hsep.2.2.2.2⟩
  · have p1 : (P ++ e :: Q ++ U).Perm (e :: (P ++ Q ++ U)) := by
      rw [List.append_assoc, List.append_assoc]
      exact List.perm_middle
    exact allDisj_perm (p1.trans List.perm_middle.symm) hdisj
  · simp only [totalBytes_append, totalBytes_cons]
    omega

theorem sortedDisj_blocksOf {s : State} {xs : List Nat} :
    SortedDisj (blocksOf s xs) ↔
      xs.Pairwise (fun a b => a + METADATA_SIZE + (s.mem a).size ≤ b) := by
  unfold SortedDisj blocksOf
  rw [List.pairwise_map]
  rfl

theorem mem_blocksOf {s : State} {xs : List Nat} {x : Blk} :
    x ∈ blocksOf s xs ↔ ∃ a ∈ xs, x = (a, (s.mem a).size) := by
  unfold blocksOf
  rw [List.mem_map]
  constructor
  · rintro ⟨a, ha, rfl⟩; exact ⟨a, ha, rfl⟩
  · rintro ⟨a, ha, rfl⟩; exact ⟨a, ha, rfl⟩

/-- A free block and an allocated block do not overlap. -/
theorem InvX.free_alloc_disj {hd : Loc} {s : State} {xs H : List Nat}
    (h : InvX hd s xs H) {a b : Nat} (ha : a ∈ xs) (hb : b ∈ H) :
    a + METADATA_SIZE + (s.mem a).size ≤ b ∨ b + METADATA_SIZE + (s.mem b).size ≤ a :=
  (List.pairwise_append.1 h.disj).2.2 (a, (s.mem a).size) (mem_blocksOf.2 ⟨a, ha, rfl⟩)
    (b, (s.mem b).size) (mem_blocksOf.2 ⟨b, hb, rfl⟩)

/-! ## Allocation preserves the invariant -/

theorem blocksOf_split_at (s : State) (xs : List Nat) {i : Nat} (hi : i < xs.length) :
    blocksOf s xs = blocksOf s (xs.take i) ++ (xs[i], (s.mem xs[i]).size) ::
      blocksOf s (xs.drop (i + 1)) := by
  conv_lhs => rw [(list_split_at xs hi).1]
  rw [blocksOf_append, blocksOf_cons]

theorem InvX.malloc_hit {hd : Loc} {s : State} {xs H : List Nat} (h : InvX hd s xs H)
    {i n : Nat} (hi : i < xs.length) (hge : n ≤ (s.mem xs[i]).size) :
    ∃ xs', InvX hd (popFreeBlk (locAt hd xs i) n s).2 xs' (xs[i] :: H) ∧
      (popFreeBlk (locAt hd xs i) n s).1 = xs[i] + METADATA_SIZE ∧
      blocksOf (popFreeBlk (locAt hd xs i) n s).2 xs' = (popA n i (blocksOf s xs)).2 ∧
      (xs[i], ((popFreeBlk (locAt hd xs i) n s).2.mem xs[i]).size) =
        (popA n i (blocksOf s xs)).1 := by
  have hmem : xs[i] ∈ xs := List.getElem_mem _
  have hnd := h.wf.nodup
  have hF := blocksOf_split_at s xs hi
  have hlenP : (blocksOf s (xs.take i)).length = i := by
    rw [blocksOf_length]; exact (list_split_at xs hi).2
  have hsep := h.sep
  have hdisj := h.disj
  rw [hF] at hsep hdisj
  have hpop : popA n i (blocksOf s xs) =
      if (s.mem xs[i]).size > n + METADATA_SIZE then
        ((xs[i], n), blocksOf s (xs.take i) ++
          (xs[i] + METADATA_SIZE + n, (s.mem xs[i]).size - (n + METADATA_SIZE)) ::
            blocksOf s (xs.drop (i + 1)))
      else ((xs[i], (s.mem xs[i]).size), blocksOf s (xs.take i) ++ blocksOf s (xs.drop (i + 1))) := by
    conv_lhs => rw [hF]
    have := popA_eq (n := n) (P := blocksOf s (xs.take i))
      (Q := blocksOf s (xs.drop (i + 1))) (e := (xs[i], (s.mem xs[i]).size))
    rw [hlenP] at this
    exact this
  have hne1 : ∀ a ∈ xs.take i, a ≠ xs[i] := fun a ha => by
    have := Nodup.ne_getD_of_mem_take hnd (le_refl i) hi ha
    rwa [List.getD_eq_getElem _ _ hi] at this
  have hne2 : ∀ a ∈ xs.drop (i + 1), a ≠ xs[i] := fun a ha => by
    have := Nodup.ne_getD_of_mem_drop hnd (show i < i + 1 by omega) ha
    rwa [List.getD_eq_getElem _ _ hi] at this
  have hHe : ∀ a ∈ H, a ≠ xs[i] := fun a ha heq => by
    have := h.free_alloc_disj hmem ha
    rw [heq] at this
    simp only [METADATA_SIZE] at this
    omega
  by_cases hgt : n + METADATA_SIZE < (s.mem xs[i]).size
  · -- the block is split
    obtain ⟨h1, h2, h3, h4, h5⟩ := popFreeBlk_split_spec h.wf hi hgt
    have hrem := h.wf.rem_not_mem hi hgt
    have hnr : ∀ a ∈ xs, a ≠ xs[i] + METADATA_SIZE + n := fun a ha hh => hrem (hh ▸ ha)
    have hHr : ∀ a ∈ H, a ≠ xs[i] + METADATA_SIZE + n := fun a ha heq => by
      have := h.free_alloc_disj hmem ha
      rw [heq] at this
      simp only [METADATA_SIZE] at this hgt
      omega
    rw [hpop, if_pos hgt]
    obtain ⟨a1, a2, a3⟩ := pop_split_abs (U := blocksOf s H) (e := (xs[i], (s.mem xs[i]).size))
      (n := n) hgt hsep hdisj
    have hb1 : blocksOf (popFreeBlk (locAt hd xs i) n s).2
        (xs.take i ++ (xs[i] + METADATA_SIZE + n) :: xs.drop (i + 1)) =
        blocksOf s (xs.take i) ++
          (xs[i] + METADATA_SIZE + n, (s.mem xs[i]).size - (n + METADATA_SIZE)) ::
            blocksOf s (xs.drop (i + 1)) := by
      rw [blocksOf_append, blocksOf_cons, h3 (xs[i] + METADATA_SIZE + n),
        if_neg (by simp only [METADATA_SIZE]; omega), if_pos rfl]
      congr 1
      · exact blocksOf_congr (fun a ha => by
          rw [h3, if_neg (hne1 a ha), if_neg (hnr a (List.mem_of_mem_take ha))])
      · congr 1
        exact blocksOf_congr (fun a ha => by
          rw [h3, if_neg (hne2 a ha), if_neg (hnr a (List.mem_of_mem_drop ha))])
    have hb2 : blocksOf (popFreeBlk (locAt hd xs i) n s).2 (xs[i] :: H) =
        (xs[i], n) :: blocksOf s H := by
      rw [blocksOf_cons, h3 xs[i], if_pos rfl]
      congr 1
      exact blocksOf_congr (fun a ha => by rw [h3, if_neg (hHe a ha), if_neg (hHr a ha)])
    have hin := h.wf.inHeap _ hmem
    refine ⟨xs.take i ++ (xs[i] + METADATA_SIZE + n) :: xs.drop (i + 1), ?_, h1, hb1, ?_⟩
    · refine ⟨⟨h.wf.root, h2, ?_, ?_, by rw [h5.1, h5.2.2.1]; exact h.wf.brk_le,
        by rw [h5.2.2.1]; exact h.wf.limit_lt⟩, by rw [hb1]; exact a1, by rw [hb1, hb2]; exact a2,
        ?_, ?_, by rw [h5.2.1]; exact h.startPos, ?_, by rw [h5.2.1, h5.2.2.2, h5.1]; exact h.counter⟩
      · rw [← sortedDisj_blocksOf, hb1]; exact a1.sortedDisj
      · intro a ha
        rw [h5.1, h3]
        rcases List.mem_append.1 ha with ha | ha
        · rw [if_neg (hne1 a ha), if_neg (hnr a (List.mem_of_mem_take ha))]
          exact h.wf.inHeap a (List.mem_of_mem_take ha)
        · rcases List.mem_cons.1 ha with rfl | ha
          · rw [if_neg (by simp only [METADATA_SIZE]; omega), if_pos rfl]
            simp only [METADATA_SIZE] at *
            omega
          · rw [if_neg (hne2 a ha), if_neg (hnr a (List.mem_of_mem_drop ha))]
            exact h.wf.inHeap a (List.mem_of_mem_drop ha)
      · intro a ha
        rw [h5.2.1]
        rcases List.mem_append.1 ha with ha | ha
        · exact h.freeIn a (List.mem_of_mem_take ha)
        · rcases List.mem_cons.1 ha with rfl | ha
          · have := h.freeIn _ hmem
            omega
          · exact h.freeIn a (List.mem_of_mem_drop ha)
      · intro a ha
        rw [h5.1, h5.2.1, h3]
        rcases List.mem_cons.1 ha with rfl | ha
        · rw [if_pos rfl]
          have := h.freeIn _ hmem
          simp only [METADATA_SIZE] at *
          omega
        · rw [if_neg (hHe a ha), if_neg (hHr a ha)]
          exact h.allocIn a ha
      · rw [hb1, hb2, h5.2.2.2, a3, ← hF]
        exact h.total
    · rw [h3, if_pos rfl]
  · -- the whole block is handed out
    obtain ⟨h1, h2, h3, h4, h5⟩ := popFreeBlk_nosplit_spec h.wf hi hge (Nat.le_of_not_lt hgt)
    rw [hpop, if_neg (by omega)]
    obtain ⟨a1, a2, a3⟩ := pop_nosplit_abs (U := blocksOf s H)
      (e := (xs[i], (s.mem xs[i]).size)) hsep hdisj
    have hb1 : blocksOf (popFreeBlk (locAt hd xs i) n s).2 (xs.take i ++ xs.drop (i + 1)) =
        blocksOf s (xs.take i) ++ blocksOf s (xs.drop (i + 1)) := by
      rw [← blocksOf_append]
      exact blocksOf_congr (fun a _ => h3 a)
    have hb2 : blocksOf (popFreeBlk (locAt hd xs i) n s).2 (xs[i] :: H) =
        (xs[i], (s.mem xs[i]).size) :: blocksOf s H := by
      rw [blocksOf_cons, h3 xs[i]]
      congr 1
      exact blocksOf_congr (fun a _ => h3 a)
    refine ⟨xs.take i ++ xs.drop (i + 1), ?_, h1, hb1, ?_⟩
    · refine ⟨⟨h.wf.root, h2, ?_, ?_, by rw [h5.1, h5.2.2.1]; exact h.wf.brk_le,
        by rw [h5.2.2.1]; exact h.wf.limit_lt⟩, by rw [hb1]; exact a1, by rw [hb1, hb2]; exact a2,
        ?_, ?_, by rw [h5.2.1]; exact h.startPos, ?_, by rw [h5.2.1, h5.2.2.2, h5.1]; exact h.counter⟩
      · rw [← sortedDisj_blocksOf, hb1]; exact a1.sortedDisj
      · intro a ha
        rw [h5.1, h3]
        rcases List.mem_append.1 ha with ha | ha
        · exact h.wf.inHeap a (List.mem_of_mem_take ha)
        · exact h.wf.inHeap a (List.mem_of_mem_drop ha)
      · intro a ha
        rw [h5.2.1]
        rcases List.mem_append.1 ha with ha | ha
        · exact h.freeIn a (List.mem_of_mem_take ha)
        · exact h.freeIn a (List.mem_of_mem_drop ha)
      · intro a ha
        rw [h5.1, h5.2.1, h3]
        rcases List.mem_cons.1 ha with rfl | ha
        · exact ⟨h.freeIn _ hmem, h.wf.inHeap _ hmem⟩
        · exact h.allocIn a ha
      · rw [hb1, hb2, h5.2.2.2, a3, ← hF]
        exact h.total
    · rw [h3]

/-- A granted extension is one of `H + n < 2 ^ 63` bytes that fits below the
limit of the heap. -/
theorem OsGrants.bounds {n : Nat} {s : State} (h : OsGrants n s) :
    METADATA_SIZE + n < 2 ^ 63 ∧ s.brk + (METADATA_SIZE + n) ≤ s.heap_limit := by
  obtain ⟨⟨h1, h2⟩, h3⟩ := h
  have hm : (METADATA_SIZE + n) % WORD = METADATA_SIZE + n := Nat.mod_eq_of_lt h3
  rw [hm] at h1 h2
  unfold sbrk at h1 h2
  by_cases c1 : METADATA_SIZE + n < 2 ^ 63
  · rw [if_pos c1] at h1 h2
    by_cases c2 : s.brk + (METADATA_SIZE + n) ≤ s.heap_limit
    · exact ⟨c1, c2⟩
    · rw [if_neg c2] at h2
      exact absurd h2 (Nat.lt_irrefl _)
  · rw [if_neg c1] at h1 h2
    by_cases c2 : s.heap_start + (WORD - (METADATA_SIZE + n)) ≤ s.brk
    · rw [if_pos c2] at h2
      have : s.brk - (WORD - (METADATA_SIZE + n)) ≤ s.brk := Nat.sub_le _ _
      exact absurd h2 (by simp only at *; omega)
    · rw [if_neg c2] at h2
      exact absurd h2 (Nat.lt_irrefl _)

theorem InvX.malloc_miss {hd : Loc} {s : State} {xs H : List Nat} (h : InvX hd s xs H)
    {n : Nat} (hn : METADATA_SIZE + n < 2 ^ 63)
    (hg : s.brk + (METADATA_SIZE + n) ≤ s.heap_limit) :
    InvX hd (reqSysBlk n s).2 xs (s.brk :: H) ∧
      (reqSysBlk n s).1 = s.brk + METADATA_SIZE ∧
      blocksOf (reqSysBlk n s).2 xs = blocksOf s xs ∧
      ((reqSysBlk n s).2.mem s.brk).size = n := by
  obtain ⟨h1, h2, h3, h4, h5, h6, h7⟩ := reqSysBlk_spec hn hg h.wf.limit_lt
  have hxlt : ∀ a ∈ xs, a ≠ s.brk := fun a ha heq => by
    have := h.wf.inHeap a ha
    simp only [METADATA_SIZE] at this; omega
  have hHlt : ∀ a ∈ H, a ≠ s.brk := fun a ha heq => by
    have := (h.allocIn a ha).2
    simp only [METADATA_SIZE] at this; omega
  have hbF : blocksOf (reqSysBlk n s).2 xs = blocksOf s xs :=
    blocksOf_congr (fun a ha => by rw [h2, if_neg (hxlt a ha)])
  have hbH : blocksOf (reqSysBlk n s).2 (s.brk :: H) = (s.brk, n) :: blocksOf s H := by
    rw [blocksOf_cons, h2, if_pos rfl]
    congr 1
    exact blocksOf_congr (fun a ha => by rw [h2, if_neg (hHlt a ha)])
  have hlim := h.wf.limit_lt
  have hehs : (s.entire_heap_size + (METADATA_SIZE + n)) % WORD =
      s.entire_heap_size + (METADATA_SIZE + n) := by
    apply Nat.mod_eq_of_lt
    have := h.counter
    omega
  have hchain : FreeList (reqSysBlk n s).2 hd xs := by
    unfold FreeList
    rw [h3 hd, if_neg (h.wf.root _)]
    refine Seg.congr ?_ h.wf.chain
    intro x hx
    rw [h3, if_neg]
    intro hh
    injection hh with hh
    exact hxlt x hx hh
  refine ⟨⟨⟨h.wf.root, hchain, ?_, ?_, by rw [h4, h6]; exact hg, by rw [h6]; exact hlim⟩,
    by rw [hbF]; exact h.sep, ?_, ?_, ?_, by rw [h5]; exact h.startPos, ?_, ?_⟩, h1, hbF,
    by rw [h2, if_pos rfl]⟩
  · rw [← sortedDisj_blocksOf, hbF]; exact h.sep.sortedDisj
  · intro a ha
    rw [h4, h2, if_neg (hxlt a ha)]
    have := h.wf.inHeap a ha
    omega
  · rw [hbF, hbH]
    refine allDisj_perm List.perm_middle.symm (List.pairwise_cons.2 ⟨?_, h.disj⟩)
    intro y hy
    right
    rcases List.mem_append.1 hy with hy | hy
    · obtain ⟨a, ha, rfl⟩ := mem_blocksOf.1 hy
      exact h.wf.inHeap a ha
    · obtain ⟨a, ha, rfl⟩ := mem_blocksOf.1 hy
      exact (h.allocIn a ha).2
  · intro a ha
    rw [h5]
    exact h.freeIn a ha
  · intro a ha
    rw [h4, h5, h2]
    rcases List.mem_cons.1 ha with rfl | ha
    · rw [if_pos rfl]
      have := h.counter
      constructor <;> omega
    · rw [if_neg (hHlt a ha)]
      have := h.allocIn a ha
      constructor <;> omega
  · rw [hbF, hbH, h7, hehs, totalBytes_append, totalBytes_cons, ← h.total, totalBytes_append]
    simp only
    omega
  · rw [h4, h5, h7, hehs]
    have := h.counter
    omega

/-! ## The release seen on lists of blocks -/

theorem tryMergeA_mid (P Q : List Blk) (x y : Blk) :
    tryMergeA P.length (P ++ x :: y :: Q) =
      if endOf x = y.1 then (P.length, P ++ (x.1, x.2 + (METADATA_SIZE + y.2)) :: Q)
      else (P.length + 1, P ++ x :: y :: Q) := by
  unfold tryMergeA
  have h1 : (P ++ x :: y :: Q)[P.length]? = some x := by
    rw [List.getElem?_append_right (le_refl _)]; simp
  have h2 : (P ++ x :: y :: Q)[P.length + 1]? = some y := by
    rw [List.getElem?_append_right (by omega)]; simp
  have h3 : (P ++ x :: y :: Q).take P.length = P := by simp
  have h4 : (P ++ x :: y :: Q).drop (P.length + 2) = Q := by
    rw [← List.drop_drop]; simp
  rw [h1, h2]
  simp only [h3, h4, endOf]

theorem tryMergeA_last (P : List Blk) (x : Blk) :
    tryMergeA P.length (P ++ [x]) = (P.length, P ++ [x]) := by
  unfold tryMergeA
  have h1 : (P ++ [x])[P.length]? = some x := by
    rw [List.getElem?_append_right (le_refl _)]; simp
  have h2 : (P ++ [x])[P.length + 1]? = none := by
    rw [List.getElem?_eq_none]; simp
  rw [h1, h2]

theorem coalesce_nil_left (b : Blk) (Q : List Blk) :
    coalesce [] b Q =
      match Q with
      | c :: Q' => if endOf b = c.1 then (b.1, b.2 + (METADATA_SIZE + c.2)) :: Q' else b :: Q
      | [] => [b] := by
  unfold coalesce absorbRight absorbLeft
  cases Q <;> simp

theorem coalesce_concat_left (P0 : List Blk) (p b : Blk) (Q : List Blk) :
    coalesce (P0 ++ [p]) b Q =
      if endOf p = b.1 then
        match Q with
        | c :: Q' =>
          if endOf (p.1, p.2 + (METADATA_SIZE + b.2)) = c.1 then
            P0 ++ (p.1, p.2 + (METADATA_SIZE + b.2) + (METADATA_SIZE + c.2)) :: Q'
          else P0 ++ (p.1, p.2 + (METADATA_SIZE + b.2)) :: Q
        | [] => P0 ++ [(p.1, p.2 + (METADATA_SIZE + b.2))]
      else
        match Q with
        | c :: Q' =>
          if endOf b = c.1 then P0 ++ [p] ++ (b.1, b.2 + (METADATA_SIZE + c.2)) :: Q'
          else P0 ++ [p] ++ b :: Q
        | [] => P0 ++ [p] ++ [b] := by
  unfold coalesce absorbRight absorbLeft
  by_cases h : endOf p = b.1 <;> cases Q <;> simp [h]

/-- The two merge attempts after the insertion between `P` and `Q` compute
`coalesce P b Q`. -/
theorem merge_steps_eq_coalesce (P Q : List Blk) (b : Blk) :
    (tryMergeA
      (if P.length = 0 then (0, P ++ b :: Q) else tryMergeA (P.length - 1) (P ++ b :: Q)).1
      (if P.length = 0 then (0, P ++ b :: Q) else tryMergeA (P.length - 1) (P ++ b :: Q)).2).2
      = coalesce P b Q := by
  rcases List.eq_nil_or_concat P with rfl | ⟨P0, p, rfl⟩
  · rw [coalesce_nil_left]
    simp only [List.length_nil, if_true, List.nil_append]
    cases Q with
    | nil => exact congrArg Prod.snd (tryMergeA_last [] b)
    | cons c Q' =>
      have := tryMergeA_mid [] Q' b c
      simp only [List.length_nil, List.nil_append] at this
      rw [this]
      by_cases h : endOf b = c.1 <;> simp [h]
  · rw [List.concat_eq_append, coalesce_concat_left]
    have hlen : (P0 ++ [p]).length = P0.length + 1 := by simp
    have hne : ¬ ((P0 ++ [p]).length = 0) := by omega
    rw [if_neg hne, hlen, Nat.add_sub_cancel]
    have hL : P0 ++ [p] ++ b :: Q = P0 ++ p :: b :: Q := by simp
    rw [hL, tryMergeA_mid]
    by_cases h : endOf p = b.1
    · simp only [h, if_true]
      cases Q with
      | nil => exact congrArg Prod.snd (tryMergeA_last P0 _)
      | cons c Q' =>
        rw [tryMergeA_mid]
        by_cases h2 : endOf (p.1, p.2 + (METADATA_SIZE + b.2)) = c.1
        · simp only [h2, if_true]
        · simp only [h2, if_false]
    · simp only [h, if_false]
      have e1 : P0 ++ p :: b :: Q = (P0 ++ [p]) ++ b :: Q := by simp
      have e2 : P0.length + 1 = (P0 ++ [p]).length := by simp
      rw [e1, e2]
      cases Q with
      | nil =>
        have := tryMergeA_last (P0 ++ [p]) b
        rw [this]
      | cons c Q' =>
        rw [tryMergeA_mid]
        by_cases h2 : endOf b = c.1
        · simp only [h2, if_true]
        · simp only [h2, if_false]

theorem freeA_eq_coalesce (b : Blk) (L : List Blk) :
    freeA b L = coalesce (L.take (insIdx b.1 (L.map Prod.fst))) b
      (L.drop (insIdx b.1 (L.map Prod.fst))) := by
  have hk : insIdx b.1 (L.map Prod.fst) ≤ L.length := by
    have := insIdx_le b.1 (L.map Prod.fst)
    simpa using this
  have hlen : (L.take (insIdx b.1 (L.map Prod.fst))).length = insIdx b.1 (L.map Prod.fst) := by
    rw [List.length_take]; omega
  have := merge_steps_eq_coalesce (L.take (insIdx b.1 (L.map Prod.fst)))
    (L.drop (insIdx b.1 (L.map Prod.fst))) b
  rw [hlen] at this
  rw [← this]
  rfl

/-! ## Release preserves the properties of the block lists -/

theorem absorbLeft_nil (b : Blk) : absorbLeft [] b = ([], b) := rfl

theorem absorbLeft_concat (P0 : List Blk) (p b : Blk) :
    absorbLeft (P0 ++ [p]) b =
      if endOf p = b.1 then (P0, (p.1, p.2 + (METADATA_SIZE + b.2))) else (P0 ++ [p], b) := by
  unfold absorbLeft
  simp

theorem absorbLeft_around {P Q U : List Blk} {b : Blk} (h : Around P b Q U) :
    Around (absorbLeft P b).1 (absorbLeft P b).2 Q U ∧
    (∀ x ∈ (absorbLeft P b).1, endOf x < (absorbLeft P b).2.1) ∧
    totalBytes (absorbLeft P b).1 + (METADATA_SIZE + (absorbLeft P b).2.2) =
      totalBytes P + (METADATA_SIZE + b.2) ∧
    (∀ x ∈ (absorbLeft P b).1, x ∈ P) ∧
    ((absorbLeft P b).2.1 = b.1 ∨ ∃ p ∈ P, (absorbLeft P b).2.1 = p.1) := by
  rcases List.eq_nil_or_concat P with rfl | ⟨P0, p, rfl⟩
  · rw [absorbLeft_nil]
    exact ⟨h, by simp, rfl, fun _ hx => hx, Or.inl rfl⟩
  · rw [List.concat_eq_append] at h ⊢
    rw [absorbLeft_concat]
    have hsP := h.sepP
    have hP0 : Separated P0 ∧ ∀ x ∈ P0, endOf x < p.1 := by
      have := (separated_mid (P := P0) (m := p) (Q := [])).1 hsP
      exact ⟨this.1, this.2.2.1⟩
    have hpb := h.left p (by simp)
    by_cases hadj : endOf p = b.1
    · rw [if_pos hadj]
      refine ⟨⟨hP0.1, h.sepQ, fun x hx y hy => h.cross x (by simp [hx]) y hy, ?_, ?_, ?_⟩,
        fun x hx => hP0.2 x hx, ?_, fun x hx => by simp [hx], Or.inr ⟨p, by simp, rfl⟩⟩
      · intro x hx
        exact Nat.le_of_lt (hP0.2 x hx)
      · intro y hy
        have := h.right y hy
        simp only [endOf, METADATA_SIZE] at *
        omega
      · have hd := h.disj
        have p1 : (b :: (P0 ++ [p] ++ (Q ++ U))).Perm (p :: b :: (P0 ++ (Q ++ U))) := by
          have : (P0 ++ [p] ++ (Q ++ U)).Perm (p :: (P0 ++ (Q ++ U))) := by
            rw [List.append_assoc]
            exact List.perm_middle
          exact (List.Perm.cons b this).trans (List.Perm.swap p b _)
        exact allDisj_merge (allDisj_perm p1 hd) hadj
      · simp only [totalBytes_append, totalBytes_cons, totalBytes_nil]
        omega
    · rw [if_neg hadj]
      refine ⟨h, ?_, rfl, fun _ hx => hx, Or.inl rfl⟩
      intro x hx
      rcases List.mem_append.1 hx with hx | hx
      · have := hP0.2 x hx
        simp only [endOf, METADATA_SIZE] at *
        omega
      · simp only [List.mem_singleton] at hx
        subst hx
        show endOf x < b.1
        omega

theorem absorbRight_around {P Q U : List Blk} {b : Blk} (h : Around P b Q U)
    (hl : ∀ x ∈ P, endOf x < b.1) :
    Separated (absorbRight (P, b) Q) ∧
    (absorbRight (P, b) Q ++ U).Pairwise DisjointBlk ∧
    totalBytes (absorbRight (P, b) Q) = totalBytes P + (METADATA_SIZE + b.2) + totalBytes Q ∧
    (∀ x ∈ absorbRight (P, b) Q, x.1 = b.1 ∨ (∃ p ∈ P, x.1 = p.1) ∨ ∃ q ∈ Q, x.1 = q.1) := by
  cases Q with
  | nil =>
    refine ⟨?_, ?_, ?_, ?_⟩
    · show Separated (P ++ [b])
      exact separated_mid.2 ⟨h.sepP, h.sepQ, hl, by simp, by simp⟩
    · show (P ++ [b] ++ U).Pairwise DisjointBlk
      have p1 : (b :: (P ++ ([] ++ U))).Perm (P ++ [b] ++ U) := by
        rw [List.nil_append, List.append_assoc]
        exact List.perm_middle.symm
      exact allDisj_perm p1 h.disj
    · show totalBytes (P ++ [b]) = _
      simp only [totalBytes_append, totalBytes_cons, totalBytes_nil]
      omega
    · intro x hx
      have hx' : x ∈ P ++ [b] := hx
      rcases List.mem_append.1 hx' with hx' | hx'
      · exact Or.inr (Or.inl ⟨x, hx', rfl⟩)
      · simp only [List.mem_singleton] at hx'
        exact Or.inl (by rw [hx'])
  | cons c Q' =>
    have hsQ := h.sepQ
    have hQ' : Separated Q' ∧ ∀ y ∈ Q', endOf c < y.1 := by
      have := (separated_mid (P := []) (m := c) (Q := Q')).1 hsQ
      exact ⟨this.2.1, this.2.2.2.1⟩
    have hbc := h.right c (by simp)
    by_cases hadj : endOf b = c.1
    · have e : absorbRight (P, b) (c :: Q') = P ++ (b.1, b.2 + (METADATA_SIZE + c.2)) :: Q' := by
        unfold absorbRight
        simp only [hadj, if_true]
      rw [e]
      refine ⟨?_, ?_, ?_, ?_⟩
      · refine separated_mid.2 ⟨h.sepP, hQ'.1, hl, ?_,
          fun x hx y hy => h.cross x hx y (by simp [hy])⟩
        intro y hy
        have := hQ'.2 y hy
        simp only [endOf, METADATA_SIZE] at *
        omega
      · have p1 : (b :: (P ++ (c :: Q' ++ U))).Perm (b :: c :: (P ++ (Q' ++ U))) :=
          List.Perm.cons b (by
            rw [List.cons_append]
            exact List.perm_middle)
        have h1 := allDisj_merge (allDisj_perm p1 h.disj) hadj
        refine allDisj_perm ?_ h1
        rw [List.append_assoc]
        exact List.perm_middle.symm
      · simp only [totalBytes_append, totalBytes_cons]
        omega
      · intro x hx
        rcases List.mem_append.1 hx with hx | hx
        · exact Or.inr (Or.inl ⟨x, hx, rfl⟩)
        · rcases List.mem_cons.1 hx with rfl | hx
          · exact Or.inl rfl
          · exact Or.inr (Or.inr ⟨x, by simp [hx], rfl⟩)
    · have e : absorbRight (P, b) (c :: Q') = P ++ b :: c :: Q' := by
        unfold absorbRight
        simp only [hadj, if_false]
      rw [e]
      refine ⟨?_, ?_, ?_, ?_⟩
      · refine separated_mid.2 ⟨h.sepP, h.sepQ, hl, ?_, h.cross⟩
        intro y hy
        rcases List.mem_cons.1 hy with rfl | hy
        · omega
        · have := hQ'.2 y hy
          simp only [endOf, METADATA_SIZE] at *
          omega
      · have p1 : (b :: (P ++ (c :: Q' ++ U))).Perm (P ++ b :: c :: Q' ++ U) := by
          rw [List.append_assoc]
          exact List.perm_middle.symm
        exact allDisj_perm p1 h.disj
      · simp only [totalBytes_append, totalBytes_cons]
        omega
      · intro x hx
        rcases List.mem_append.1 hx with hx | hx
        · exact Or.inr (Or.inl ⟨x, hx, rfl⟩)
        · rcases List.mem_cons.1 hx with rfl | hx
          · exact Or.inl rfl
          · exact Or.inr (Or.inr ⟨x, hx, rfl⟩)

/-- Coalescing keeps the free list separated, keeps all blocks disjoint and
conserves the bytes. -/
theorem coalesce_around {P Q U : List Blk} {b : Blk} (h : Around P b Q U) :
    Separated (coalesce P b Q) ∧
    (coalesce P b Q ++ U).Pairwise DisjointBlk ∧
    totalBytes (coalesce P b Q) = totalBytes P + (METADATA_SIZE + b.2) + totalBytes Q ∧
    (∀ x ∈ coalesce P b Q, x.1 = b.1 ∨ (∃ p ∈ P, x.1 = p.1) ∨ ∃ q ∈ Q, x.1 = q.1) := by
  obtain ⟨h1, h2, h3, h4, h5⟩ := absorbLeft_around h
  obtain ⟨r1, r2, r3, r4⟩ := absorbRight_around h1 h2
  refine ⟨r1, r2, by rw [← h3]; exact r3, ?_⟩
  intro x hx
  rcases r4 x hx with hx | ⟨p, hp, hx⟩ | hx
  · rcases h5 with h5 | ⟨p, hp, h5⟩
    · exact Or.inl (hx.trans h5)
    · exact Or.inr (Or.inl ⟨p, hp, hx.trans h5⟩)
  · exact Or.inr (Or.inl ⟨p, h4 p hp, hx⟩)
  · exact Or.inr (Or.inr hx)

/-! ## Release preserves the invariant -/

theorem insIdx_take_lt (b : Nat) (xs : List Nat) : ∀ x ∈ xs.take (insIdx b xs), x < b := by
  induction xs with
  | nil => intro x hx; simp at hx
  | cons y ys ih =>
    intro x hx
    unfold insIdx at hx ih
    by_cases hy : y < b
    · rw [List.takeWhile_cons_of_pos (by simpa using hy)] at hx
      simp only [List.length_cons, List.take_succ_cons, List.mem_cons] at hx
      rcases hx with rfl | hx
      · exact hy
      · exact ih x hx
    · rw [List.takeWhile_cons_of_neg (by simpa using hy)] at hx
      simp at hx

theorem insIdx_drop_head (b : Nat) (xs : List Nat) :
    ∀ y, (xs.drop (insIdx b xs)).head? = some y → b ≤ y := by
  induction xs with
  | nil => intro y hy; simp at hy
  | cons z zs ih =>
    intro y hy
    unfold insIdx at hy ih
    by_cases hz : z < b
    · rw [List.takeWhile_cons_of_pos (by simpa using hz)] at hy
      simp only [List.length_cons, List.drop_succ_cons] at hy
      exact ih y hy
    · rw [List.takeWhile_cons_of_neg (by simpa using hz)] at hy
      simp only [List.length_nil, List.drop_zero, List.head?_cons, Option.some.injEq] at hy
      omega

theorem InvX.alloc_nodup {hd : Loc} {s : State} {xs H : List Nat} (h : InvX hd s xs H) :
    H.Nodup := by
  have h1 : (blocksOf s H).Pairwise DisjointBlk := (List.pairwise_append.1 h.disj).2.1
  unfold blocksOf at h1
  rw [List.pairwise_map] at h1
  refine List.Pairwise.imp ?_ h1
  intro a b hab heq
  subst heq
  simp only [DisjointBlk, endOf, METADATA_SIZE] at hab
  omega

theorem InvX.alloc_not_free {hd : Loc} {s : State} {xs H : List Nat} (h : InvX hd s xs H)
    {b : Nat} (hb : b ∈ H) : b ∉ xs := by
  intro hx
  have := h.free_alloc_disj hx hb
  simp only [METADATA_SIZE] at this
  omega

theorem InvX.free {hd : Loc} {s : State} {xs H : List Nat} (h : InvX hd s xs H)
    {b fuel : Nat} (hb : b ∈ H) (hf : xs.length < fuel) :
    ∃ s' xs', freeFrom hd fuel (b + METADATA_SIZE) s = some s' ∧
      InvX hd s' xs' (H.erase b) ∧
      blocksOf s' xs' = freeA (b, (s.mem b).size) (blocksOf s xs) ∧ SameHeap s s' := by
  have hbx := h.alloc_not_free hb
  have hb0 : b ≠ NULL := by
    have := (h.allocIn b hb).1
    have := h.startPos
    simp only [NULL]; omega
  obtain ⟨s', xs', hfree, hc, hblocks, hsz, hld, hsame⟩ :=
    freeFrom_spec h.wf.chained hbx hb0 (h.allocIn b hb).2 hf
  have hndH := h.alloc_nodup
  -- the lists of blocks around `b`
  have hFsplit : blocksOf s xs = blocksOf s (xs.take (insIdx b xs)) ++
      blocksOf s (xs.drop (insIdx b xs)) := by
    rw [← blocksOf_append, List.take_append_drop]
  have hcoal : freeA (b, (s.mem b).size) (blocksOf s xs) =
      coalesce (blocksOf s (xs.take (insIdx b xs))) (b, (s.mem b).size)
        (blocksOf s (xs.drop (insIdx b xs))) := by
    rw [freeA_eq_coalesce]
    simp only [blocksOf_map_fst, blocksOf_take, blocksOf_drop]
  have hsep := h.sep
  rw [hFsplit] at hsep
  obtain ⟨sP, sQ, sPQ⟩ := separated_append.1 hsep
  have hleft : ∀ x ∈ blocksOf s (xs.take (insIdx b xs)), endOf x ≤ b := by
    intro x hx
    obtain ⟨a, ha, rfl⟩ := mem_blocksOf.1 hx
    have h1 := insIdx_take_lt b xs a ha
    have h2 := h.free_alloc_disj (List.mem_of_mem_take ha) hb
    simp only [endOf, METADATA_SIZE] at *
    omega
  have hright : ∀ y ∈ blocksOf s (xs.drop (insIdx b xs)),
      endOf (b, (s.mem b).size) ≤ y.1 := by
    intro y hy
    obtain ⟨a, ha, rfl⟩ := mem_blocksOf.1 hy
    have h2 := h.free_alloc_disj (List.mem_of_mem_drop ha) hb
    have hba : b ≤ a := by
      cases hq : xs.drop (insIdx b xs) with
      | nil => rw [hq] at ha; cases ha
      | cons c Q' =>
        have hc' := insIdx_drop_head b xs c (by rw [hq]; rfl)
        rw [hq] at ha
        rcases List.mem_cons.1 ha with rfl | ha'
        · exact hc'
        · have hs : (c :: Q').Pairwise (· < ·) := by
            rw [← hq]
            exact List.Pairwise.sublist (List.drop_sublist _ _) h.wf.sorted
          have := (List.pairwise_cons.1 hs).1 a ha'
          omega
    simp only [endOf, METADATA_SIZE] at *
    omega
  have hperm : (b :: H.erase b).Perm H := (List.perm_cons_erase hb).symm
  have hdisj : ((b, (s.mem b).size) :: (blocksOf s (xs.take (insIdx b xs)) ++
      (blocksOf s (xs.drop (insIdx b xs)) ++ blocksOf s (H.erase b)))).Pairwise DisjointBlk := by
    have h1 := h.disj
    rw [hFsplit] at h1
    refine allDisj_perm ?_ h1
    rw [List.append_assoc]
    have p1 : (blocksOf s H).Perm ((b, (s.mem b).size) :: blocksOf s (H.erase b)) := by
      have := (hperm.symm.map (fun a => (a, (s.mem a).size)))
      exact this
    refine ((List.Perm.append_left _ (List.Perm.append_left _ p1)).trans ?_)
    rw [← List.append_assoc]
    exact List.perm_middle.trans (by rw [List.append_assoc])
  have har : Around (blocksOf s (xs.take (insIdx b xs))) (b, (s.mem b).size)
      (blocksOf s (xs.drop (insIdx b xs))) (blocksOf s (H.erase b)) :=
    ⟨sP, sQ, sPQ, hleft, hright, hdisj⟩
  obtain ⟨r1, r2, r3, r4⟩ := coalesce_around har
  rw [← hcoal, ← hblocks] at r1 r2 r3 r4
  have hHe : ∀ a ∈ H.erase b, a ∈ H ∧ a ≠ b := fun a ha =>
    ⟨List.mem_of_mem_erase ha, fun heq => by
      rw [heq] at ha
      exact (List.Nodup.not_mem_erase hndH) ha⟩
  have hbH : blocksOf s' (H.erase b) = blocksOf s (H.erase b) :=
    blocksOf_congr (fun a ha => hsz a (h.alloc_not_free (hHe a ha).1) (hHe a ha).2)
  obtain ⟨e1, e2, e3, e4⟩ := hsame
  refine ⟨s', xs', hfree, ⟨⟨hc.root, hc.chain, ?_, hc.inHeap, by rw [e1, e3]; exact h.wf.brk_le,
    by rw [e3]; exact h.wf.limit_lt⟩, r1, by rw [hbH]; exact r2, ?_, ?_, by rw [e2]; exact h.startPos,
    ?_, by rw [e2, e4, e1]; exact h.counter⟩, hblocks, ⟨e1, e2, e3, e4⟩⟩
  · rw [← sortedDisj_blocksOf]; exact r1.sortedDisj
  · intro a ha
    rw [e2]
    have := r4 (a, (s'.mem a).size) (mem_blocksOf.2 ⟨a, ha, rfl⟩)
    rcases this with hx | ⟨p, hp, hx⟩ | ⟨q, hq, hx⟩
    · simp only at hx
      rw [hx]; exact (h.allocIn b hb).1
    · obtain ⟨a', ha', rfl⟩ := mem_blocksOf.1 hp
      simp only at hx
      rw [hx]; exact h.freeIn a' (List.mem_of_mem_take ha')
    · obtain ⟨a', ha', rfl⟩ := mem_blocksOf.1 hq
      simp only at hx
      rw [hx]; exact h.freeIn a' (List.mem_of_mem_drop ha')
  · intro a ha
    rw [e1, e2, hsz a (h.alloc_not_free (hHe a ha).1) (hHe a ha).2]
    exact h.allocIn a (hHe a ha).1
  · rw [hbH, totalBytes_append, r3, e4, ← h.total, hFsplit]
    have p1 : (blocksOf s H).Perm ((b, (s.mem b).size) :: blocksOf s (H.erase b)) :=
      hperm.symm.map (fun a => (a, (s.mem a).size))
    rw [totalBytes_append, totalBytes_append, totalBytes_perm p1, totalBytes_cons]
    simp only
    omega

/-! ## Every reachable state satisfies the invariant -/

theorem initState_invX (hd : Loc) (hroot : ∀ b, hd ≠ Loc.next b) {start limit : Nat}
    (h0 : 0 < start) (hl : start ≤ limit) (hw : limit < WORD) :
    InvX hd (initState start limit) [] [] := by
  have hload : (initState start limit).load hd = NULL := by
    cases hd with
    | head => rfl
    | tls t => rfl
    | next b => exact absurd rfl (hroot b)
  refine ⟨⟨hroot, hload, List.Pairwise.nil, by simp, hl, hw⟩, List.Pairwise.nil,
    List.Pairwise.nil, by simp, by simp, h0, rfl, rfl⟩

theorem mallocFrom_scan {hd : Loc} {fuel n : Nat} {s : State} {r : Nat × State}
    (h : mallocFrom hd fuel n s = some r) (hn : n ≠ 0) :
    ∃ x, scanBestFit n s fuel none hd = some x := by
  unfold mallocFrom at h
  rw [if_neg hn] at h
  cases hs : scanBestFit n s fuel none hd with
  | none => rw [hs] at h; cases h
  | some x => exact ⟨x, rfl⟩

/-- One allocation step from a state that satisfies the invariant. -/
theorem InvX.malloc_step {hd : Loc} {s : State} {xs H : List Nat} (h : InvX hd s xs H)
    {fuel n : Nat} {r : Nat × State} (hn : n ≠ 0) (hr : mallocFrom hd fuel n s = some r)
    (hok : scanBestFit n s fuel none hd = some none → OsGrants n s) :
    ∃ xs' b, r.1 = b + METADATA_SIZE ∧ InvX hd r.2 xs' (b :: H) ∧ n ≤ (r.2.mem b).size := by
  have hle : fuel ≤ max fuel (xs.length + 1) := le_max_left _ _
  have hlt : xs.length < max fuel (xs.length + 1) :=
    Nat.lt_of_lt_of_le (Nat.lt_succ_self _) (le_max_right _ _)
  have hr' := mallocFrom_mono hr hle
  rw [mallocFrom_eq h.wf.chain hlt hn] at hr'
  obtain ⟨x, hx⟩ := mallocFrom_scan hr hn
  have hx' := scanBestFit_mono _ _ _ _ _ hx hle
  rw [scanBestFit_eq n _ h.wf.chain hlt] at hx'
  cases hbf : bestFit n (sizesOf s xs) with
  | none =>
    rw [hbf] at hr' hx'
    simp only [Option.some.injEq] at hr'
    simp only [Option.map_none', Option.some.injEq] at hx'
    obtain ⟨g1, g2⟩ := (hok (by rw [hx, ← hx'])).bounds
    obtain ⟨m1, m2, _, m4⟩ := h.malloc_miss g1 g2
    rw [← hr']
    exact ⟨xs, s.brk, m2, m1, by rw [m4]⟩
  | some i =>
    rw [hbf] at hr'
    simp only [Option.some.injEq] at hr'
    obtain ⟨hi, hge⟩ := bestFit_sizesOf hbf
    obtain ⟨xs', m1, m2, _, m4⟩ := h.malloc_hit hi hge
    rw [← hr']
    refine ⟨xs', xs[i], m2, m1, ?_⟩
    have hp := congrArg Prod.snd m4
    simp only at hp
    rw [hp]
    have hF := blocksOf_getElem?_of_lt s xs hi
    unfold popA
    rw [hF]
    by_cases hgt : (s.mem xs[i]).size > n + METADATA_SIZE
    · simp only [hgt, if_true]; exact le_refl _
    · simp only [hgt, if_false]; exact hge

/-- One release step from a state that satisfies the invariant. -/
theorem InvX.free_step {hd : Loc} {s : State} {xs H : List Nat} (h : InvX hd s xs H)
    {fuel b : Nat} {s' : State} (hb : b ∈ H)
    (hr : freeFrom hd fuel (b + METADATA_SIZE) s = some s') :
    ∃ xs', InvX hd s' xs' (H.erase b) ∧
      blocksOf s' xs' = freeA (b, (s.mem b).size) (blocksOf s xs) ∧ SameHeap s s' := by
  have hle : fuel ≤ max fuel (xs.length + 1) := le_max_left _ _
  have hlt : xs.length < max fuel (xs.length + 1) :=
    Nat.lt_of_lt_of_le (Nat.lt_succ_self _) (le_max_right _ _)
  have hr' := freeFrom_mono hr hle
  obtain ⟨s'', xs', f1, f2, f3, f4⟩ := h.free hb hlt
  rw [hr'] at f1
  simp only [Option.some.injEq] at f1
  subst f1
  exact ⟨xs', f2, f3, f4⟩

theorem Reach.inv {hd : Loc} (hroot : ∀ b, hd ≠ Loc.next b) {s : State} {A : List Nat}
    (h : Reach hd OsGrants s A) : Inv hd s A := by
  induction h with
  | init start limit h0 hl hw =>
    exact ⟨[], [], rfl, initState_invX hd hroot h0 hl hw⟩
  | malloc fuel n r _ hn hr hok ih =>
    obtain ⟨xs, H, hA, hI⟩ := ih
    obtain ⟨xs', b, h1, h2, _⟩ := hI.malloc_step hn hr hok
    exact ⟨xs', b :: H, by rw [h1, hA]; rfl, h2⟩
  | @malloc_zero s0 A0 fuel r _ hr ih =>
    have : r.2 = s0 := by
      unfold mallocFrom at hr
      simp only [if_true, Option.some.injEq] at hr
      rw [← hr]
    rw [this]
    exact ih
  | free fuel p s' _ hp hr ih =>
    obtain ⟨xs, H, hA, hI⟩ := ih
    rw [hA] at hp
    obtain ⟨b, hb, rfl⟩ := List.mem_map.1 hp
    obtain ⟨xs', h1, _, _⟩ := hI.free_step hb hr
    refine ⟨xs', H.erase b, ?_, h1⟩
    rw [hA]
    exact (List.map_erase (fun x y hxy => by simpa using hxy) H).symm
  | @free_null s0 A0 fuel s' _ hr ih =>
    have : s' = s0 := by
      unfold freeFrom at hr
      simp only [if_true, Option.some.injEq] at hr
      exact hr.symm
    rw [this]
    exact ih

theorem ReachLock.toReachHead {ok : Nat → State → Prop} {s : State} {A : List Nat}
    (h : ReachLock ok s A) : Reach Loc.head ok s A := by
  induction h with
  | init start limit h0 hl hw => exact Reach.init start limit h0 hl hw
  | malloc fuel n r _ hn hr hok ih => exact Reach.malloc fuel n r ih hn hr hok
  | malloc_zero fuel r _ hr ih => exact Reach.malloc_zero fuel r ih hr
  | free fuel p s' _ hp hr ih => exact Reach.free fuel p s' ih hp hr
  | free_null fuel s' _ hr ih => exact Reach.free_null fuel s' ih hr

theorem head_root : ∀ b, Loc.head ≠ Loc.next b := fun _ h => by cases h

theorem tls_root (t : Nat) : ∀ b, Loc.tls t ≠ Loc.next b := fun _ h => by cases h

theorem stepLock_reach {ok : Nat → State → Prop} {okb : Nat → State → Bool}
    (hok : ∀ n s, okb n s = true → ok n s)
    {fuel : Nat} {c c' : State × List Nat} {op : Op}
    (h : ReachLock ok c.1 c.2) (hs : stepLock okb fuel c op = some c') :
    ReachLock ok c'.1 c'.2 := by
  cases op with
  | malloc n =>
    simp only [stepLock] at hs
    cases hm : ts_malloc_lock fuel n c.1 with
    | none => rw [hm] at hs; cases hs
    | some r =>
      rw [hm] at hs
      simp only at hs
      by_cases hn : n = 0
      · rw [if_pos hn] at hs
        simp only [Option.some.injEq] at hs
        subst hs
        subst hn
        exact ReachLock.malloc_zero fuel r h hm
      · rw [if_neg hn] at hs
        by_cases hc : scanBestFit n c.1 fuel none Loc.head = some none ∧ okb n c.1 = false
        · rw [if_pos hc] at hs; cases hs
        · rw [if_neg hc] at hs
          simp only [Option.some.injEq] at hs
          subst hs
          refine ReachLock.malloc fuel n r h hn hm ?_
          intro hscan
          apply hok
          by_contra hb
          exact hc ⟨hscan, by simpa using hb⟩
  | free p =>
    simp only [stepLock] at hs
    by_cases hp : p ∈ c.2
    · rw [if_pos hp] at hs
      cases hm : ts_free_lock fuel p c.1 with
      | none => rw [hm] at hs; cases hs
      | some s' =>
        rw [hm] at hs
        simp only [Option.some.injEq] at hs
        subst hs
        exact ReachLock.free fuel p s' h hp hm
    · rw [if_neg hp] at hs; cases hs

theorem runLock_reach {ok : Nat → State → Prop} {okb : Nat → State → Bool}
    (hok : ∀ n s, okb n s = true → ok n s) {fuel : Nat} :
    ∀ (ops : List Op) {c c' : State × List Nat}, ReachLock ok c.1 c.2 →
      runLock okb fuel ops c = some c' → ReachLock ok c'.1 c'.2 := by
  intro ops
  induction ops with
  | nil =>
    intro c c' h hr
    simp only [runLock, Option.some.injEq] at hr
    subst hr; exact h
  | cons op ops ih =>
    intro c c' h hr
    rw [runLock] at hr
    cases hs : stepLock okb fuel c op with
    | none => rw [hs] at hr; cases hr
    | some c1 =>
      rw [hs] at hr
      exact ih (stepLock_reach hok h hs) hr

/-- An admitted run from a fresh process ends in a reachable state. -/
theorem runFrom_reach {ok : Nat → State → Prop} {okb : Nat → State → Bool}
    (hok : ∀ n s, okb n s = true → ok n s)
    {fuel start limit : Nat} {ops : List Op}
    (h0 : 0 < start) (hl : start ≤ limit) (hw : limit < WORD)
    (hr : (runLock okb fuel ops (initState start limit, [])).isSome = true) :
    ReachLock ok (runFrom okb fuel start limit ops).1 (runFrom okb fuel start limit ops).2 := by
  obtain ⟨c', hc'⟩ := Option.isSome_iff_exists.1 hr
  unfold runFrom
  rw [hc']
  exact runLock_reach hok ops (ReachLock.init start limit h0 hl hw) hc'

/-! ## Facts used by the claims -/

theorem okFresh_sound : ∀ n s, okFresh n s = true → OsFresh n s :=
  fun _ _ h => of_decide_eq_true h

theorem okGrants_sound : ∀ n s, okGrants n s = true → OsGrants n s :=
  fun _ _ h => of_decide_eq_true h

theorem Seg.list_unique {s : State} {xs : List Nat} :
    ∀ {a : Nat} {ys : List Nat}, Seg s a xs NULL → Seg s a ys NULL → xs = ys := by
  induction xs with
  | nil =>
    intro a ys h1 h2
    cases ys with
    | nil => rfl
    | cons y ys =>
      have e1 : a = NULL := h1
      exact absurd (h2.1.symm.trans e1) h2.2.1
  | cons x xs ih =>
    intro a ys h1 h2
    cases ys with
    | nil =>
      have e2 : a = NULL := h2
      exact absurd (h1.1.symm.trans e2) h1.2.1
    | cons y ys =>
      have exy : x = y := h1.1.symm.trans h2.1
      subst exy
      rw [ih h1.2.2 h2.2.2]

/-- A state has at most one free list. -/
theorem FreeList.unique {s : State} {hd : Loc} {xs ys : List Nat}
    (h1 : FreeList s hd xs) (h2 : FreeList s hd ys) : xs = ys :=
  Seg.list_unique h1 h2

theorem hdrOf_payload {b : Nat} (hb : b < WORD) : hdrOf ((b + METADATA_SIZE) % WORD) = b := by
  unfold hdrOf
  by_cases h : b + METADATA_SIZE < WORD
  · rw [Nat.mod_eq_of_lt h]
    have : b + METADATA_SIZE + WORD - METADATA_SIZE = b + WORD := by
      simp only [METADATA_SIZE]; omega
    rw [this, Nat.add_mod_right]
    exact Nat.mod_eq_of_lt hb
  · have h1 : (b + METADATA_SIZE) % WORD = b + METADATA_SIZE - WORD := by
      rw [Nat.mod_eq_sub_mod (by omega)]
      exact Nat.mod_eq_of_lt (by simp only [METADATA_SIZE, WORD] at *; omega)
    rw [h1]
    have : b + METADATA_SIZE - WORD + WORD - METADATA_SIZE = b := by
      simp only [METADATA_SIZE, WORD] at *; omega
    rw [this]
    exact Nat.mod_eq_of_lt hb

theorem hdrOf_add {b : Nat} (hb : b + METADATA_SIZE < WORD) : hdrOf (b + METADATA_SIZE) = b := by
  have := hdrOf_payload (b := b) (by omega)
  rwa [Nat.mod_eq_of_lt hb] at this

theorem map_hdrOf_payload : ∀ (H : List Nat), (∀ a ∈ H, a + METADATA_SIZE < WORD) →
    (H.map (· + METADATA_SIZE)).map hdrOf = H
  | [], _ => rfl
  | a :: H, h => by
    rw [List.map_cons, List.map_cons, hdrOf_add (h a (List.mem_cons_self _ _)),
      map_hdrOf_payload H (fun b hb => h b (List.mem_cons_of_mem _ hb))]

theorem InvX.allocBlocks_eq {hd : Loc} {s : State} {xs H : List Nat} (h : InvX hd s xs H) :
    allocBlocks s (H.map (· + METADATA_SIZE)) = blocksOf s H := by
  have hmap : (H.map (· + METADATA_SIZE)).map hdrOf = H := by
    apply map_hdrOf_payload
    intro a ha
    have h1 := (h.allocIn a ha).2
    have h2 := h.wf.brk_lt
    omega
  unfold allocBlocks
  rw [hmap]

theorem option_eq_some_getD {α : Type} {o : Option α} (d : α) (h : o.isSome = true) :
    o = some (o.getD d) := by
  cases o with
  | none => cases h
  | some a => rfl

/-- The invariant gives the three properties the claims speak of. -/
theorem Inv.props {hd : Loc} {s : State} {A : List Nat} (h : Inv hd s A) :
    AllDisjoint hd s A ∧ BytesAccounted hd s A ∧ FreeListNoAdjacent hd s ∧
      ∃ xs, FreeList s hd xs ∧ xs.Pairwise (· < ·) := by
  obtain ⟨xs, H, hA, hI⟩ := h
  subst hA
  refine ⟨⟨xs, hI.wf.chain, ?_⟩, ⟨xs, hI.wf.chain, ?_⟩, ⟨xs, hI.wf.chain, hI.sep.noAdjacent⟩,
    ⟨xs, hI.wf.chain, hI.wf.sorted⟩⟩
  · rw [hI.allocBlocks_eq]; exact hI.disj
  · rw [hI.allocBlocks_eq]; exact hI.total

/-! ## `sbrk` and `reqSysBlk` whatever the operating system answers -/

theorem sbrk_cases (i : Nat) (s : State) :
    (sbrk i s = (SBRK_FAILED, s)) ∨
    (∃ b, sbrk i s = (s.brk, { s with brk := b })) := by
  unfold sbrk
  by_cases h1 : i < 2 ^ 63
  · rw [if_pos h1]
    by_cases h2 : s.brk + i ≤ s.heap_limit
    · rw [if_pos h2]; exact Or.inr ⟨_, rfl⟩
    · rw [if_neg h2]; exact Or.inl rfl
  · rw [if_neg h1]
    by_cases h2 : s.heap_start + (WORD - i) ≤ s.brk
    · rw [if_pos h2]; exact Or.inr ⟨_, rfl⟩
    · rw [if_neg h2]; exact Or.inl rfl

theorem sbrk_fst (i : Nat) (s : State) :
    (sbrk i s).1 = SBRK_FAILED ∨ (sbrk i s).1 = s.brk := by
  rcases sbrk_cases i s with h | ⟨b, h⟩
  · rw [h]; exact Or.inl rfl
  · rw [h]; exact Or.inr rfl

theorem sbrk_frame (i : Nat) (s : State) :
    (sbrk i s).2.mem = s.mem ∧ (∀ l, (sbrk i s).2.load l = s.load l) ∧
    (sbrk i s).2.entire_heap_size = s.entire_heap_size ∧
    (sbrk i s).2.heap_start = s.heap_start ∧ (sbrk i s).2.heap_limit = s.heap_limit := by
  rcases sbrk_cases i s with h | ⟨b, h⟩
  · rw [h]; exact ⟨rfl, fun _ => rfl, rfl, rfl, rfl⟩
  · rw [h]
    refine ⟨rfl, fun l => ?_, rfl, rfl, rfl⟩
    cases l <;> rfl

/-- What `reqSysBlk` does, in terms of the answer of `sbrk`. -/
theorem reqSysBlk_gen (n : Nat) (s : State) :
    (reqSysBlk n s).1 = ((sbrk ((METADATA_SIZE + n) % WORD) s).1 + METADATA_SIZE) % WORD ∧
    (∀ a, ((reqSysBlk n s).2.mem a).size =
      if a = (sbrk ((METADATA_SIZE + n) % WORD) s).1 then n else (s.mem a).size) ∧
    (∀ l, (reqSysBlk n s).2.load l =
      if l = Loc.next (sbrk ((METADATA_SIZE + n) % WORD) s).1 then NULL else s.load l) ∧
    (reqSysBlk n s).2.brk = (sbrk ((METADATA_SIZE + n) % WORD) s).2.brk ∧
    (reqSysBlk n s).2.heap_start = s.heap_start ∧
    (reqSysBlk n s).2.heap_limit = s.heap_limit ∧
    (reqSysBlk n s).2.entire_heap_size =
      (s.entire_heap_size + (METADATA_SIZE + n) % WORD) % WORD := by
  obtain ⟨f1, f2, f3, f4, f5⟩ := sbrk_frame ((METADATA_SIZE + n) % WORD) s
  unfold reqSysBlk
  generalize sbrk ((METADATA_SIZE + n) % WORD) s = r at *
  refine ⟨rfl, ?_, ?_, rfl, f4, f5, ?_⟩
  · intro a
    refine (size_setSize _ _ _ _).trans ?_
    rw [size_setNext, f1]
  · intro l
    have h1 : ∀ t : State, ({ t with entire_heap_size :=
        (t.entire_heap_size + (METADATA_SIZE + n) % WORD) % WORD } : State).load l = t.load l := by
      intro t; cases l <;> rfl
    refine (h1 _).trans ?_
    rw [load_setSize, load_setNext, f2]
  · show (r.2.entire_heap_size + (METADATA_SIZE + n) % WORD) % WORD = _
    rw [f3]

/-! ## The recorded size of the returned block -/

theorem WF.getElem_add_lt {s : State} {hd : Loc} {xs : List Nat} (w : WF s hd xs)
    {i : Nat} (hi : i < xs.length) : xs[i] + METADATA_SIZE < WORD := by
  have h1 := w.inHeap _ (List.getElem_mem (l := xs) hi)
  have h2 := w.brk_lt
  omega

/-- The pointer, the new list and the recorded sizes after a request is served
from the entry of index `i`. -/
theorem popFreeBlk_popA {s : State} {hd : Loc} {xs : List Nat} (w : WF s hd xs)
    {i n : Nat} (hi : i < xs.length) (hge : n ≤ (s.mem xs[i]).size) :
    ∃ xs', (popFreeBlk (locAt hd xs i) n s).1 = xs[i] + METADATA_SIZE ∧
      FreeList (popFreeBlk (locAt hd xs i) n s).2 hd xs' ∧
      blocksOf (popFreeBlk (locAt hd xs i) n s).2 xs' = (popA n i (blocksOf s xs)).2 ∧
      (xs[i], ((popFreeBlk (locAt hd xs i) n s).2.mem xs[i]).size) =
        (popA n i (blocksOf s xs)).1 ∧
      (∀ a, a ∉ xs → (n + METADATA_SIZE < (s.mem xs[i]).size → a ≠ xs[i] + METADATA_SIZE + n) →
        ((popFreeBlk (locAt hd xs i) n s).2.mem a).size = (s.mem a).size) ∧
      (∀ a ∈ xs', a ∈ xs ∨ a = xs[i] + METADATA_SIZE + n) ∧
      (∀ l, l ≠ locAt hd xs i → l ≠ Loc.next (xs[i] + METADATA_SIZE + n) →
        (popFreeBlk (locAt hd xs i) n s).2.load l = s.load l) ∧
      SameHeap s (popFreeBlk (locAt hd xs i) n s).2 := by
  have hmem : xs[i] ∈ xs := List.getElem_mem _
  have hnd := w.nodup
  have hF := blocksOf_split_at s xs hi
  have hlenP : (blocksOf s (xs.take i)).length = i := by
    rw [blocksOf_length]; exact (list_split_at xs hi).2
  have hpop : popA n i (blocksOf s xs) =
      if (s.mem xs[i]).size > n + METADATA_SIZE then
        ((xs[i], n), blocksOf s (xs.take i) ++
          (xs[i] + METADATA_SIZE + n, (s.mem xs[i]).size - (n + METADATA_SIZE)) ::
            blocksOf s (xs.drop (i + 1)))
      else ((xs[i], (s.mem xs[i]).size), blocksOf s (xs.take i) ++ blocksOf s (xs.drop (i + 1))) := by
    conv_lhs => rw [hF]
    have := @popA_eq n (blocksOf s (xs.take i)) (blocksOf s (xs.drop (i + 1)))
      (xs[i], (s.mem xs[i]).size)
    rw [hlenP] at this
    exact this
  have hne1 : ∀ a ∈ xs.take i, a ≠ xs[i] := fun a ha => by
    have := Nodup.ne_getD_of_mem_take hnd (le_refl i) hi ha
    rwa [List.getD_eq_getElem _ _ hi] at this
  have hne2 : ∀ a ∈ xs.drop (i + 1), a ≠ xs[i] := fun a ha => by
    have := Nodup.ne_getD_of_mem_drop hnd (show i < i + 1 by omega) ha
    rwa [List.getD_eq_getElem _ _ hi] at this
  by_cases hgt : n + METADATA_SIZE < (s.mem xs[i]).size
  · obtain ⟨h1, h2, h3, h4, h5⟩ := popFreeBlk_split_spec w hi hgt
    have hrem := w.rem_not_mem hi hgt
    have hnr : ∀ a ∈ xs, a ≠ xs[i] + METADATA_SIZE + n := fun a ha hh => hrem (hh ▸ ha)
    rw [hpop, if_pos hgt]
    refine ⟨xs.take i ++ (xs[i] + METADATA_SIZE + n) :: xs.drop (i + 1), h1, h2, ?_, ?_, ?_, ?_,
      h4, h5⟩
    · rw [blocksOf_append, blocksOf_cons, h3 (xs[i] + METADATA_SIZE + n),
        if_neg (by simp only [METADATA_SIZE]; omega), if_pos rfl]
      congr 1
      · exact blocksOf_congr (fun a ha => by
          rw [h3, if_neg (hne1 a ha), if_neg (hnr a (List.mem_of_mem_take ha))])
      · congr 1
        exact blocksOf_congr (fun a ha => by
          rw [h3, if_neg (hne2 a ha), if_neg (hnr a (List.mem_of_mem_drop ha))])
    · rw [h3, if_pos rfl]
    · intro a ha hr
      rw [h3, if_neg (fun hh : a = xs[i] => ha (hh ▸ hmem)), if_neg (hr hgt)]
    · intro a ha
      rcases List.mem_append.1 ha with ha | ha
      · exact Or.inl (List.mem_of_mem_take ha)
      · rcases List.mem_cons.1 ha with rfl | ha
        · exact Or.inr rfl
        · exact Or.inl (List.mem_of_mem_drop ha)
  · obtain ⟨h1, h2, h3, h4, h5⟩ := popFreeBlk_nosplit_spec w hi hge (Nat.le_of_not_lt hgt)
    rw [hpop, if_neg (by omega)]
    refine ⟨xs.take i ++ xs.drop (i + 1), h1, h2, ?_, ?_, ?_, ?_, fun l hl _ => h4 l hl, h5⟩
    · rw [← blocksOf_append]
      exact blocksOf_congr (fun a _ => h3 a)
    · rw [h3]
    · intro a _ _
      exact h3 a
    · intro a ha
      rcases List.mem_append.1 ha with ha | ha
      · exact Or.inl (List.mem_of_mem_take ha)
      · exact Or.inl (List.mem_of_mem_drop ha)

/-- With enough fuel an allocation on a well-formed list returns, and the header
of the returned block records at least the requested size. -/
theorem mallocFrom_size_ge {s : State} {hd : Loc} {xs : List Nat} {n fuel : Nat}
    (w : WF s hd xs) (hn : n ≠ 0) (hf : xs.length < fuel)
    (hos : bestFit n (sizesOf s xs) = none →
      (sbrk ((METADATA_SIZE + n) % WORD) s).1 ≠ SBRK_FAILED) :
    ∃ r, mallocFrom hd fuel n s = some r ∧ n ≤ (r.2.mem (hdrOf r.1)).size := by
  rw [mallocFrom_eq w.chain hf hn]
  cases hbf : bestFit n (sizesOf s xs) with
  | none =>
    refine ⟨reqSysBlk n s, rfl, ?_⟩
    obtain ⟨g1, g2, _⟩ := reqSysBlk_gen n s
    have hb : (sbrk ((METADATA_SIZE + n) % WORD) s).1 = s.brk :=
      (sbrk_fst _ s).resolve_left (hos hbf)
    rw [g1, hb, hdrOf_payload w.brk_lt, g2, hb, if_pos rfl]
  | some i =>
    obtain ⟨hi, hge⟩ := bestFit_sizesOf hbf
    refine ⟨popFreeBlk (locAt hd xs i) n s, rfl, ?_⟩
    obtain ⟨xs', p1, _, _, p4, _⟩ := popFreeBlk_popA w hi hge
    rw [p1, hdrOf_add (w.getElem_add_lt hi)]
    have hp := congrArg Prod.snd p4
    simp only at hp
    rw [hp]
    have hF := blocksOf_getElem?_of_lt s xs hi
    unfold popA
    rw [hF]
    by_cases hgt : (s.mem xs[i]).size > n + METADATA_SIZE
    · simp only [hgt, if_true]; exact le_refl _
    · simp only [hgt, if_false]; exact hge

/-! ## The release functions on any pointer -/

theorem hdrOf_def (p : Nat) : (p + WORD - METADATA_SIZE) % WORD = hdrOf p := by
  unfold hdrOf; rfl

theorem freeFrom_eq_hdrOf {s : State} {hd : Loc} {xs : List Nat} {p fuel : Nat}
    (h : FreeList s hd xs) (hf : xs.length < fuel) (hp : p ≠ NULL) :
    freeFrom hd fuel p s =
      some (tryMergeAdjBlk
        (tryMergeAdjBlk (prevAt xs (insIdx (hdrOf p) xs)) (hdrOf p)
          ((s.setNext (hdrOf p) (xs.getD (insIdx (hdrOf p) xs) NULL)).store
            (locAt hd xs (insIdx (hdrOf p) xs)) (hdrOf p))).1
        ((tryMergeAdjBlk (prevAt xs (insIdx (hdrOf p) xs)) (hdrOf p)
          ((s.setNext (hdrOf p) (xs.getD (insIdx (hdrOf p) xs) NULL)).store
            (locAt hd xs (insIdx (hdrOf p) xs)) (hdrOf p))).2.mem
          (tryMergeAdjBlk (prevAt xs (insIdx (hdrOf p) xs)) (hdrOf p)
            ((s.setNext (hdrOf p) (xs.getD (insIdx (hdrOf p) xs) NULL)).store
              (locAt hd xs (insIdx (hdrOf p) xs)) (hdrOf p))).1).next
        (tryMergeAdjBlk (prevAt xs (insIdx (hdrOf p) xs)) (hdrOf p)
          ((s.setNext (hdrOf p) (xs.getD (insIdx (hdrOf p) xs) NULL)).store
            (locAt hd xs (insIdx (hdrOf p) xs)) (hdrOf p))).2).2 := by
  unfold freeFrom
  rw [if_neg hp]
  simp only [hdrOf_def, findInsertPos_eq (hdrOf p) fuel h hf,
    h.load_locAt_getD _ (insIdx_le (hdrOf p) xs)]

/-! ## Allocation followed by release, on lists of blocks -/

theorem insIdx_append_of {b : Nat} {xs ys : List Nat} (h1 : ∀ x ∈ xs, x < b)
    (h2 : ∀ y ∈ ys.head?, b ≤ y) : insIdx b (xs ++ ys) = xs.length := by
  unfold insIdx
  rw [List.takeWhile_append_of_pos (fun a ha => by simpa using h1 a ha)]
  cases ys with
  | nil => simp
  | cons y ys =>
    have := h2 y (by simp)
    rw [List.takeWhile_cons_of_neg (by simpa using this)]
    simp

theorem absorbLeft_keep {P : List Blk} {b : Blk} (h : ∀ x ∈ P, endOf x ≠ b.1) :
    absorbLeft P b = (P, b) := by
  rcases List.eq_nil_or_concat P with rfl | ⟨P0, p, rfl⟩
  · rfl
  · rw [List.concat_eq_append, absorbLeft_concat, if_neg (h p (by simp))]

theorem totalBytes_absorbLeft (P : List Blk) (b : Blk) :
    totalBytes (absorbLeft P b).1 + (METADATA_SIZE + (absorbLeft P b).2.2) =
      totalBytes P + (METADATA_SIZE + b.2) := by
  rcases List.eq_nil_or_concat P with rfl | ⟨P0, p, rfl⟩
  · rfl
  · rw [List.concat_eq_append, absorbLeft_concat]
    by_cases h : endOf p = b.1
    · rw [if_pos h]
      simp only [totalBytes_append, totalBytes_cons, totalBytes_nil]
      omega
    · rw [if_neg h]

theorem totalBytes_absorbRight (l : List Blk × Blk) (Q : List Blk) :
    totalBytes (absorbRight l Q) = totalBytes l.1 + (METADATA_SIZE + l.2.2) + totalBytes Q := by
  unfold absorbRight
  cases Q with
  | nil =>
    simp only [totalBytes_append, totalBytes_cons, totalBytes_nil]
    omega
  | cons c Q' =>
    by_cases h : endOf l.2 = c.1
    · simp only [h, if_true, totalBytes_append, totalBytes_cons]
      omega
    · simp only [h, if_false, totalBytes_append, totalBytes_cons]
      omega

/-- The merges keep the number of bytes, whatever the blocks. -/
theorem totalBytes_coalesce (P : List Blk) (b : Blk) (Q : List Blk) :
    totalBytes (coalesce P b Q) = totalBytes P + (METADATA_SIZE + b.2) + totalBytes Q := by
  unfold coalesce
  rw [totalBytes_absorbRight, totalBytes_absorbLeft]

theorem totalBytes_freeA (b : Blk) (L : List Blk) :
    totalBytes (freeA b L) = totalBytes L + (METADATA_SIZE + b.2) := by
  rw [freeA_eq_coalesce, totalBytes_coalesce]
  conv_rhs => rw [← List.take_append_drop (insIdx b.1 (L.map Prod.fst)) L, totalBytes_append]
  omega

/-- What `popA` does to the list around the chosen entry. -/
theorem popA_mid {P Q : List Blk} {e : Blk} {n : Nat} (hge : n ≤ e.2)
    (h : SortedDisj (P ++ e :: Q)) :
    SortedDisj (popA n P.length (P ++ e :: Q)).2 ∧
    (Separated (P ++ e :: Q) → Separated (popA n P.length (P ++ e :: Q)).2) ∧
    (∀ x ∈ (popA n P.length (P ++ e :: Q)).2, x.1 ≠ e.1) ∧
    (∀ B, (∀ x ∈ P ++ e :: Q, endOf x ≤ B) →
      ∀ x ∈ (popA n P.length (P ++ e :: Q)).2, endOf x ≤ B) ∧
    (popA n P.length (P ++ e :: Q)).1.1 = e.1 ∧
    n ≤ (popA n P.length (P ++ e :: Q)).1.2 ∧
    endOf (popA n P.length (P ++ e :: Q)).1 ≤ endOf e ∧
    totalBytes (popA n P.length (P ++ e :: Q)).2 +
      (METADATA_SIZE + (popA n P.length (P ++ e :: Q)).1.2) = totalBytes (P ++ e :: Q) ∧
    (Separated (P ++ e :: Q) →
      freeA (popA n P.length (P ++ e :: Q)).1 (popA n P.length (P ++ e :: Q)).2 =
        P ++ e :: Q) := by
  obtain ⟨s1, s2, s3, s4, s5⟩ := sortedDisj_mid.1 h
  have hPlt : ∀ x ∈ P, x.1 < e.1 := fun x hx => by
    have := s3 x hx
    simp only [endOf, METADATA_SIZE] at this; omega
  have hQgt : ∀ y ∈ Q, e.1 < y.1 := fun y hy => by
    have := s4 y hy
    simp only [endOf, METADATA_SIZE] at this; omega
  have hPm : ∀ x ∈ P.map Prod.fst, x < e.1 := fun x hx => by
    obtain ⟨y, hy, rfl⟩ := List.mem_map.1 hx
    exact hPlt y hy
  rw [popA_eq]
  by_cases hgt : e.2 > n + METADATA_SIZE
  · rw [if_pos hgt]
    refine ⟨?_, ?_, ?_, ?_, rfl, le_refl _, ?_, ?_, ?_⟩
    · refine sortedDisj_mid.2 ⟨s1, s2, ?_, ?_, s5⟩
      · intro x hx
        have := s3 x hx
        simp only [endOf, METADATA_SIZE] at *; omega
      · intro y hy
        have := s4 y hy
        simp only [endOf, METADATA_SIZE] at *; omega
    · intro hs
      exact (pop_split_abs (U := []) hgt hs (by
        rw [List.append_nil]
        exact List.Pairwise.imp (fun hxy => Or.inl hxy) h)).1
    · intro x hx
      rcases List.mem_append.1 hx with hx | hx
      · exact Nat.ne_of_lt (hPlt x hx)
      · rcases List.mem_cons.1 hx with rfl | hx
        · simp only [METADATA_SIZE]; omega
        · exact Nat.ne_of_gt (hQgt x hx)
    · intro B hB x hx
      rcases List.mem_append.1 hx with hx | hx
      · exact hB x (List.mem_append_left _ hx)
      · rcases List.mem_cons.1 hx with rfl | hx
        · have := hB e (List.mem_append_right _ (List.mem_cons_self _ _))
          simp only [endOf, METADATA_SIZE] at *; omega
        · exact hB x (List.mem_append_right _ (List.mem_cons_of_mem _ hx))
    · simp only [endOf, METADATA_SIZE] at *; omega
    · simp only [totalBytes_append, totalBytes_cons]
      simp only [METADATA_SIZE] at *
      omega
    · intro hs
      obtain ⟨_, _, t3, t4, _⟩ := separated_mid.1 hs
      have hk : insIdx e.1 ((P ++ (e.1 + METADATA_SIZE + n, e.2 - (n + METADATA_SIZE)) :: Q).map
          Prod.fst) = P.length := by
        rw [List.map_append, List.map_cons, insIdx_append_of hPm, List.length_map]
        intro y hy
        simp only [List.head?_cons, Option.mem_def, Option.some.injEq] at hy
        omega
      rw [freeA_eq_coalesce]
      simp only [hk]
      rw [List.take_left' rfl, List.drop_left' rfl]
      unfold coalesce
      rw [@absorbLeft_keep P (e.1, n) (fun x hx => Nat.ne_of_lt (t3 x hx))]
      unfold absorbRight
      simp only
      rw [if_pos (by simp only [endOf])]
      have : n + (METADATA_SIZE + (e.2 - (n + METADATA_SIZE))) = e.2 := by
        simp only [METADATA_SIZE] at *; omega
      rw [this]
  · rw [if_neg hgt]
    refine ⟨?_, ?_, ?_, ?_, rfl, hge, le_refl _, ?_, ?_⟩
    · exact sortedDisj_append.2 ⟨s1, s2, s5⟩
    · intro hs
      exact (pop_nosplit_abs (U := []) hs (by
        rw [List.append_nil]
        exact List.Pairwise.imp (fun hxy => Or.inl hxy) h)).1
    · intro x hx
      rcases List.mem_append.1 hx with hx | hx
      · exact Nat.ne_of_lt (hPlt x hx)
      · exact Nat.ne_of_gt (hQgt x hx)
    · intro B hB x hx
      rcases List.mem_append.1 hx with hx | hx
      · exact hB x (List.mem_append_left _ hx)
      · exact hB x (List.mem_append_right _ (List.mem_cons_of_mem _ hx))
    · simp only [totalBytes_append, totalBytes_cons]
      omega
    · intro hs
      obtain ⟨_, _, t3, t4, _⟩ := separated_mid.1 hs
      have hk : insIdx e.1 ((P ++ Q).map Prod.fst) = P.length := by
        rw [List.map_append, insIdx_append_of hPm, List.length_map]
        intro y hy
        cases Q with
        | nil => simp at hy
        | cons c Q' =>
          simp only [List.map_cons, List.head?_cons, Option.mem_def, Option.some.injEq] at hy
          have := hQgt c (List.mem_cons_self _ _)
          omega
      rw [freeA_eq_coalesce]
      simp only [hk]
      rw [List.take_left' rfl, List.drop_left' rfl]
      unfold coalesce
      rw [absorbLeft_keep (fun x hx => Nat.ne_of_lt (t3 x hx))]
      unfold absorbRight
      cases Q with
      | nil => rfl
      | cons c Q' =>
        simp only
        rw [if_neg (Nat.ne_of_lt (t4 c (List.mem_cons_self _ _)))]
theorem popA_at {L : List Blk} {n i : Nat} (hi : i < L.length) (hge : n ≤ L[i].2)
    (h : SortedDisj L) :
    SortedDisj (popA n i L).2 ∧
    (Separated L → Separated (popA n i L).2) ∧
    (∀ x ∈ (popA n i L).2, x.1 ≠ L[i].1) ∧
    (∀ B, (∀ x ∈ L, endOf x ≤ B) → ∀ x ∈ (popA n i L).2, endOf x ≤ B) ∧
    (popA n i L).1.1 = L[i].1 ∧
    n ≤ (popA n i L).1.2 ∧
    endOf (popA n i L).1 ≤ endOf L[i] ∧
    totalBytes (popA n i L).2 + (METADATA_SIZE + (popA n i L).1.2) = totalBytes L ∧
    (Separated L → freeA (popA n i L).1 (popA n i L).2 = L) := by
  obtain ⟨hL, hlen⟩ := list_split_at L hi
  have := @popA_mid (L.take i) (L.drop (i + 1)) L[i] n hge (by rw [← hL]; exact h)
  rw [hlen, ← hL] at this
  exact this

theorem blocksOf_getElem (s : State) (xs : List Nat) {i : Nat} (hi : i < xs.length)
    (hi' : i < (blocksOf s xs).length) :
    (blocksOf s xs)[i] = (xs[i], (s.mem xs[i]).size) := by
  have := blocksOf_getElem?_of_lt s xs hi
  exact (List.getElem?_eq_some_iff.1 this).2

theorem WF.blocks_le_brk {s : State} {hd : Loc} {xs : List Nat} (w : WF s hd xs) :
    ∀ x ∈ blocksOf s xs, endOf x ≤ s.brk := by
  intro x hx
  obtain ⟨a, ha, rfl⟩ := mem_blocksOf.1 hx
  exact w.inHeap a ha

theorem WF.blocks_sortedDisj {s : State} {hd : Loc} {xs : List Nat} (w : WF s hd xs) :
    SortedDisj (blocksOf s xs) := sortedDisj_blocksOf.2 w.disj

/-- A chain whose blocks are sorted and do not overlap is well formed. -/
theorem Chained.wf {s : State} {hd : Loc} {xs : List Nat} (c : Chained s hd xs)
    (hs : SortedDisj (blocksOf s xs)) (hb : s.brk ≤ s.heap_limit) (hl : s.heap_limit < WORD) :
    WF s hd xs :=
  ⟨c.root, c.chain, sortedDisj_blocksOf.1 hs, c.inHeap, hb, hl⟩

/-- A request served from the entry of index `i` of a well-formed list leaves a
well-formed list and an allocated block that is not on it. -/
theorem WF.pop {s : State} {hd : Loc} {xs : List Nat} (w : WF s hd xs)
    {i n : Nat} (hi : i < xs.length) (hge : n ≤ (s.mem xs[i]).size) :
    ∃ xs', (popFreeBlk (locAt hd xs i) n s).1 = xs[i] + METADATA_SIZE ∧
      WF (popFreeBlk (locAt hd xs i) n s).2 hd xs' ∧
      blocksOf (popFreeBlk (locAt hd xs i) n s).2 xs' = (popA n i (blocksOf s xs)).2 ∧
      (xs[i], ((popFreeBlk (locAt hd xs i) n s).2.mem xs[i]).size) =
        (popA n i (blocksOf s xs)).1 ∧
      xs[i] ∉ xs' ∧
      xs[i] + METADATA_SIZE + ((popFreeBlk (locAt hd xs i) n s).2.mem xs[i]).size ≤
        (popFreeBlk (locAt hd xs i) n s).2.brk ∧
      SameHeap s (popFreeBlk (locAt hd xs i) n s).2 := by
  obtain ⟨xs', p1, p2, p3, p4, _, _, _, p8⟩ := popFreeBlk_popA w hi hge
  have hiL : i < (blocksOf s xs).length := by rw [blocksOf_length]; exact hi
  have hLi := blocksOf_getElem s xs hi hiL
  have hgeL : n ≤ ((blocksOf s xs)[i]).2 := by rw [hLi]; exact hge
  obtain ⟨a1, _, a3, a4, _, _, a7, _, _⟩ := popA_at hiL hgeL w.blocks_sortedDisj
  refine ⟨xs', p1, ⟨w.root, p2, ?_, ?_, ?_, ?_⟩, p3, p4, ?_, ?_, p8⟩
  · rw [← sortedDisj_blocksOf, p3]; exact a1
  · intro a ha
    rw [p8.1]
    have hm : (a, ((popFreeBlk (locAt hd xs i) n s).2.mem a).size) ∈
        (popA n i (blocksOf s xs)).2 := by
      rw [← p3]; exact mem_blocksOf.2 ⟨a, ha, rfl⟩
    exact a4 s.brk w.blocks_le_brk _ hm
  · rw [p8.1, p8.2.2.1]; exact w.brk_le
  · rw [p8.2.2.1]; exact w.limit_lt
  · intro ha
    have hm : (xs[i], ((popFreeBlk (locAt hd xs i) n s).2.mem xs[i]).size) ∈
        (popA n i (blocksOf s xs)).2 := by
      rw [← p3]; exact mem_blocksOf.2 ⟨xs[i], ha, rfl⟩
    have := a3 _ hm
    rw [hLi] at this
    exact this rfl
  · rw [p8.1]
    have h1 : endOf (popA n i (blocksOf s xs)).1 ≤ s.brk := by
      refine Nat.le_trans a7 ?_
      rw [hLi]
      exact w.inHeap _ (List.getElem_mem _)
    rw [← p4] at h1
    exact h1

/-- A granted extension of the heap leaves the list well formed and creates a
block at the previous break. -/
theorem WF.miss {s : State} {hd : Loc} {xs : List Nat} (w : WF s hd xs) {n : Nat}
    (hg : OsGrants n s) :
    WF (reqSysBlk n s).2 hd xs ∧
      (reqSysBlk n s).1 = s.brk + METADATA_SIZE ∧
      blocksOf (reqSysBlk n s).2 xs = blocksOf s xs ∧
      ((reqSysBlk n s).2.mem s.brk).size = n ∧
      s.brk ∉ xs ∧
      (reqSysBlk n s).2.brk = s.brk + (METADATA_SIZE + n) ∧
      (reqSysBlk n s).2.heap_start = s.heap_start ∧
      (reqSysBlk n s).2.heap_limit = s.heap_limit ∧
      (reqSysBlk n s).2.entire_heap_size =
        (s.entire_heap_size + (METADATA_SIZE + n)) % WORD := by
  obtain ⟨hn, hgl⟩ := hg.bounds
  obtain ⟨h1, h2, h3, h4, h5, h6, h7⟩ := reqSysBlk_spec hn hgl w.limit_lt
  have hxlt : ∀ a ∈ xs, a ≠ s.brk := fun a ha heq => by
    have := w.inHeap a ha
    simp only [METADATA_SIZE] at this; omega
  have hbF : blocksOf (reqSysBlk n s).2 xs = blocksOf s xs :=
    blocksOf_congr (fun a ha => by rw [h2, if_neg (hxlt a ha)])
  have hchain : FreeList (reqSysBlk n s).2 hd xs := by
    unfold FreeList
    rw [h3 hd, if_neg (w.root _)]
    refine Seg.congr ?_ w.chain
    intro x hx
    rw [h3, if_neg]
    intro hh
    injection hh with hh
    exact hxlt x hx hh
  refine ⟨⟨w.root, hchain, ?_, ?_, by rw [h4, h6]; exact hgl, by rw [h6]; exact w.limit_lt⟩,
    h1, hbF, by rw [h2, if_pos rfl], fun hx => hxlt _ hx rfl, h4, h5, h6, h7⟩
  · rw [← sortedDisj_blocksOf, hbF]; exact w.blocks_sortedDisj
  · intro a ha
    rw [h4, h2, if_neg (hxlt a ha)]
    have := w.inHeap a ha
    omega

/-! ## The calls return when the fuel exceeds the length of the list -/

theorem mallocFrom_returns {s : State} {hd : Loc} {xs : List Nat} (n : Nat) {fuel : Nat}
    (h : FreeList s hd xs) (hf : xs.length < fuel) : ∃ r, mallocFrom hd fuel n s = some r := by
  by_cases hn : n = 0
  · exact ⟨(NULL, s), by unfold mallocFrom; rw [if_pos hn]⟩
  · rw [mallocFrom_eq h hf hn]
    cases bestFit n (sizesOf s xs) with
    | none => exact ⟨_, rfl⟩
    | some i => exact ⟨_, rfl⟩

theorem freeFrom_returns {s : State} {hd : Loc} {xs : List Nat} (p : Nat) {fuel : Nat}
    (h : FreeList s hd xs) (hf : xs.length < fuel) : ∃ s', freeFrom hd fuel p s = some s' := by
  by_cases hp : p = NULL
  · exact ⟨s, by unfold freeFrom; rw [if_pos hp]⟩
  · rw [freeFrom_eq_hdrOf h hf hp]
    exact ⟨_, rfl⟩

theorem wrapState_reach : ReachLock OsFresh wrapState.1 wrapState.2 :=
  runFrom_reach okFresh_sound (by decide) (by decide) (by decide) (by decide)

/-- The free list of `demoState` is well formed. -/
theorem demoState_wf : WF demoState Loc.head [4096] :=
  ⟨head_root, by decide, by decide, by decide, by decide, by decide⟩

/-- As long as no request makes the byte count `H + n` wrap and every heap
extension is answered with fresh space, every state reached by calls of the
locking variant that respect the precondition of free has pairwise disjoint
blocks, a byte counter equal to the bytes of all blocks, no adjacent free
entries and an address-sorted free list. -/
theorem ReachLock.invariants {s : State} {A : List Nat} (h : ReachLock OsGrants s A) :
    AllDisjoint Loc.head s A ∧ BytesAccounted Loc.head s A ∧
      FreeListNoAdjacent Loc.head s ∧ FreeListSorted Loc.head s :=
  (Reach.inv head_root h.toReachHead).props

/-! ## An allocation followed by the release of its pointer -/

theorem SameHeap.trans {s s' s'' : State} (h1 : SameHeap s s') (h2 : SameHeap s' s'') :
    SameHeap s s'' :=
  ⟨h2.1.trans h1.1, h2.2.1.trans h1.2.1, h2.2.2.1.trans h1.2.2.1, h2.2.2.2.trans h1.2.2.2⟩

theorem popA_length_le (n i : Nat) (L : List Blk) : (popA n i L).2.length ≤ L.length := by
  by_cases hi : i < L.length
  · obtain ⟨hL, hlen⟩ := list_split_at L hi
    have := @popA_eq n (L.take i) (L.drop (i + 1)) L[i]
    rw [hlen, ← hL] at this
    rw [this]
    by_cases hgt : L[i].2 > n + METADATA_SIZE
    · rw [if_pos hgt]
      simp only [List.length_append, List.length_cons, List.length_take, List.length_drop]
      omega
    · rw [if_neg hgt]
      simp only [List.length_append, List.length_cons, List.length_take, List.length_drop]
      omega
  · unfold popA
    rw [List.getElem?_eq_none (by omega)]

/-- `popFreeBlk` never moves the break nor changes the byte counter. -/
theorem popFreeBlk_sameHeap (ptr : Loc) (n : Nat) (s : State) :
    SameHeap s (popFreeBlk ptr n s).2 := by
  have hst : ∀ (t : State) (l : Loc) (v : Nat), SameHeap t (t.store l v) := by
    intro t l v
    cases l <;> exact ⟨rfl, rfl, rfl, rfl⟩
  unfold popFreeBlk
  by_cases h : (s.mem (s.load ptr)).size > (n + METADATA_SIZE) % WORD
  · simp only [h, if_true]
    exact SameHeap.trans ⟨rfl, rfl, rfl, rfl⟩ (hst _ _ _)
  · simp only [h, if_false]
    exact hst _ _ _

/-- A request served from the free list followed by the release of the returned
pointer, on a well-formed list. -/
theorem malloc_free_hit {s : State} {hd : Loc} {xs : List Nat} {n i fuel : Nat}
    (w : WF s hd xs) (hn : n ≠ 0) (hbf : bestFit n (sizesOf s xs) = some i)
    (hf : xs.length < fuel) :
    ∃ r s' xs', mallocFrom hd fuel n s = some r ∧
      (∃ hi : i < xs.length, r.1 = xs[i] + METADATA_SIZE) ∧ SameHeap s r.2 ∧
      freeFrom hd fuel r.1 r.2 = some s' ∧ Chained s' hd xs' ∧
      blocksOf s' xs' = freeA (popA n i (blocksOf s xs)).1 (popA n i (blocksOf s xs)).2 ∧
      SameHeap s s' := by
  obtain ⟨hi, hge⟩ := bestFit_sizesOf hbf
  obtain ⟨xs1, p1, w1, p3, p4, p5, p6, p8⟩ := w.pop hi hge
  have hlen : xs1.length < fuel := by
    have h1 := popA_length_le n i (blocksOf s xs)
    rw [← p3, blocksOf_length, blocksOf_length] at h1
    omega
  have hb0 : xs[i] ≠ NULL := w.chain.entry_ne_null _ (List.getElem_mem _)
  obtain ⟨s', xs', f1, f2, f3, _, _, f6⟩ := freeFrom_spec w1.chained p5 hb0 p6 hlen
  refine ⟨popFreeBlk (locAt hd xs i) n s, s', xs', ?_, ⟨hi, p1⟩, p8, ?_, f2, ?_, p8.trans f6⟩
  · rw [mallocFrom_eq w.chain hf hn, hbf]
  · rw [p1]; exact f1
  · rw [f3, p3, p4]

/-- A request served by a granted extension of the heap followed by the release
of the returned pointer, on a well-formed list. -/
theorem malloc_free_miss {s : State} {hd : Loc} {xs : List Nat} {n fuel : Nat}
    (w : WF s hd xs) (hn : n ≠ 0) (hbf : bestFit n (sizesOf s xs) = none)
    (hg : OsGrants n s) (hb : s.brk ≠ NULL) (hf : xs.length < fuel) :
    ∃ r s' xs', mallocFrom hd fuel n s = some r ∧ r.1 = s.brk + METADATA_SIZE ∧
      freeFrom hd fuel r.1 r.2 = some s' ∧ Chained s' hd xs' ∧
      blocksOf s' xs' = freeA (s.brk, n) (blocksOf s xs) ∧
      s'.brk = s.brk + (METADATA_SIZE + n) ∧ s'.heap_limit = s.heap_limit ∧
      s'.brk ≤ s'.heap_limit := by
  obtain ⟨w1, m1, m2, m3, m4, m5, m6, m7, m8⟩ := w.miss hg
  have hin : s.brk + METADATA_SIZE + ((reqSysBlk n s).2.mem s.brk).size ≤ (reqSysBlk n s).2.brk := by
    rw [m3, m5]; omega
  obtain ⟨s', xs', f1, f2, f3, _, _, f6⟩ := freeFrom_spec w1.chained m4 hb hin hf
  refine ⟨reqSysBlk n s, s', xs', ?_, m1, ?_, f2, ?_, ?_, ?_, ?_⟩
  · rw [mallocFrom_eq w.chain hf hn, hbf]
  · rw [m1]; exact f1
  · rw [f3, m2, m3]
  · rw [f6.1, m5]
  · rw [f6.2.2.1, m7]
  · rw [f6.1, f6.2.2.1]; exact w1.brk_le
theorem absorbLeft_covers (P : List Blk) (b : Blk) :
    (absorbLeft P b).2.1 ≤ b.1 ∧ endOf b = endOf (absorbLeft P b).2 ∧
      b.2 ≤ (absorbLeft P b).2.2 := by
  rcases List.eq_nil_or_concat P with rfl | ⟨P0, p, rfl⟩
  · exact ⟨le_refl _, rfl, le_refl _⟩
  · rw [List.concat_eq_append, absorbLeft_concat]
    by_cases h : endOf p = b.1
    · rw [if_pos h]
      simp only [endOf, METADATA_SIZE] at *
      omega
    · rw [if_neg h]
      exact ⟨le_refl _, rfl, le_refl _⟩

theorem absorbRight_covers (l : List Blk × Blk) (Q : List Blk) :
    ∃ x ∈ absorbRight l Q, x.1 = l.2.1 ∧ endOf l.2 ≤ endOf x ∧ l.2.2 ≤ x.2 := by
  unfold absorbRight
  cases Q with
  | nil => exact ⟨l.2, by simp, rfl, le_refl _, le_refl _⟩
  | cons c Q' =>
    by_cases h : endOf l.2 = c.1
    · simp only [h, if_true]
      refine ⟨(l.2.1, l.2.2 + (METADATA_SIZE + c.2)), by simp, rfl, ?_, ?_⟩
      · have h' := h
        simp only [endOf, METADATA_SIZE] at h' ⊢
        omega
      · simp only; omega
    · simp only [h, if_false]
      exact ⟨l.2, by simp, rfl, le_refl _, le_refl _⟩

/-- After the merges one entry covers the released block. -/
theorem coalesce_covers (P : List Blk) (b : Blk) (Q : List Blk) :
    ∃ x ∈ coalesce P b Q, x.1 ≤ b.1 ∧ endOf b ≤ endOf x ∧ b.2 ≤ x.2 := by
  obtain ⟨a1, a2, a3⟩ := absorbLeft_covers P b
  obtain ⟨x, hx, b1, b2, b3⟩ := absorbRight_covers (absorbLeft P b) Q
  exact ⟨x, hx, by rw [b1]; exact a1, by rw [a2]; exact b2, Nat.le_trans a3 b3⟩

theorem freeA_covers (b : Blk) (L : List Blk) :
    ∃ x ∈ freeA b L, x.1 ≤ b.1 ∧ endOf b ≤ endOf x ∧ b.2 ≤ x.2 := by
  rw [freeA_eq_coalesce]
  exact coalesce_covers _ _ _

/-- A block released above every entry, touching none, goes to the end of the
list. -/
theorem freeA_at_end {b : Blk} {L : List Blk} (h1 : ∀ x ∈ L, x.1 < b.1)
    (h2 : ∀ x ∈ L, endOf x ≠ b.1) : freeA b L = L ++ [b] := by
  have hk : insIdx b.1 (L.map Prod.fst) = L.length := by
    have := @insIdx_append_of b.1 (L.map Prod.fst) [] (fun x hx => by
      obtain ⟨y, hy, rfl⟩ := List.mem_map.1 hx
      exact h1 y hy) (by simp)
    rw [List.append_nil, List.length_map] at this
    exact this
  rw [freeA_eq_coalesce, hk, List.take_length, List.drop_length]
  unfold coalesce
  rw [absorbLeft_keep h2]
  rfl

theorem bestFitAux_append_exact {n : Nat} :
    ∀ (zs : List Nat) (k : Nat), (∀ z ∈ zs, z < n) →
      bestFitAux n (zs ++ [n]) k none = some (k + zs.length, n) := by
  intro zs
  induction zs with
  | nil =>
    intro k _
    simp [bestFitAux]
  | cons z zs ih =>
    intro k h
    have hz := h z (List.mem_cons_self _ _)
    have h1 : z ≠ n := by omega
    have h2 : ¬ z > n := by omega
    rw [List.cons_append, bestFitAux, if_neg h1]
    simp only [h2, if_false]
    rw [ih (k + 1) (fun y hy => h y (List.mem_cons_of_mem _ hy))]
    simp only [List.length_cons]
    congr 2
    omega

/-- When every entry is too small, an entry of exactly the requested size added
at the end of the list is the one selected. -/
theorem bestFit_append_exact {n : Nat} {zs : List Nat} (h : ∀ z ∈ zs, z < n) :
    bestFit n (zs ++ [n]) = some zs.length := by
  unfold bestFit
  rw [bestFitAux_append_exact zs 0 h]
  simp

/-- On a well-formed list without adjacent entries, a request served from the
list followed by the release of the returned pointer restores the list. -/
theorem malloc_free_roundtrip {s : State} {hd : Loc} {xs : List Nat} {n i fuel : Nat}
    (w : WF s hd xs) (hsep : Separated (blocksOf s xs)) (hn : n ≠ 0)
    (hbf : bestFit n (sizesOf s xs) = some i) (hf : xs.length < fuel) :
    ∃ r s', mallocFrom hd fuel n s = some r ∧
      (∃ hi : i < xs.length, r.1 = xs[i] + METADATA_SIZE) ∧
      freeFrom hd fuel r.1 r.2 = some s' ∧ WF s' hd xs ∧
      blocksOf s' xs = blocksOf s xs ∧ SameHeap s s' := by
  obtain ⟨r, s', xs', m1, m2, _, m4, m5, m6, m7⟩ := malloc_free_hit w hn hbf hf
  obtain ⟨hi, hge⟩ := bestFit_sizesOf hbf
  have hiL : i < (blocksOf s xs).length := by rw [blocksOf_length]; exact hi
  have hLi := blocksOf_getElem s xs hi hiL
  have hgeL : n ≤ ((blocksOf s xs)[i]).2 := by rw [hLi]; exact hge
  have hrt := (popA_at hiL hgeL w.blocks_sortedDisj).2.2.2.2.2.2.2.2 hsep
  rw [hrt] at m6
  have hxs : xs' = xs := by
    have := congrArg (List.map Prod.fst) m6
    rwa [blocksOf_map_fst, blocksOf_map_fst] at this
  subst hxs
  refine ⟨r, s', m1, m2, m4, ?_, m6, m7⟩
  exact m5.wf (by rw [m6]; exact w.blocks_sortedDisj) (by rw [m7.1, m7.2.2.1]; exact w.brk_le)
    (by rw [m7.2.2.1]; exact w.limit_lt)

theorem sizesOf_congr {s s' : State} {xs : List Nat} (h : blocksOf s' xs = blocksOf s xs) :
    sizesOf s' xs = sizesOf s xs := by
  rw [← blocksOf_map_snd, ← blocksOf_map_snd, h]

/-- A request served from the list returns the payload of the selected entry and
leaves the heap as it is. -/
theorem mallocFrom_hit {s : State} {hd : Loc} {xs : List Nat} {n i fuel : Nat}
    (w : WF s hd xs) (hn : n ≠ 0) (hbf : bestFit n (sizesOf s xs) = some i)
    (hf : xs.length < fuel) :
    ∃ r, mallocFrom hd fuel n s = some r ∧
      (∃ hi : i < xs.length, r.1 = xs[i] + METADATA_SIZE) ∧ SameHeap s r.2 := by
  obtain ⟨hi, hge⟩ := bestFit_sizesOf hbf
  obtain ⟨xs1, p1, _, _, _, _, _, p8⟩ := w.pop hi hge
  exact ⟨popFreeBlk (locAt hd xs i) n s, by rw [mallocFrom_eq w.chain hf hn, hbf], ⟨hi, p1⟩, p8⟩

/-- An allocation on a list with a large enough entry leaves the heap as it is,
whatever the shape of the list. -/
theorem mallocFrom_no_growth {s : State} {hd : Loc} {xs : List Nat} {n fuel : Nat}
    (h : FreeList s hd xs) (hn : n ≠ 0) (hf : xs.length < fuel)
    (hbig : ∃ x ∈ blocksOf s xs, n ≤ x.2) :
    ∃ r, mallocFrom hd fuel n s = some r ∧ SameHeap s r.2 := by
  rw [mallocFrom_eq h hf hn]
  cases hbf : bestFit n (sizesOf s xs) with
  | none =>
    exfalso
    obtain ⟨x, hx, hxn⟩ := hbig
    have := bestFit_eq_none_iff.1 hbf x.2 (by
      rw [← blocksOf_map_snd]; exact List.mem_map_of_mem _ hx)
    omega
  | some i => exact ⟨_, rfl, popFreeBlk_sameHeap _ _ _⟩

/-- The scan finds no entry exactly when every entry is too small. -/
theorem bestFit_none_iff_sizes {s : State} {xs : List Nat} {n : Nat} :
    bestFit n (sizesOf s xs) = none ↔ ∀ a ∈ xs, (s.mem a).size < n := by
  rw [bestFit_eq_none_iff]
  unfold sizesOf
  simp only [List.mem_map, forall_exists_index, and_imp, forall_apply_eq_imp_iff₂]

theorem absorbLeft_length (P : List Blk) (b : Blk) :
    (absorbLeft P b).1.length ≤ P.length := by
  rcases List.eq_nil_or_concat P with rfl | ⟨P0, p, rfl⟩
  · exact le_refl _
  · rw [List.concat_eq_append, absorbLeft_concat]
    by_cases h : endOf p = b.1
    · rw [if_pos h]; simp
    · rw [if_neg h]

theorem absorbRight_length (l : List Blk × Blk) (Q : List Blk) :
    (absorbRight l Q).length ≤ l.1.length + 1 + Q.length := by
  unfold absorbRight
  cases Q with
  | nil => simp
  | cons c Q' =>
    by_cases h : endOf l.2 = c.1
    · simp only [h, if_true, List.length_append, List.length_cons]; omega
    · simp only [h, if_false, List.length_append, List.length_cons]; omega

theorem freeA_length_le (b : Blk) (L : List Blk) : (freeA b L).length ≤ L.length + 1 := by
  rw [freeA_eq_coalesce]
  unfold coalesce
  have h1 := absorbRight_length (absorbLeft (L.take (insIdx b.1 (L.map Prod.fst))) b)
    (L.drop (insIdx b.1 (L.map Prod.fst)))
  have h2 := absorbLeft_length (L.take (insIdx b.1 (L.map Prod.fst))) b
  have h3 : (L.take (insIdx b.1 (L.map Prod.fst))).length +
      (L.drop (insIdx b.1 (L.map Prod.fst))).length = L.length := by
    rw [← List.length_append, List.take_append_drop]
  omega

/-- The capacity of the free list after an allocation followed by the release of
its pointer. -/
theorem malloc_free_capacity {s : State} {hd : Loc} {xs : List Nat} {n fuel : Nat}
    (w : WF s hd xs) (hn : n ≠ 0) (hf : xs.length < fuel)
    (hos : (∀ a ∈ xs, (s.mem a).size < n) → OsGrants n s ∧ s.brk ≠ NULL) :
    ∃ r s' xs', mallocFrom hd fuel n s = some r ∧ freeFrom hd fuel r.1 r.2 = some s' ∧
      FreeList s' hd xs' ∧
      ((∃ a ∈ xs, n ≤ (s.mem a).size) →
        totalBytes (blocksOf s' xs') = totalBytes (blocksOf s xs)) ∧
      ((∀ a ∈ xs, (s.mem a).size < n) →
        totalBytes (blocksOf s' xs') = totalBytes (blocksOf s xs) + (METADATA_SIZE + n)) := by
  have hnone := @bestFit_none_iff_sizes s xs n
  cases hbf : bestFit n (sizesOf s xs) with
  | none =>
    have hall := hnone.1 hbf
    obtain ⟨hg, hb⟩ := hos hall
    obtain ⟨r, s', xs', m1, _, m3, m4, m5, _⟩ := malloc_free_miss w hn hbf hg hb hf
    refine ⟨r, s', xs', m1, m3, m4.chain, ?_, ?_⟩
    · rintro ⟨a, ha, hge⟩
      have := hall a ha
      omega
    · intro _
      rw [m5, totalBytes_freeA]
  | some i =>
    obtain ⟨r, s', xs', m1, _, _, m4, m5, m6, _⟩ := malloc_free_hit w hn hbf hf
    obtain ⟨hi, hge⟩ := bestFit_sizesOf hbf
    have hiL : i < (blocksOf s xs).length := by rw [blocksOf_length]; exact hi
    have hLi := blocksOf_getElem s xs hi hiL
    have hgeL : n ≤ ((blocksOf s xs)[i]).2 := by rw [hLi]; exact hge
    have htot := (popA_at hiL hgeL w.blocks_sortedDisj).2.2.2.2.2.2.2.1
    refine ⟨r, s', xs', m1, m4, m5.chain, ?_, ?_⟩
    · intro _
      rw [m6, totalBytes_freeA]
      exact htot
    · intro hall
      have := hall _ (List.getElem_mem (l := xs) hi)
      omega

/-- The sequence allocate, free, allocate of the same size on a well-formed list
without adjacent entries: the second allocation leaves the heap as it is, and
it returns the pointer of the first one when that was served from the list or
when no entry ends at the break. -/
theorem malloc_free_malloc {s : State} {hd : Loc} {xs : List Nat} {n fuel : Nat}
    (w : WF s hd xs) (hsep : Separated (blocksOf s xs)) (hn : n ≠ 0)
    (hf : xs.length + 1 < fuel)
    (hos : bestFit n (sizesOf s xs) = none → OsGrants n s ∧ s.brk ≠ NULL) :
    ∃ r1 s2 r2, mallocFrom hd fuel n s = some r1 ∧ freeFrom hd fuel r1.1 r1.2 = some s2 ∧
      mallocFrom hd fuel n s2 = some r2 ∧ SameHeap s2 r2.2 ∧
      ((bestFit n (sizesOf s xs) = none → ∀ x ∈ blocksOf s xs, endOf x ≠ s.brk) →
        r2.1 = r1.1) := by
  have hf' : xs.length < fuel := by omega
  cases hbf : bestFit n (sizesOf s xs) with
  | some i =>
    obtain ⟨r, s', m1, ⟨hi, m2⟩, m3, w', m5, _⟩ := malloc_free_roundtrip w hsep hn hbf hf'
    have hbf' : bestFit n (sizesOf s' xs) = some i := by rw [sizesOf_congr m5]; exact hbf
    obtain ⟨r2, k1, ⟨_, k2⟩, k3⟩ := mallocFrom_hit w' hn hbf' hf'
    exact ⟨r, s', r2, m1, m3, k1, k3, fun _ => by rw [k2, m2]⟩
  | none =>
    obtain ⟨hg, hb⟩ := hos hbf
    obtain ⟨r, s', xs', m1, m2, m3, m4, m5, m6, m7, m8⟩ := malloc_free_miss w hn hbf hg hb hf'
    have hlen : xs'.length < fuel := by
      have := freeA_length_le (s.brk, n) (blocksOf s xs)
      rw [← m5, blocksOf_length, blocksOf_length] at this
      omega
    have hbig : ∃ x ∈ blocksOf s' xs', n ≤ x.2 := by
      obtain ⟨x, hx, _, _, h3⟩ := freeA_covers (s.brk, n) (blocksOf s xs)
      exact ⟨x, by rw [m5]; exact hx, h3⟩
    obtain ⟨r2, k1, k2⟩ := mallocFrom_no_growth m4.chain hn hlen hbig
    refine ⟨r, s', r2, m1, m3, k1, k2, ?_⟩
    intro hna
    have hlt : ∀ x ∈ blocksOf s xs, x.1 < (s.brk, n).1 := by
      intro x hx
      have := w.blocks_le_brk x hx
      simp only [endOf, METADATA_SIZE] at this
      show x.1 < s.brk
      omega
    have hend := freeA_at_end hlt (hna rfl)
    rw [hend] at m5
    have hxs : xs' = xs ++ [s.brk] := by
      have := congrArg (List.map Prod.fst) m5
      rwa [blocksOf_map_fst, List.map_append, blocksOf_map_fst] at this
    subst hxs
    have hsz : sizesOf s' (xs ++ [s.brk]) = sizesOf s xs ++ [n] := by
      have := congrArg (List.map Prod.snd) m5
      rwa [blocksOf_map_snd, List.map_append, blocksOf_map_snd] at this
    have hbf' : bestFit n (sizesOf s' (xs ++ [s.brk])) = some xs.length := by
      rw [hsz]
      have := bestFit_append_exact (bestFit_eq_none_iff.1 hbf)
      rwa [show (sizesOf s xs).length = xs.length by simp [sizesOf]] at this
    have w' : WF s' hd (xs ++ [s.brk]) := by
      refine m4.wf ?_ m8 (by rw [m7]; exact w.limit_lt)
      rw [m5]
      refine sortedDisj_append.2 ⟨w.blocks_sortedDisj, List.pairwise_singleton _ _, ?_⟩
      intro x hx y hy
      rw [List.mem_singleton.1 hy]
      exact w.blocks_le_brk x hx
    obtain ⟨r2', j1, ⟨hi, j2⟩, _⟩ := mallocFrom_hit w' hn hbf' hlen
    rw [k1] at j1
    simp only [Option.some.injEq] at j1
    subst j1
    rw [j2, m2]
    congr 1
    simp

theorem edgeState_wf : WF edgeState Loc.head [4096] :=
  ⟨head_root, by decide, by decide, by decide, by decide, by decide⟩

/-! ## The scenario on a fresh heap -/

/-- An extension that fits below the limit of the heap is granted. -/
theorem osGrants_of_fits {s : State} {n : Nat} (hn : METADATA_SIZE + n < 2 ^ 63)
    (hg : s.brk + (METADATA_SIZE + n) ≤ s.heap_limit) : OsGrants n s := by
  refine ⟨⟨?_, ?_⟩, ?_⟩
  · rw [sbrk_granted hn hg]
  · rw [sbrk_granted hn hg]
    show s.brk < s.brk + (METADATA_SIZE + n)
    simp only [METADATA_SIZE]; omega
  · simp only [WORD]; omega

theorem freeA_nil (b : Blk) : freeA b [] = [b] :=
  @freeA_at_end b [] (fun _ h => by cases h) (fun _ h => by cases h)

theorem popA_single (n : Nat) (e : Blk) :
    popA n 0 [e] =
      if e.2 > n + METADATA_SIZE then
        ((e.1, n), [(e.1 + METADATA_SIZE + n, e.2 - (n + METADATA_SIZE))])
      else (e, []) :=
  @popA_eq n [] [] e

/-- The run `allocate 64; allocate 128; free` of the first pointer;
`allocate 32` on a fresh heap that starts at `start`. -/
theorem scenario_run (hd : Loc) (hroot : ∀ b, hd ≠ Loc.next b) (start limit fuel : Nat)
    (h0 : 0 < start) (hl : start + 224 ≤ limit) (hw : limit < WORD) (hf : 1 < fuel) :
    ∃ r1 r2 s3 r3,
      mallocFrom hd fuel 64 (initState start limit) = some r1 ∧
      mallocFrom hd fuel 128 r1.2 = some r2 ∧
      freeFrom hd fuel r1.1 r2.2 = some s3 ∧
      mallocFrom hd fuel 32 s3 = some r3 ∧
      r1.1 = start + METADATA_SIZE ∧ r2.1 = start + 80 + METADATA_SIZE ∧
      r3.1 = r1.1 ∧ (r3.2.mem start).size = 32 ∧
      FreeList r3.2 hd [start + 48] ∧ (r3.2.mem (start + 48)).size = 16 ∧
      s3.entire_heap_size = 224 ∧ r3.2.entire_heap_size = 224 ∧
      r3.2.brk = start + 224 := by
  have hf0 : ([] : List Nat).length < fuel := by simp only [List.length_nil]; omega
  have w0 : WF (initState start limit) hd [] :=
    (initState_invX hd hroot h0 (by omega) hw).wf
  have b0 : (initState start limit).brk = start := rfl
  have l0 : (initState start limit).heap_limit = limit := rfl
  have e0 : (initState start limit).entire_heap_size = 0 := rfl
  -- first allocation
  have g0 : OsGrants 64 (initState start limit) :=
    osGrants_of_fits (by simp only [METADATA_SIZE]; omega)
      (by rw [b0, l0]; simp only [METADATA_SIZE]; omega)
  obtain ⟨w1, m1, _, m3, _, m5, _, m7, m8⟩ := w0.miss g0
  have c1 : mallocFrom hd fuel 64 (initState start limit) =
      some (reqSysBlk 64 (initState start limit)) := by
    rw [mallocFrom_eq w0.chain hf0 (by decide)]; rfl
  generalize reqSysBlk 64 (initState start limit) = r1 at *
  rw [b0] at m1 m3 m5
  rw [l0] at m7
  rw [e0] at m8
  -- second allocation
  have g1 : OsGrants 128 r1.2 :=
    osGrants_of_fits (by simp only [METADATA_SIZE]; omega)
      (by rw [m5, m7]; simp only [METADATA_SIZE]; omega)
  obtain ⟨w2, n1, _, n3, _, n5, _, n7, n8⟩ := w1.miss g1
  have hsz2 : ((reqSysBlk 128 r1.2).2.mem start).size = 64 := by
    obtain ⟨_, h2, _⟩ := reqSysBlk_spec (s := r1.2) (n := 128)
      (by simp only [METADATA_SIZE]; omega)
      (by rw [m5, m7]; simp only [METADATA_SIZE]; omega) w1.limit_lt
    rw [h2, if_neg (by rw [m5]; simp only [METADATA_SIZE]; omega), m3]
  have c2 : mallocFrom hd fuel 128 r1.2 = some (reqSysBlk 128 r1.2) := by
    rw [mallocFrom_eq w1.chain hf0 (by decide)]; rfl
  generalize reqSysBlk 128 r1.2 = r2 at *
  rw [m5] at n1 n5
  rw [m7] at n7
  rw [m8] at n8
  -- release of the first pointer
  have hin : start + METADATA_SIZE + (r2.2.mem start).size ≤ r2.2.brk := by
    rw [hsz2, n5]; simp only [METADATA_SIZE]; omega
  obtain ⟨s3, xs3, f1, f2, f3, _, _, f6⟩ :=
    freeFrom_spec w2.chained (List.not_mem_nil _) (by simp only [NULL]; omega) hin hf0
  rw [hsz2, blocksOf_nil, freeA_nil] at f3
  have hxs3 : xs3 = [start] := by
    have := congrArg (List.map Prod.fst) f3
    rwa [blocksOf_map_fst] at this
  subst hxs3
  have hs3 : sizesOf s3 [start] = [64] := by
    have := congrArg (List.map Prod.snd) f3
    rwa [blocksOf_map_snd] at this
  have hsz3 : (s3.mem start).size = 64 := by
    have := hs3
    simp only [sizesOf, List.map_cons, List.map_nil, List.cons.injEq, and_true] at this
    exact this
  have w3 : WF s3 hd [start] :=
    f2.wf (by rw [f3]; exact List.pairwise_singleton _ _)
      (by rw [f6.1, f6.2.2.1]; exact w2.brk_le) (by rw [f6.2.2.1]; exact w2.limit_lt)
  -- third allocation
  have hbf : bestFit 32 (sizesOf s3 [start]) = some 0 := by rw [hs3]; decide
  have hi : 0 < [start].length := by simp
  have hge : 32 ≤ (s3.mem [start][0]).size := by
    show 32 ≤ (s3.mem start).size
    rw [hsz3]; decide
  obtain ⟨xs4, p1, w4, p3, p4, _, _, p8⟩ := w3.pop hi hge
  have c4 : mallocFrom hd fuel 32 s3 = some (popFreeBlk (locAt hd [start] 0) 32 s3) := by
    rw [mallocFrom_eq w3.chain (by simp only [List.length_singleton]; omega) (by decide), hbf]
  generalize popFreeBlk (locAt hd [start] 0) 32 s3 = r3 at *
  have hpop : popA 32 0 (blocksOf s3 [start]) = ((start, 32), [(start + 48, 16)]) := by
    rw [f3, popA_single, if_pos (by simp only [METADATA_SIZE]; omega)]
    simp only [METADATA_SIZE, Nat.add_assoc]
  rw [hpop] at p3 p4
  have hxs4 : xs4 = [start + 48] := by
    have := congrArg (List.map Prod.fst) p3
    rwa [blocksOf_map_fst] at this
  subst hxs4
  have hsz4 : (r3.2.mem (start + 48)).size = 16 := by
    have := congrArg (List.map Prod.snd) p3
    rw [blocksOf_map_snd] at this
    simp only [sizesOf, List.map_cons, List.map_nil, List.cons.injEq, and_true] at this
    exact this
  have hsz4' : (r3.2.mem start).size = 32 := by
    have := congrArg Prod.snd p4
    exact this
  have e3 : s3.entire_heap_size = 224 := by
    rw [f6.2.2.2, n8]
    decide
  refine ⟨r1, r2, s3, r3, c1, c2, ?_, c4, m1, n1, ?_, hsz4', w4.chain, hsz4, e3, ?_, ?_⟩
  · rw [m1]; exact f1
  · rw [p1, m1]; rfl
  · rw [p8.2.2.2, e3]
  · rw [p8.1, f6.1, n5]
    simp only [METADATA_SIZE]

/-! ## The entry selected by the scan -/

/-- The candidate `b` is the best among the first `k` entries of `full` for a
request of `n` bytes: it is large enough, no entry among them that is large
enough is smaller, and none before it is as small. -/
theorem bestFitAux_best {n : Nat} {full : List Nat} :
    ∀ (zs : List Nat) (k : Nat) (best : Option (Nat × Nat)) (r : Nat × Nat),
      full.drop k = zs →
      (∀ (j z : Nat), j < k → full[j]? = some z → z ≠ n) →
      (best = none → ∀ (j z : Nat), j < k → full[j]? = some z → z < n) →
      (∀ b, best = some b → b.1 < k ∧ full[b.1]? = some b.2 ∧ n ≤ b.2 ∧
        (∀ (j z : Nat), j < k → full[j]? = some z → n ≤ z → b.2 ≤ z) ∧
        (∀ (j z : Nat), j < b.1 → full[j]? = some z → n ≤ z → b.2 < z)) →
      bestFitAux n zs k best = some r →
      full[r.1]? = some r.2 ∧ n ≤ r.2 ∧
        (∀ (j z : Nat), full[j]? = some z → n ≤ z → r.2 ≤ z) ∧
        (∀ (j z : Nat), j < r.1 → full[j]? = some z → n ≤ z → r.2 < z) := by
  intro zs
  induction zs with
  | nil =>
    intro k best r hd _ _ hb hr
    have hk : full.length ≤ k := List.drop_eq_nil_iff.1 hd
    simp only [bestFitAux] at hr
    obtain ⟨_, b2, b3, b4, b5⟩ := hb r hr
    refine ⟨b2, b3, ?_, b5⟩
    intro j z hj hz
    have := (List.getElem?_eq_some_iff.1 hj).1
    exact b4 j z (by omega) hj hz
  | cons z zs ih =>
    intro k best r hd hne hnone hb hr
    have hz : full[k]? = some z := by rw [← List.head?_drop, hd]; rfl
    have hzs : full.drop (k + 1) = zs := by rw [← List.drop_drop 1 k, hd]; rfl
    have hcase : ∀ (j w : Nat), j < k + 1 → full[j]? = some w → (j < k ∨ (j = k ∧ w = z)) := by
      intro j w hj hw
      by_cases hjk : j < k
      · exact Or.inl hjk
      · have : j = k := by omega
        subst this
        rw [hz] at hw
        exact Or.inr ⟨rfl, (Option.some.inj hw).symm⟩
    simp only [bestFitAux] at hr
    by_cases hex : z = n
    · simp only [hex, if_true, Option.some.injEq] at hr
      subst hr
      refine ⟨by rw [hz, hex], le_refl _, fun j w _ hw => hw, ?_⟩
      intro j w hj hw hnw
      have := hne j w hj hw
      omega
    · simp only [hex, if_false] at hr
      have hne' : ∀ (j w : Nat), j < k + 1 → full[j]? = some w → w ≠ n := by
        intro j w hj hw
        rcases hcase j w hj hw with h | ⟨_, rfl⟩
        · exact hne j w h hw
        · exact hex
      cases best with
      | none =>
        have hsmall := hnone rfl
        by_cases hgt : z > n
        · simp only [hgt, if_true] at hr
          refine ih (k + 1) _ r hzs hne' (fun h => by cases h) ?_ hr
          intro b hbb
          simp only [Option.some.injEq] at hbb
          subst hbb
          refine ⟨Nat.lt_succ_self _, hz, Nat.le_of_lt hgt, ?_, ?_⟩
          · intro j w hj hw hnw
            rcases hcase j w hj hw with h | ⟨_, rfl⟩
            · have := hsmall j w h hw
              omega
            · exact le_refl _
          · intro j w hj hw hnw
            have := hsmall j w hj hw
            omega
        · simp only [hgt, if_false] at hr
          refine ih (k + 1) _ r hzs hne' ?_ (fun b h => by cases h) hr
          intro _ j w hj hw
          rcases hcase j w hj hw with h | ⟨_, rfl⟩
          · exact hsmall j w h hw
          · omega
      | some b0 =>
        obtain ⟨b1, b2, b3, b4, b5⟩ := hb b0 rfl
        dsimp only at hr
        by_cases hc : z > n ∧ z < b0.2
        · simp only [hc, and_self, if_true] at hr
          refine ih (k + 1) _ r hzs hne' (fun h => by cases h) ?_ hr
          intro b hbb
          simp only [Option.some.injEq] at hbb
          subst hbb
          refine ⟨Nat.lt_succ_self _, hz, Nat.le_of_lt hc.1, ?_, ?_⟩
          · intro j w hj hw hnw
            rcases hcase j w hj hw with h | ⟨_, rfl⟩
            · have := b4 j w h hw hnw
              omega
            · exact le_refl _
          · intro j w hj hw hnw
            have := b4 j w hj hw hnw
            omega
        · simp only [hc, if_false] at hr
          refine ih (k + 1) _ r hzs hne' (fun h => by cases h) ?_ hr
          intro b hbb
          simp only [Option.some.injEq] at hbb
          subst hbb
          refine ⟨by omega, b2, b3, ?_, b5⟩
          intro j w hj hw hnw
          rcases hcase j w hj hw with h | ⟨_, rfl⟩
          · exact b4 j w h hw hnw
          · have : w ≠ n := hex
            by_contra hlt
            exact hc ⟨by omega, by omega⟩

/-- The index selected by the scan is that of the first entry among those of
minimal size subject to being large enough. -/
theorem bestFit_best {n i : Nat} {sizes : List Nat} (h : bestFit n sizes = some i) :
    ∃ z, sizes[i]? = some z ∧ n ≤ z ∧
      (∀ (j w : Nat), sizes[j]? = some w → n ≤ w → z ≤ w) ∧
      (∀ (j w : Nat), j < i → sizes[j]? = some w → n ≤ w → z < w) := by
  unfold bestFit at h
  cases hr : bestFitAux n sizes 0 none with
  | none => rw [hr] at h; cases h
  | some r =>
    rw [hr] at h
    simp only [Option.map_some', Option.some.injEq] at h
    subst h
    exact ⟨r.2, @bestFitAux_best n sizes sizes 0 none r rfl (fun j z hj => by omega)
      (fun _ j z hj => by omega) (fun b hb => by cases hb) hr⟩
theorem popFreeBlk_fst (ptr : Loc) (n : Nat) (s : State) :
    (popFreeBlk ptr n s).1 = (s.load ptr + METADATA_SIZE) % WORD := by
  unfold popFreeBlk
  by_cases h : (s.mem (s.load ptr)).size > (n + METADATA_SIZE) % WORD
  · simp only [h, if_true]
  · simp only [h, if_false]

/-- An allocation on an address-sorted list with a large enough entry is served
from the lowest-address entry among those of minimal size subject to being
large enough, and leaves the heap as it is. -/
theorem mallocFrom_best_fit {s : State} {hd : Loc} {xs : List Nat} {n fuel : Nat}
    (h : FreeList s hd xs) (hs : xs.Pairwise (· < ·))
    (haddr : ∀ a ∈ xs, a + METADATA_SIZE < WORD) (hn : n ≠ 0) (hf : xs.length < fuel)
    (hbig : ∃ a ∈ xs, n ≤ (s.mem a).size) :
    ∃ r e, mallocFrom hd fuel n s = some r ∧ e ∈ xs ∧ n ≤ (s.mem e).size ∧
      (∀ a ∈ xs, n ≤ (s.mem a).size → (s.mem e).size ≤ (s.mem a).size) ∧
      (∀ a ∈ xs, n ≤ (s.mem a).size → (s.mem a).size = (s.mem e).size → e ≤ a) ∧
      (∀ a ∈ xs, (s.mem a).size = n → (s.mem e).size = n ∧ e ≤ a) ∧
      r.1 = e + METADATA_SIZE ∧ r.2.brk = s.brk ∧
      r.2.entire_heap_size = s.entire_heap_size := by
  cases hbf : bestFit n (sizesOf s xs) with
  | none =>
    exfalso
    obtain ⟨a, ha, hge⟩ := hbig
    have := bestFit_none_iff_sizes.1 hbf a ha
    omega
  | some i =>
    obtain ⟨hi, _⟩ := bestFit_sizesOf hbf
    have m1 : mallocFrom hd fuel n s = some (popFreeBlk (locAt hd xs i) n s) := by
      rw [mallocFrom_eq h hf hn, hbf]
    have m2 : (popFreeBlk (locAt hd xs i) n s).1 = xs[i] + METADATA_SIZE := by
      rw [popFreeBlk_fst, h.load_locAt_getD i (Nat.le_of_lt hi), List.getD_eq_getElem _ _ hi]
      exact Nat.mod_eq_of_lt (haddr _ (List.getElem_mem _))
    have m3 := popFreeBlk_sameHeap (locAt hd xs i) n s
    obtain ⟨z, hz, b1, b2, b3⟩ := bestFit_best hbf
    rw [sizesOf_getElem?, List.getElem?_eq_getElem hi] at hz
    simp only [Option.map_some', Option.some.injEq] at hz
    subst hz
    have hidx : ∀ a ∈ xs, ∃ j, ∃ hj : j < xs.length, xs[j] = a ∧
        (sizesOf s xs)[j]? = some (s.mem a).size := by
      intro a ha
      obtain ⟨j, hj, rfl⟩ := List.getElem_of_mem ha
      refine ⟨j, hj, rfl, ?_⟩
      rw [sizesOf_getElem?, List.getElem?_eq_getElem hj]; rfl
    have hmin : ∀ a ∈ xs, n ≤ (s.mem a).size → (s.mem xs[i]).size ≤ (s.mem a).size := by
      intro a ha hna
      obtain ⟨j, hj, _, hsz⟩ := hidx a ha
      exact b2 j _ hsz hna
    have hlow : ∀ a ∈ xs, n ≤ (s.mem a).size → (s.mem a).size = (s.mem xs[i]).size →
        xs[i] ≤ a := by
      intro a ha hna heq
      obtain ⟨j, hj, rfl, hsz⟩ := hidx a ha
      by_cases hji : j < i
      · have := b3 j _ hji hsz hna
        omega
      · by_cases hij : i = j
        · subst hij; exact le_refl _
        · exact Nat.le_of_lt (pairwise_getElem_lt hs hi hj (by omega))
    refine ⟨_, xs[i], m1, List.getElem_mem _, b1, hmin, hlow, ?_, m2, m3.1, m3.2.2.2⟩
    intro a ha hex
    have h1 := hmin a ha (by omega)
    have h2 : (s.mem xs[i]).size = n := by omega
    exact ⟨h2, hlow a ha (by omega) (by omega)⟩

/-! ## The links after `popFreeBlk` -/

/-- Every link after a split: the link that held the entry holds the remainder,
the remainder links to the old successor of the entry, and every other link is
unchanged. -/
theorem popFreeBlk_split_links {s : State} {hd : Loc} {xs : List Nat} (w : WF s hd xs)
    {i n : Nat} (hi : i < xs.length) (hgt : n + METADATA_SIZE < (s.mem xs[i]).size) :
    locAt hd xs i ≠ Loc.next (xs[i] + METADATA_SIZE + n) ∧
    ∀ l, (popFreeBlk (locAt hd xs i) n s).2.load l =
      if l = locAt hd xs i then xs[i] + METADATA_SIZE + n
      else if l = Loc.next (xs[i] + METADATA_SIZE + n) then (s.mem xs[i]).next
      else s.load l := by
  have hmem : xs[i] ∈ xs := List.getElem_mem _
  have hbr := w.inHeap _ hmem
  have hlt := w.brk_lt
  have hrem := w.rem_not_mem hi hgt
  have hp : locAt hd xs i ≠ Loc.next (xs[i] + METADATA_SIZE + n) := by
    intro h
    refine next_ne_locAt w.root (x := xs[i] + METADATA_SIZE + n) (i := i) ?_ h.symm
    intro k hk heq
    subst hk
    apply hrem
    rw [heq, List.getD_eq_getElem _ _ (by omega)]
    exact List.getElem_mem _
  refine ⟨hp, ?_⟩
  rw [popFreeBlk_split_eq (w.load_locAt hi) hgt (by omega) hp]
  intro l
  simp only [load_store, load_setSize, load_setNext]

/-- The link that held the entry holds its old successor after a pop without
split. -/
theorem popFreeBlk_nosplit_link {s : State} {hd : Loc} {xs : List Nat} (w : WF s hd xs)
    {i n : Nat} (hi : i < xs.length) (hge : n ≤ (s.mem xs[i]).size)
    (hle : (s.mem xs[i]).size ≤ n + METADATA_SIZE) :
    (popFreeBlk (locAt hd xs i) n s).2.load (locAt hd xs i) = (s.mem xs[i]).next := by
  have hmem : xs[i] ∈ xs := List.getElem_mem _
  have hbr := w.inHeap _ hmem
  have hlt := w.brk_lt
  rw [popFreeBlk_nosplit_eq (w.load_locAt hi) hle
    (by simp only [METADATA_SIZE, WORD] at *; omega)
    (by simp only [METADATA_SIZE, WORD] at *; omega)]
  rw [load_store, if_pos rfl]

/-- On an entry of a well-formed list that is large enough, the test of
`popFreeBlk`, computed modulo `2 ^ 64`, is the test on the exact sum. -/
theorem split_test_exact {s : State} {hd : Loc} {xs : List Nat} (w : WF s hd xs)
    {i n : Nat} (hi : i < xs.length) (hge : n ≤ (s.mem xs[i]).size) :
    ((s.mem (s.load (locAt hd xs i))).size > (n + METADATA_SIZE) % WORD) ↔
      (s.mem xs[i]).size > n + METADATA_SIZE := by
  have hmem : xs[i] ∈ xs := List.getElem_mem _
  have hbr := w.inHeap _ hmem
  have hlt := w.brk_lt
  have h1 : (n + METADATA_SIZE) % WORD = n + METADATA_SIZE :=
    Nat.mod_eq_of_lt (by simp only [METADATA_SIZE, WORD] at *; omega)
  rw [w.load_locAt hi, h1]

/-! ## The miss path -/

/-- An extension by `H + n < 2 ^ 63` bytes that `sbrk` does not refuse fits
below the limit of the heap. -/
theorem sbrk_ok_fits {s : State} {n : Nat} (hn : METADATA_SIZE + n < 2 ^ 63)
    (hok : (sbrk ((METADATA_SIZE + n) % WORD) s).1 ≠ SBRK_FAILED) :
    s.brk + (METADATA_SIZE + n) ≤ s.heap_limit := by
  have hm : (METADATA_SIZE + n) % WORD = METADATA_SIZE + n :=
    Nat.mod_eq_of_lt (by simp only [WORD]; omega)
  rw [hm] at hok
  unfold sbrk at hok
  rw [if_pos hn] at hok
  by_contra hg
  rw [if_neg hg] at hok
  exact hok rfl

/-- The miss path of an allocation: no entry is large enough and the extension
by `H + n < 2 ^ 63` bytes is not refused. -/
theorem mallocFrom_miss {s : State} {hd : Loc} {xs : List Nat} {n fuel : Nat}
    (w : WF s hd xs) (hn : n ≠ 0) (hf : xs.length < fuel)
    (hsmall : ∀ a ∈ xs, (s.mem a).size < n) (hno : METADATA_SIZE + n < 2 ^ 63)
    (hok : (sbrk ((METADATA_SIZE + n) % WORD) s).1 ≠ SBRK_FAILED)
    (hc : s.entire_heap_size ≤ s.brk) :
    ∃ r, mallocFrom hd fuel n s = some r ∧ FreeList r.2 hd xs ∧
      blocksOf r.2 xs = blocksOf s xs ∧
      (r.2.mem s.brk).size = n ∧ (r.2.mem s.brk).next = NULL ∧
      r.2.entire_heap_size = s.entire_heap_size + (METADATA_SIZE + n) ∧
      r.2.brk = s.brk + (METADATA_SIZE + n) ∧ r.1 = s.brk + METADATA_SIZE := by
  have hg := sbrk_ok_fits hno hok
  obtain ⟨w1, m1, m2, m3, _, m5, _, _, m8⟩ := w.miss (osGrants_of_fits hno hg)
  obtain ⟨_, _, h3, _⟩ := reqSysBlk_spec hno hg w.limit_lt
  refine ⟨reqSysBlk n s, ?_, w1.chain, m2, m3, ?_, ?_, m5, m1⟩
  · rw [mallocFrom_eq w.chain hf hn, bestFit_none_iff_sizes.2 hsmall]
  · have := h3 (Loc.next s.brk)
    rw [if_pos rfl] at this
    exact this
  · rw [m8]
    apply Nat.mod_eq_of_lt
    have := w.limit_lt
    omega

/-! ## The shape of the list after a release -/

theorem covered_append {L L' : List Blk} {a : Nat} :
    Covered (L ++ L') a ↔ Covered L a ∨ Covered L' a := by
  unfold Covered
  constructor
  · rintro ⟨x, hx, h⟩
    rcases List.mem_append.1 hx with hx | hx
    · exact Or.inl ⟨x, hx, h⟩
    · exact Or.inr ⟨x, hx, h⟩
  · rintro (⟨x, hx, h⟩ | ⟨x, hx, h⟩)
    · exact ⟨x, List.mem_append_left _ hx, h⟩
    · exact ⟨x, List.mem_append_right _ hx, h⟩

theorem covered_cons {x : Blk} {L : List Blk} {a : Nat} :
    Covered (x :: L) a ↔ (x.1 ≤ a ∧ a < endOf x) ∨ Covered L a := by
  unfold Covered
  constructor
  · rintro ⟨y, hy, h⟩
    rcases List.mem_cons.1 hy with rfl | hy
    · exact Or.inl h
    · exact Or.inr ⟨y, hy, h⟩
  · rintro (h | ⟨y, hy, h⟩)
    · exact ⟨x, List.mem_cons_self _ _, h⟩
    · exact ⟨y, List.mem_cons_of_mem _ hy, h⟩

theorem covered_nil {a : Nat} : Covered [] a ↔ False := by
  unfold Covered
  constructor
  · rintro ⟨x, hx, _⟩; cases hx
  · exact False.elim

/-- The merges neither add nor remove a covered address. -/
theorem covered_coalesce (P : List Blk) (b : Blk) (Q : List Blk) (a : Nat) :
    Covered (coalesce P b Q) a ↔ Covered (P ++ Q) a ∨ (b.1 ≤ a ∧ a < endOf b) := by
  have hL : Covered ((absorbLeft P b).1 ++ [(absorbLeft P b).2]) a ↔
      Covered P a ∨ (b.1 ≤ a ∧ a < endOf b) := by
    rcases List.eq_nil_or_concat P with rfl | ⟨P0, p, rfl⟩
    · rw [absorbLeft_nil]
      simp only [List.nil_append, covered_cons, covered_nil, or_false, false_or]
    · rw [List.concat_eq_append, absorbLeft_concat]
      by_cases h : endOf p = b.1
      · rw [if_pos h]
        simp only [covered_append, covered_cons, covered_nil, or_false]
        have h' := h
        simp only [endOf, METADATA_SIZE] at h' ⊢
        constructor
        · rintro (h1 | h1)
          · exact Or.inl (Or.inl h1)
          · by_cases hc : a < b.1
            · exact Or.inl (Or.inr ⟨h1.1, by omega⟩)
            · exact Or.inr ⟨by omega, by omega⟩
        · rintro ((h1 | h1) | h1)
          · exact Or.inl h1
          · exact Or.inr ⟨h1.1, by omega⟩
          · exact Or.inr ⟨by omega, by omega⟩
      · rw [if_neg h]
        simp only [covered_append, covered_cons, covered_nil, or_false]
  have hR : ∀ l : List Blk × Blk, Covered (absorbRight l Q) a ↔
      Covered (l.1 ++ [l.2]) a ∨ Covered Q a := by
    intro l
    unfold absorbRight
    cases Q with
    | nil => simp only [covered_nil, or_false]
    | cons c Q' =>
      by_cases h : endOf l.2 = c.1
      · have h' := h
        simp only [h, if_true, covered_append, covered_cons, covered_nil, or_false]
        simp only [endOf, METADATA_SIZE] at h' ⊢
        constructor
        · rintro (h1 | h1 | h1)
          · exact Or.inl (Or.inl h1)
          · by_cases hc : a < c.1
            · exact Or.inl (Or.inr ⟨h1.1, by omega⟩)
            · exact Or.inr (Or.inl ⟨by omega, by omega⟩)
          · exact Or.inr (Or.inr h1)
        · rintro ((h1 | h1) | h1 | h1)
          · exact Or.inl h1
          · exact Or.inr (Or.inl ⟨h1.1, by omega⟩)
          · exact Or.inr (Or.inl ⟨by omega, by omega⟩)
          · exact Or.inr (Or.inr h1)
      · simp only [h, if_false, covered_append, covered_cons, covered_nil, or_false]
        tauto
  unfold coalesce
  rw [hR, hL, covered_append]
  tauto

/-- The four shapes of the list after the merges, by the adjacency of `b` to
the last block of `P` and to the first block of `Q`. -/
theorem coalesce_shape (P : List Blk) (b : Blk) (Q : List Blk) :
    ((∀ p ∈ P.getLast?, endOf p ≠ b.1) → (∀ c ∈ Q.head?, endOf b ≠ c.1) →
      coalesce P b Q = P ++ b :: Q) ∧
    (∀ p ∈ P.getLast?, endOf p = b.1 → (∀ c ∈ Q.head?, endOf b ≠ c.1) →
      coalesce P b Q = P.dropLast ++ (p.1, p.2 + (METADATA_SIZE + b.2)) :: Q) ∧
    ((∀ p ∈ P.getLast?, endOf p ≠ b.1) → ∀ c ∈ Q.head?, endOf b = c.1 →
      coalesce P b Q = P ++ (b.1, b.2 + (METADATA_SIZE + c.2)) :: Q.tail) ∧
    (∀ p ∈ P.getLast?, endOf p = b.1 → ∀ c ∈ Q.head?, endOf b = c.1 →
      coalesce P b Q =
        P.dropLast ++ (p.1, p.2 + b.2 + c.2 + 2 * METADATA_SIZE) :: Q.tail) := by
  rcases List.eq_nil_or_concat P with rfl | ⟨P0, p, rfl⟩
  · rw [coalesce_nil_left]
    cases Q with
    | nil =>
      refine ⟨fun _ _ => rfl, fun p hp => (by cases hp), fun _ c hc => (by cases hc),
        fun p hp => (by cases hp)⟩
    | cons c Q' =>
      refine ⟨fun _ h2 => ?_, fun p hp => (by cases hp), fun _ c' hc' h => ?_,
        fun p hp => (by cases hp)⟩
      · have := h2 c rfl
        simp only [this, if_false, List.nil_append]
      · cases hc'
        simp only [h, if_true, List.nil_append, List.tail_cons]
  · rw [List.concat_eq_append, coalesce_concat_left]
    have hlast : (P0 ++ [p]).getLast? = some p := by simp
    have hdrop : (P0 ++ [p]).dropLast = P0 := by simp
    rw [hdrop]
    have hend : endOf p = b.1 →
        endOf (p.1, p.2 + (METADATA_SIZE + b.2)) = endOf b := by
      intro h
      simp only [endOf, METADATA_SIZE] at h ⊢
      omega
    refine ⟨fun h1 h2 => ?_, fun p' hp' h1 h2 => ?_, fun h1 c hc h2 => ?_,
      fun p' hp' h1 c hc h2 => ?_⟩
    · have := h1 p hlast
      rw [if_neg this]
      cases Q with
      | nil => simp
      | cons c Q' =>
        have := h2 c rfl
        simp only [this, if_false, List.append_assoc, List.singleton_append]
    · rw [hlast] at hp'
      cases hp'
      rw [if_pos h1]
      cases Q with
      | nil => rfl
      | cons c Q' =>
        have := h2 c rfl
        rw [← hend h1] at this
        simp only [this, if_false]
    · have := h1 p hlast
      rw [if_neg this]
      cases Q with
      | nil => cases hc
      | cons c' Q' =>
        cases hc
        simp only [h2, if_true, List.append_assoc, List.singleton_append, List.tail_cons]
    · rw [hlast] at hp'
      cases hp'
      rw [if_pos h1]
      cases Q with
      | nil => cases hc
      | cons c' Q' =>
        cases hc
        rw [← hend h1] at h2
        simp only [h2, if_true, List.tail_cons]
        congr 2
        congr 1
        simp only [METADATA_SIZE]
        omega
/-- The entries that are neither the last block of `P` nor the first block of
`Q` are kept by the merges, and the length changes by at most one. -/
theorem coalesce_rest (P : List Blk) (b : Blk) (Q : List Blk) :
    P.dropLast <+: coalesce P b Q ∧ Q.tail <:+ coalesce P b Q ∧
    ((coalesce P b Q).length = (P ++ Q).length + 1 ∨
      (coalesce P b Q).length = (P ++ Q).length ∨
      (coalesce P b Q).length + 1 = (P ++ Q).length) := by
  obtain ⟨s1, s2, s3, s4⟩ := coalesce_shape P b Q
  have hpre : ∀ (m : Blk) (R : List Blk), P.dropLast <+: P.dropLast ++ m :: R :=
    fun m R => List.prefix_append _ _
  have hpre' : ∀ (R : List Blk), P.dropLast <+: P ++ R :=
    fun R => (List.dropLast_prefix P).trans (List.prefix_append _ _)
  have hsuf : ∀ (R : List Blk) (m : Blk), Q.tail <:+ R ++ m :: Q.tail :=
    fun R m => (List.suffix_cons m Q.tail).trans (List.suffix_append _ _)
  have hsuf' : ∀ (R : List Blk) (m : Blk), Q.tail <:+ R ++ m :: Q :=
    fun R m => (List.tail_suffix Q).trans ((List.suffix_cons m Q).trans (List.suffix_append _ _))
  have hlast : ∀ p ∈ P.getLast?, P.dropLast.length + 1 = P.length := by
    intro p hp
    rw [List.length_dropLast]
    cases P with
    | nil => cases hp
    | cons x P' => simp
  have hhead : ∀ c ∈ Q.head?, Q.tail.length + 1 = Q.length := by
    intro c hc
    cases Q with
    | nil => cases hc
    | cons x Q' => simp
  by_cases hl : ∀ p ∈ P.getLast?, endOf p ≠ b.1
  · by_cases hr : ∀ c ∈ Q.head?, endOf b ≠ c.1
    · rw [s1 hl hr]
      refine ⟨hpre' _, hsuf' _ _, Or.inl ?_⟩
      simp only [List.length_append, List.length_cons]; omega
    · push_neg at hr
      obtain ⟨c, hc, hcb⟩ := hr
      rw [s3 hl c hc hcb]
      refine ⟨hpre' _, hsuf _ _, Or.inr (Or.inl ?_)⟩
      have := hhead c hc
      simp only [List.length_append, List.length_cons]; omega
  · push_neg at hl
    obtain ⟨p, hp, hpb⟩ := hl
    by_cases hr : ∀ c ∈ Q.head?, endOf b ≠ c.1
    · rw [s2 p hp hpb hr]
      refine ⟨hpre _ _, hsuf' _ _, Or.inr (Or.inl ?_)⟩
      have := hlast p hp
      simp only [List.length_append, List.length_cons]; omega
    · push_neg at hr
      obtain ⟨c, hc, hcb⟩ := hr
      rw [s4 p hp hpb c hc hcb]
      refine ⟨hpre _ _, hsuf _ _, Or.inr (Or.inr ?_)⟩
      have h1 := hlast p hp
      have h2 := hhead c hc
      simp only [List.length_append, List.length_cons]; omega

/-- A release on a chain, with the list of blocks it leaves written with the
blocks below and above the released block. -/
theorem freeFrom_coalesce {s : State} {hd : Loc} {xs : List Nat} {b fuel : Nat}
    (c : Chained s hd xs) (hb : b ∉ xs) (hb0 : b ≠ NULL)
    (hbh : b + METADATA_SIZE + (s.mem b).size ≤ s.brk) (hf : xs.length < fuel) :
    ∃ s' xs', freeFrom hd fuel (b + METADATA_SIZE) s = some s' ∧ Chained s' hd xs' ∧
      blocksOf s' xs' = coalesce (blocksOf s (xs.take (insIdx b xs))) (b, (s.mem b).size)
        (blocksOf s (xs.drop (insIdx b xs))) ∧
      (∀ a, a ∉ xs → a ≠ b → (s'.mem a).size = (s.mem a).size) ∧
      (∀ l, (∀ x ∈ xs, l ≠ Loc.next x) → l ≠ Loc.next b → l ≠ hd → s'.load l = s.load l) ∧
      SameHeap s s' := by
  obtain ⟨s', xs', f1, f2, f3, f4, f5, f6⟩ := freeFrom_spec c hb hb0 hbh hf
  refine ⟨s', xs', f1, f2, ?_, f4, f5, f6⟩
  rw [f3, freeA_eq_coalesce]
  simp only [blocksOf_map_fst, blocksOf_take, blocksOf_drop]

/-! ## What a release leaves untouched -/

/-- A release on the list rooted at `hd` leaves an entry that covers the released
block, and leaves unchanged every list with another root that shares no header
with the list and does not hold the released block. -/
theorem freeFrom_frame {s : State} {hd : Loc} {xs : List Nat} {b fuel : Nat}
    (c : Chained s hd xs) (hb : b ∉ xs) (hb0 : b ≠ NULL)
    (hbh : b + METADATA_SIZE + (s.mem b).size ≤ s.brk) (hf : xs.length < fuel) :
    ∃ s' xs', freeFrom hd fuel (b + METADATA_SIZE) s = some s' ∧ FreeList s' hd xs' ∧
      (∃ x ∈ blocksOf s' xs', x.1 ≤ b ∧ b + METADATA_SIZE + (s.mem b).size ≤ endOf x) ∧
      (∀ hd' ys, hd' ≠ hd → (∀ a, hd' ≠ Loc.next a) → FreeList s hd' ys →
        (∀ a ∈ ys, a ∉ xs ∧ a ≠ b) →
        FreeList s' hd' ys ∧ blocksOf s' ys = blocksOf s ys) ∧
      (∀ l, (∀ a, l ≠ Loc.next a) → l ≠ hd → s'.load l = s.load l) := by
  obtain ⟨s', xs', f1, f2, f3, f4, f5, _⟩ := freeFrom_spec c hb hb0 hbh hf
  refine ⟨s', xs', f1, f2.chain, ?_, ?_, ?_⟩
  · obtain ⟨x, hx, h1, h2, _⟩ := freeA_covers (b, (s.mem b).size) (blocksOf s xs)
    exact ⟨x, by rw [f3]; exact hx, h1, h2⟩
  · intro hd' ys hne hroot hfl hys
    constructor
    · unfold FreeList
      rw [f5 hd' (fun x _ => hroot x) (hroot b) hne]
      refine Seg.congr ?_ hfl
      intro y hy
      refine f5 _ ?_ ?_ ?_
      · intro x hx h
        injection h with h
        exact (hys y hy).1 (h ▸ hx)
      · intro h
        injection h with h
        exact (hys y hy).2 h
      · exact fun h => c.root y h.symm
    · exact blocksOf_congr (fun a ha => f4 a (hys a ha).1 (hys a ha).2)
  · intro l hl hne
    exact f5 l (fun x _ => hl x) (hl b) hne

/-! ## An allocation by one thread seen from the list of another -/

theorem popA_mid_disjoint {P Q : List Blk} {e : Blk} {n : Nat}
    (h : SortedDisj (P ++ e :: Q)) :
    ∀ x ∈ (popA n P.length (P ++ e :: Q)).2,
      DisjointBlk x (popA n P.length (P ++ e :: Q)).1 := by
  obtain ⟨_, _, s3, s4, _⟩ := sortedDisj_mid.1 h
  rw [popA_eq]
  by_cases hgt : e.2 > n + METADATA_SIZE
  · rw [if_pos hgt]
    intro x hx
    rcases List.mem_append.1 hx with hx | hx
    · exact Or.inl (s3 x hx)
    · rcases List.mem_cons.1 hx with rfl | hx
      · exact Or.inr (le_refl _)
      · right
        have := s4 x hx
        simp only [endOf, METADATA_SIZE] at *
        omega
  · rw [if_neg hgt]
    intro x hx
    rcases List.mem_append.1 hx with hx | hx
    · exact Or.inl (s3 x hx)
    · exact Or.inr (s4 x hx)

theorem popA_disjoint {L : List Blk} {n i : Nat} (hi : i < L.length)
    (h : SortedDisj L) : ∀ x ∈ (popA n i L).2, DisjointBlk x (popA n i L).1 := by
  obtain ⟨hL, hlen⟩ := list_split_at L hi
  have := @popA_mid_disjoint (L.take i) (L.drop (i + 1)) L[i] n (by rw [← hL]; exact h)
  rw [hlen, ← hL] at this
  exact this

theorem disjointBlk_ne {a b x y : Nat} (h : DisjointBlk (a, x) (b, y)) : a ≠ b := by
  intro hab
  simp only [DisjointBlk, endOf, METADATA_SIZE] at h
  omega

/-- An allocation on the list rooted at `hdA` leaves the list rooted at `hdB`
as it is, and returns a block that is on neither list and disjoint from the
entries left on the list rooted at `hdA`. -/
theorem mallocFrom_other_list {s : State} {hdA hdB : Loc} {xsA xsB : List Nat}
    {n fuel : Nat} (wA : WF s hdA xsA) (cB : Chained s hdB xsB) (hAB : hdA ≠ hdB)
    (hn : n ≠ 0) (hf : xsA.length < fuel)
    (hcross : ∀ a ∈ xsA, ∀ c ∈ xsB,
      DisjointBlk (a, (s.mem a).size) (c, (s.mem c).size))
    (hos : bestFit n (sizesOf s xsA) = none → OsGrants n s ∧ s.brk ≠ NULL) :
    ∃ r b xsA', mallocFrom hdA fuel n s = some r ∧ r.1 = b + METADATA_SIZE ∧
      WF r.2 hdA xsA' ∧ Chained r.2 hdB xsB ∧ blocksOf r.2 xsB = blocksOf s xsB ∧
      b ∉ xsB ∧ b ∉ xsA' ∧ b ≠ NULL ∧
      b + METADATA_SIZE + (r.2.mem b).size ≤ r.2.brk ∧ n ≤ (r.2.mem b).size ∧
      (∀ a ∈ xsA', a ∉ xsB ∧ DisjointBlk (a, (r.2.mem a).size) (b, (r.2.mem b).size)) := by
  have hneAB : ∀ a ∈ xsA, ∀ c ∈ xsB, c ≠ a := fun a ha c hc h =>
    disjointBlk_ne (hcross a ha c hc) h.symm
  cases hbf : bestFit n (sizesOf s xsA) with
  | none =>
    obtain ⟨hg, hb0⟩ := hos hbf
    obtain ⟨hno, hgl⟩ := hg.bounds
    obtain ⟨w1, m1, m2, m3, m4, m5, _, _, _⟩ := wA.miss hg
    obtain ⟨_, h2, h3, _⟩ := reqSysBlk_spec hno hgl wA.limit_lt
    have hcB : ∀ c ∈ xsB, c ≠ s.brk := fun c hc h => by
      have := cB.inHeap c hc
      simp only [METADATA_SIZE] at this; omega
    have hbB : blocksOf (reqSysBlk n s).2 xsB = blocksOf s xsB :=
      blocksOf_congr (fun c hc => by rw [h2, if_neg (hcB c hc)])
    have hchB : FreeList (reqSysBlk n s).2 hdB xsB := by
      unfold FreeList
      rw [h3 hdB, if_neg (cB.root _)]
      refine Seg.congr ?_ cB.chain
      intro x hx
      rw [h3, if_neg]
      intro hh
      injection hh with hh
      exact hcB x hx hh
    refine ⟨reqSysBlk n s, s.brk, xsA, ?_, m1, w1, ⟨cB.root, hchB, cB.nodup, ?_, w1.brk_lt⟩, hbB,
      fun h => hcB _ h rfl, m4, hb0, ?_, by rw [m3], ?_⟩
    · rw [mallocFrom_eq wA.chain hf hn, hbf]
    · intro c hc
      rw [h2, if_neg (hcB c hc), m5]
      have := cB.inHeap c hc
      omega
    · rw [m3, m5]; omega
    · intro a ha
      have hne : a ≠ s.brk := fun h => m4 (h ▸ ha)
      refine ⟨fun h => hneAB a ha a h rfl, Or.inl ?_⟩
      show a + METADATA_SIZE + ((reqSysBlk n s).2.mem a).size ≤ s.brk
      rw [h2, if_neg hne]
      exact wA.inHeap a ha
  | some i =>
    obtain ⟨hi, hge⟩ := bestFit_sizesOf hbf
    obtain ⟨xs1, p1, w1, p3, p4, p5, p6, p8⟩ := wA.pop hi hge
    obtain ⟨xs2, _, q2, _, _, q5, q6, q7, _⟩ := popFreeBlk_popA wA hi hge
    have hxs : xs2 = xs1 := q2.unique w1.chain
    subst hxs
    have hmem : xsA[i] ∈ xsA := List.getElem_mem _
    have hremB : ∀ c ∈ xsB, n + METADATA_SIZE < (s.mem xsA[i]).size →
        c ≠ xsA[i] + METADATA_SIZE + n := by
      intro c hc hgt h
      have := hcross _ hmem c hc
      rw [h] at this
      simp only [DisjointBlk, endOf, METADATA_SIZE] at this hgt
      omega
    have hszB : ∀ c ∈ xsB, ((popFreeBlk (locAt hdA xsA i) n s).2.mem c).size =
        (s.mem c).size := fun c hc =>
      q5 c (fun h => hneAB c h c hc rfl) (hremB c hc)
    have hlocB : ∀ c ∈ xsB, Loc.next c ≠ locAt hdA xsA i := by
      intro c hc h
      cases i with
      | zero => exact wA.root c h.symm
      | succ k =>
        have hk : k < xsA.length := by omega
        rw [locAt_succ hk] at h
        injection h with h
        exact hneAB _ (List.getElem_mem _) c hc h
    have hldB : ∀ c ∈ xsB, (popFreeBlk (locAt hdA xsA i) n s).2.load (Loc.next c) =
        s.load (Loc.next c) := by
      intro c hc
      by_cases hgt : n + METADATA_SIZE < (s.mem xsA[i]).size
      · refine q7 _ (hlocB c hc) ?_
        intro h
        injection h with h
        exact hremB c hc hgt h
      · obtain ⟨_, _, _, h4, _⟩ := popFreeBlk_nosplit_spec wA hi hge (Nat.le_of_not_lt hgt)
        exact h4 _ (hlocB c hc)
    have hhdB : (popFreeBlk (locAt hdA xsA i) n s).2.load hdB = s.load hdB := by
      have hne : hdB ≠ locAt hdA xsA i := by
        intro h
        cases i with
        | zero => exact hAB h.symm
        | succ k =>
          have hk : k < xsA.length := by omega
          rw [locAt_succ hk] at h
          exact cB.root _ h
      by_cases hgt : n + METADATA_SIZE < (s.mem xsA[i]).size
      · exact q7 _ hne (cB.root _)
      · obtain ⟨_, _, _, h4, _⟩ := popFreeBlk_nosplit_spec wA hi hge (Nat.le_of_not_lt hgt)
        exact h4 _ hne
    have hchB : FreeList (popFreeBlk (locAt hdA xsA i) n s).2 hdB xsB := by
      unfold FreeList
      rw [hhdB]
      exact Seg.congr hldB cB.chain
    have hiL : i < (blocksOf s xsA).length := by rw [blocksOf_length]; exact hi
    have hLi := blocksOf_getElem s xsA hi hiL
    have hgeL : n ≤ ((blocksOf s xsA)[i]).2 := by rw [hLi]; exact hge
    have hdj := @popA_disjoint _ n i hiL wA.blocks_sortedDisj
    obtain ⟨_, _, _, _, _, a6, _⟩ := popA_at hiL hgeL wA.blocks_sortedDisj
    refine ⟨popFreeBlk (locAt hdA xsA i) n s, xsA[i], xs2, ?_, p1, w1,
      ⟨cB.root, hchB, cB.nodup, ?_, w1.brk_lt⟩, blocksOf_congr hszB,
      fun h => hneAB _ hmem _ h rfl, p5, wA.chain.entry_ne_null _ hmem, p6, ?_, ?_⟩
    · rw [mallocFrom_eq wA.chain hf hn, hbf]
    · intro c hc
      rw [hszB c hc, p8.1]
      exact cB.inHeap c hc
    · rw [← p4] at a6
      exact a6
    · intro a ha
      constructor
      · intro haB
        rcases q6 a ha with h | h
        · exact hneAB a h a haB rfl
        · by_cases hgt : n + METADATA_SIZE < (s.mem xsA[i]).size
          · exact hremB a haB hgt h
          · -- without a split the new list is part of the old one
            obtain ⟨_, h2, _⟩ := popFreeBlk_nosplit_spec wA hi hge (Nat.le_of_not_lt hgt)
            have hx := w1.chain.unique h2
            rw [hx] at ha
            rcases List.mem_append.1 ha with ha | ha
            · exact hneAB a (List.mem_of_mem_take ha) a haB rfl
            · exact hneAB a (List.mem_of_mem_drop ha) a haB rfl
      · have hm : (a, ((popFreeBlk (locAt hdA xsA i) n s).2.mem a).size) ∈
            (popA n i (blocksOf s xsA)).2 := by
          rw [← p3]; exact mem_blocksOf.2 ⟨a, ha, rfl⟩
        have := hdj _ hm
        rw [← p4] at this
        exact this

/-! # The claims -/

/-- C1 (the code at the failing input): `allocate (2 ^ 64 - 8)` then `allocate 8`
on a fresh heap at 4096, by `ts_malloc_lock`.  Both heap extensions are answered
with fresh space contiguous with the prior heap end (`sbrk` is called with 8 and
with 24), yet the two allocated blocks, `(4104, 8)` and `(4096, 2 ^ 64 - 8)`,
overlap: the header of the second lies inside the first. -/
theorem C1_wrapped_request_overlaps :
    OsFresh (2 ^ 64 - 8) (initState 4096 65536) ∧
    ReachLock OsFresh
      (runFrom okFresh 2 4096 65536 [Op.malloc (2 ^ 64 - 8), Op.malloc 8]).1
      (runFrom okFresh 2 4096 65536 [Op.malloc (2 ^ 64 - 8), Op.malloc 8]).2 ∧
    (runFrom okFresh 2 4096 65536 [Op.malloc (2 ^ 64 - 8), Op.malloc 8]).2 = [4120, 4112] ∧
    allocBlocks (runFrom okFresh 2 4096 65536 [Op.malloc (2 ^ 64 - 8), Op.malloc 8]).1
      (runFrom okFresh 2 4096 65536 [Op.malloc (2 ^ 64 - 8), Op.malloc 8]).2 =
        [(4104, 8), (4096, 2 ^ 64 - 8)] ∧
    ¬ DisjointBlk (4104, 8) (4096, 2 ^ 64 - 8) ∧
    ¬ AllDisjoint Loc.head
      (runFrom okFresh 2 4096 65536 [Op.malloc (2 ^ 64 - 8), Op.malloc 8]).1
      (runFrom okFresh 2 4096 65536 [Op.malloc (2 ^ 64 - 8), Op.malloc 8]).2 := by
  refine ⟨by decide, runFrom_reach okFresh_sound (by decide) (by decide) (by decide)
    (by decide), by decide, by decide, by decide, ?_⟩
  rintro ⟨xs, _, hp⟩
  exact absurd (List.pairwise_append.1 hp).2.1 (by decide)

/-- C2 (the code at the failing input): `ts_malloc_lock (2 ^ 64 - 8)` on a fresh
heap at 4096.  The state is well formed, no free entry exists and `sbrk`, called
with `(16 + n) mod 2 ^ 64 = 8`, succeeds.  The call returns 4112 and the header
at 4096 records `2 ^ 64 - 8` bytes, but the break is 4104: the returned pointer
already lies beyond the heap, so the returned region does not hold `n` bytes
that belong to the block. -/
theorem C2_region_beyond_break :
    WF (initState 4096 65536) Loc.head [] ∧
    (sbrk ((METADATA_SIZE + (2 ^ 64 - 8)) % WORD) (initState 4096 65536)).1 ≠ SBRK_FAILED ∧
    ∃ r, ts_malloc_lock 2 (2 ^ 64 - 8) (initState 4096 65536) = some r ∧
      r.1 = 4112 ∧ hdrOf r.1 = 4096 ∧ (r.2.mem (hdrOf r.1)).size = 2 ^ 64 - 8 ∧
      r.2.brk = 4104 ∧ r.2.brk < r.1 ∧ ¬ (r.1 + (2 ^ 64 - 8) ≤ r.2.brk) :=
  ⟨⟨head_root, by decide, by decide, by decide, by decide, by decide⟩, by decide, _,
    option_eq_some_getD (0, initState 0 0) (by decide), by decide, by decide, by decide,
    by decide, by decide, by decide⟩

/-- C3 (the code at the failing input): the run `allocate (2 ^ 64 - 8);
allocate 8; allocate 8; free` of the first pointer; `free` of the third
pointer on a fresh heap at 4096 respects the precondition of free and every
extension is answered with fresh space; it leaves the strictly increasing free
list `[4096, 4128]`, whose first entry records `2 ^ 64 - 8` bytes.
`ts_malloc_lock 100` then splits the entry at 4096 and puts the remainder at
`4096 + 16 + 100 = 4212`, past the entry at 4128: the free list is
`[4212, 4128]`, not increasing by address. -/
theorem C3_split_breaks_order :
    ReachLock OsFresh wrapState.1 wrapState.2 ∧
    FreeList wrapState.1 Loc.head [4096, 4128] ∧ [4096, 4128].Pairwise (· < ·) ∧
    (wrapState.1.mem 4096).size = 2 ^ 64 - 8 ∧
    (ts_malloc_lock 4 100 wrapState.1).isSome = true ∧
    FreeList ((ts_malloc_lock 4 100 wrapState.1).getD (0, wrapState.1)).2 Loc.head
      [4212, 4128] ∧
    ¬ FreeListSorted Loc.head ((ts_malloc_lock 4 100 wrapState.1).getD (0, wrapState.1)).2 := by
  have hl : FreeList ((ts_malloc_lock 4 100 wrapState.1).getD (0, wrapState.1)).2 Loc.head
      [4212, 4128] := by decide
  refine ⟨wrapState_reach, by decide, by decide, by decide, by decide, hl, ?_⟩
  rintro ⟨xs, hfl, hs⟩
  rw [hfl.unique hl] at hs
  exact absurd hs (by decide)

/-- C4 (the code at the failing input): a run of `ts_malloc_lock` and
`ts_free_lock` on a fresh heap at 4096 in which two requests of `2 ^ 64 - 8`
bytes wrap the byte count passed to `sbrk`.  Every extension is answered with
fresh space and every free respects its precondition, yet after the last
`free(4208)` returns the free list is `[4096, 4160]`, and the entry at 4096
records 48 bytes: `4096 + 16 + 48 = 4160`, two consecutive entries are
address-adjacent. -/
theorem C4_adjacent_after_free :
    ReachLock OsFresh
      (runFrom okFresh 4 4096 65536
        [Op.malloc (2 ^ 64 - 8), Op.malloc (2 ^ 64 - 8), Op.free 4112, Op.malloc 48,
          Op.malloc 16, Op.malloc (2 ^ 64 - 104), Op.malloc 16, Op.free 4112, Op.free 4128,
          Op.free 4176, Op.malloc 16]).1
      (runFrom okFresh 4 4096 65536
        [Op.malloc (2 ^ 64 - 8), Op.malloc (2 ^ 64 - 8), Op.free 4112, Op.malloc 48,
          Op.malloc 16, Op.malloc (2 ^ 64 - 104), Op.malloc 16, Op.free 4112, Op.free 4128,
          Op.free 4176, Op.malloc 16]).2 ∧
    4208 ∈ (runFrom okFresh 4 4096 65536
        [Op.malloc (2 ^ 64 - 8), Op.malloc (2 ^ 64 - 8), Op.free 4112, Op.malloc 48,
          Op.malloc 16, Op.malloc (2 ^ 64 - 104), Op.malloc 16, Op.free 4112, Op.free 4128,
          Op.free 4176, Op.malloc 16]).2 ∧
    (ts_free_lock 4 4208 (runFrom okFresh 4 4096 65536
        [Op.malloc (2 ^ 64 - 8), Op.malloc (2 ^ 64 - 8), Op.free 4112, Op.malloc 48,
          Op.malloc 16, Op.malloc (2 ^ 64 - 104), Op.malloc 16, Op.free 4112, Op.free 4128,
          Op.free 4176, Op.malloc 16]).1).isSome = true ∧
    ¬ FreeListNoAdjacent Loc.head
      ((ts_free_lock 4 4208 (runFrom okFresh 4 4096 65536
        [Op.malloc (2 ^ 64 - 8), Op.malloc (2 ^ 64 - 8), Op.free 4112, Op.malloc 48,
          Op.malloc 16, Op.malloc (2 ^ 64 - 104), Op.malloc 16, Op.free 4112, Op.free 4128,
          Op.free 4176, Op.malloc 16]).1).getD (initState 0 0)) := by
  refine ⟨runFrom_reach okFresh_sound (by decide) (by decide) (by decide) (by decide),
    by decide, by decide, ?_⟩
  rintro ⟨xs, hfl, hna⟩
  have hys : FreeList ((ts_free_lock 4 4208 (runFrom okFresh 4 4096 65536
        [Op.malloc (2 ^ 64 - 8), Op.malloc (2 ^ 64 - 8), Op.free 4112, Op.malloc 48,
          Op.malloc 16, Op.malloc (2 ^ 64 - 104), Op.malloc 16, Op.free 4112, Op.free 4128,
          Op.free 4176, Op.malloc 16]).1).getD (initState 0 0)) Loc.head [4096, 4160] := by
    decide
  rw [hfl.unique hys] at hna
  exact (List.chain'_pair.1 hna) (by decide)

/-- C5 (the code at the failing input): after `ts_malloc_lock (2 ^ 64 - 8)` on a
fresh heap at 4096, whose heap extension is answered with fresh space, the only
block is the allocated block at 4096; it records `2 ^ 64 - 8` bytes, so the sum
of `H + size` over all blocks is `2 ^ 64 + 8`, while `entire_heap_size` is 8. -/
theorem C5_counter_mismatch :
    ReachLock OsFresh (runFrom okFresh 2 4096 65536 [Op.malloc (2 ^ 64 - 8)]).1
      (runFrom okFresh 2 4096 65536 [Op.malloc (2 ^ 64 - 8)]).2 ∧
    FreeList (runFrom okFresh 2 4096 65536 [Op.malloc (2 ^ 64 - 8)]).1 Loc.head [] ∧
    allocBlocks (runFrom okFresh 2 4096 65536 [Op.malloc (2 ^ 64 - 8)]).1
      (runFrom okFresh 2 4096 65536 [Op.malloc (2 ^ 64 - 8)]).2 = [(4096, 2 ^ 64 - 8)] ∧
    totalBytes (allocBlocks (runFrom okFresh 2 4096 65536 [Op.malloc (2 ^ 64 - 8)]).1
      (runFrom okFresh 2 4096 65536 [Op.malloc (2 ^ 64 - 8)]).2) = 2 ^ 64 + 8 ∧
    (runFrom okFresh 2 4096 65536 [Op.malloc (2 ^ 64 - 8)]).1.entire_heap_size = 8 ∧
    ¬ BytesAccounted Loc.head (runFrom okFresh 2 4096 65536 [Op.malloc (2 ^ 64 - 8)]).1
      (runFrom okFresh 2 4096 65536 [Op.malloc (2 ^ 64 - 8)]).2 := by
  have hys : FreeList (runFrom okFresh 2 4096 65536 [Op.malloc (2 ^ 64 - 8)]).1 Loc.head [] := by
    decide
  refine ⟨runFrom_reach okFresh_sound (by decide) (by decide) (by decide) (by decide), hys,
    by decide, by decide, by decide, ?_⟩
  rintro ⟨xs, hfl, ht⟩
  rw [hfl.unique hys] at ht
  exact absurd ht (by decide)

/-- C6 (the code at the failing input): on a fresh process whose break already
sits at the limit of the heap, no free block exists and `sbrk` fails for a
request of 100 bytes; `ts_malloc_lock 100` nevertheless returns the non-null
pointer `(void *) -1 + 16 = 15`, has written the size through `(void *) -1` and
has added `H + 100` to `entire_heap_size`. -/
theorem C6_sbrk_failure_unchecked :
    (sbrk ((METADATA_SIZE + 100) % WORD) (initState 4096 4096)).1 = SBRK_FAILED ∧
    (ts_malloc_lock 1 100 (initState 4096 4096)).map
      (fun r => (r.1, (r.2.mem SBRK_FAILED).size, r.2.entire_heap_size)) =
      some (15, 100, 116) ∧
    ((initState 4096 4096).mem SBRK_FAILED).size = 0 ∧
    (initState 4096 4096).entire_heap_size = 0 := by
  decide

/-- C7: for every state, both `ts_malloc_lock 0` and `ts_malloc_nolock 0` return
the null pointer and the unchanged state: free lists (global and per thread),
heap break and `entire_heap_size` are as before. -/
theorem C7_malloc_zero (s : State) (fuel tid : Nat) :
    ts_malloc_lock fuel 0 s = some (NULL, s) ∧
    ts_malloc_nolock tid fuel 0 s = some (NULL, s) :=
  ⟨rfl, rfl⟩

/-- C8 (amended): for every request size `n > 0` and every well-formed free list
without adjacent entries, where a heap extension, if one is needed, is granted
without wraparound at a break that is not the null address, the sequence
`p1 = allocate(n); free(p1); p2 = allocate(n)` returns, the second allocation
does not grow the heap (the byte counter and the break are unchanged by it),
and `p2 = p1` whenever some free entry has size at least `n` or no free entry
ends at the break. -/
theorem C8_allocate_free_allocate (s : State) (xs : List Nat) (n fuel : Nat)
    (hn : n ≠ 0) (hf : xs.length + 1 < fuel)
    (w : WF s Loc.head xs) (hsep : Separated (blocksOf s xs))
    (hos : (∀ a ∈ xs, (s.mem a).size < n) → OsGrants n s ∧ s.brk ≠ NULL) :
    ∃ r1 s2 r2, ts_malloc_lock fuel n s = some r1 ∧
      ts_free_lock fuel r1.1 r1.2 = some s2 ∧
      ts_malloc_lock fuel n s2 = some r2 ∧
      r2.2.entire_heap_size = s2.entire_heap_size ∧ r2.2.brk = s2.brk ∧
      (((∃ a ∈ xs, n ≤ (s.mem a).size) ∨
          ∀ a ∈ xs, a + METADATA_SIZE + (s.mem a).size ≠ s.brk) → r2.1 = r1.1) := by
  obtain ⟨r1, s2, r2, h1, h2, h3, h4, h5⟩ :=
    malloc_free_malloc w hsep hn hf (fun hbf => hos (bestFit_none_iff_sizes.1 hbf))
  refine ⟨r1, s2, r2, h1, h2, h3, h4.2.2.2, h4.1, fun hc => h5 (fun hbf x hx => ?_)⟩
  obtain ⟨a, ha, rfl⟩ := mem_blocksOf.1 hx
  rcases hc with ⟨a', ha', hge⟩ | hc
  · have := bestFit_none_iff_sizes.1 hbf a' ha'
    omega
  · exact hc a ha

/-- Witness for C8 with `n = 100`: on `demoState` the free list is `[4096]` with
64 bytes, so the first allocation extends the heap at the break 4320. -/
theorem C8_witness :
    ∃ r1 s2 r2, ts_malloc_lock 4 100 demoState = some r1 ∧
      ts_free_lock 4 r1.1 r1.2 = some s2 ∧
      ts_malloc_lock 4 100 s2 = some r2 ∧
      r2.2.entire_heap_size = s2.entire_heap_size ∧ r2.2.brk = s2.brk ∧
      (((∃ a ∈ [4096], 100 ≤ (demoState.mem a).size) ∨
          ∀ a ∈ [4096], a + METADATA_SIZE + (demoState.mem a).size ≠ demoState.brk) →
        r2.1 = r1.1) :=
  C8_allocate_free_allocate demoState [4096] 100 4 (by decide) (by decide) demoState_wf
    (by decide) (fun _ => ⟨by decide, by decide⟩)

/-- Counterexample to C8 as stated, with `n = 100`: the free list of `edgeState`
is well formed and has no adjacent entries, and its only entry, of 10 bytes,
ends at the break.  The first allocation extends the heap and returns 4138; the
release merges the block into the entry at 4096; the second allocation splits
that entry and returns 4112. -/
theorem C8_counterexample :
    WF edgeState Loc.head [4096] ∧ Separated (blocksOf edgeState [4096]) ∧
    OsGrants 100 edgeState ∧
    ∃ r1 s2 r2, ts_malloc_lock 4 100 edgeState = some r1 ∧
      ts_free_lock 4 r1.1 r1.2 = some s2 ∧
      ts_malloc_lock 4 100 s2 = some r2 ∧ r1.1 = 4138 ∧ r2.1 = 4112 :=
  ⟨edgeState_wf, by decide, by decide, _, _, _,
    option_eq_some_getD (0, edgeState) (by decide),
    option_eq_some_getD edgeState (by decide),
    option_eq_some_getD (0, edgeState) (by decide), by decide, by decide⟩

/-- C9 (amended): for every well-formed free list and every `n > 0`, where a heap
extension, if one is needed, is granted without wraparound at a break that is
not the null address, `p = allocate(n)` immediately followed by `free(p)`
returns and leaves the total capacity of the free list equal to its value
before the allocation when some free entry has size at least `n`; when every
entry is smaller than `n` the capacity grows by `H + n`. -/
theorem C9_allocate_free_capacity (s : State) (xs : List Nat) (n fuel : Nat)
    (hn : n ≠ 0) (hf : xs.length < fuel) (w : WF s Loc.head xs)
    (hos : (∀ a ∈ xs, (s.mem a).size < n) → OsGrants n s ∧ s.brk ≠ NULL) :
    ∃ r s' xs', ts_malloc_lock fuel n s = some r ∧ ts_free_lock fuel r.1 r.2 = some s' ∧
      FreeList s' Loc.head xs' ∧
      ((∃ a ∈ xs, n ≤ (s.mem a).size) →
        totalBytes (blocksOf s' xs') = totalBytes (blocksOf s xs)) ∧
      ((∀ a ∈ xs, (s.mem a).size < n) →
        totalBytes (blocksOf s' xs') = totalBytes (blocksOf s xs) + (METADATA_SIZE + n)) :=
  malloc_free_capacity w hn hf hos

/-- Witness for C9: a request of 32 bytes on `demoState`, served by the free
block of 64 bytes. -/
theorem C9_witness :
    ∃ r s' xs', ts_malloc_lock 4 32 demoState = some r ∧
      ts_free_lock 4 r.1 r.2 = some s' ∧ FreeList s' Loc.head xs' ∧
      ((∃ a ∈ [4096], 32 ≤ (demoState.mem a).size) →
        totalBytes (blocksOf s' xs') = totalBytes (blocksOf demoState [4096])) ∧
      ((∀ a ∈ [4096], (demoState.mem a).size < 32) →
        totalBytes (blocksOf s' xs') =
          totalBytes (blocksOf demoState [4096]) + (METADATA_SIZE + 32)) :=
  C9_allocate_free_capacity demoState [4096] 32 4 (by decide) (by decide) demoState_wf
    (fun h => absurd h (by decide))

/-- Counterexample to C9 as stated: on a fresh heap the free list is empty, of
capacity 0; after `allocate 100` and the release of its pointer the free list
is `[4096]`, of capacity `16 + 100`. -/
theorem C9_counterexample :
    WF (initState 4096 65536) Loc.head [] ∧ OsGrants 100 (initState 4096 65536) ∧
    totalBytes (blocksOf (initState 4096 65536) []) = 0 ∧
    ∃ r s', ts_malloc_lock 2 100 (initState 4096 65536) = some r ∧
      ts_free_lock 2 r.1 r.2 = some s' ∧ FreeList s' Loc.head [4096] ∧
      totalBytes (blocksOf s' [4096]) = 116 :=
  ⟨⟨head_root, by decide, by decide, by decide, by decide, by decide⟩, by decide, by decide,
    _, _, option_eq_some_getD (0, initState 0 0) (by decide),
    option_eq_some_getD (initState 0 0) (by decide), by decide, by decide⟩

/-- C10: on a fresh heap (empty free list, counter 0) that starts at any
non-null address and may grow by 224 bytes, with `H = 16`, the run
`p1 = allocate(64); p2 = allocate(128); free(p1); p3 = allocate(32)` returns
`p3 = p1`; the block at `p1` then records size 32, the free list consists of
exactly one block, at header address `p1 + 32`, of size `32 - H = 16`, and
`entire_heap_size` is `(H + 64) + (H + 128)` before and after the third
allocation. -/
theorem C10_split_scenario (start limit fuel : Nat)
    (h0 : 0 < start) (hl : start + 224 ≤ limit) (hw : limit < WORD) (hf : 1 < fuel) :
    ∃ r1 r2 s3 r3,
      ts_malloc_lock fuel 64 (initState start limit) = some r1 ∧
      ts_malloc_lock fuel 128 r1.2 = some r2 ∧
      ts_free_lock fuel r1.1 r2.2 = some s3 ∧
      ts_malloc_lock fuel 32 s3 = some r3 ∧
      r3.1 = r1.1 ∧ (r3.2.mem (hdrOf r1.1)).size = 32 ∧
      FreeList r3.2 Loc.head [r1.1 + 32] ∧
      (r3.2.mem (r1.1 + 32)).size = 32 - METADATA_SIZE ∧
      s3.entire_heap_size = (METADATA_SIZE + 64) + (METADATA_SIZE + 128) ∧
      r3.2.entire_heap_size = s3.entire_heap_size := by
  obtain ⟨r1, r2, s3, r3, c1, c2, c3, c4, m1, _, e1, e2, e3, e4, e5, e6, _⟩ :=
    scenario_run Loc.head head_root start limit fuel h0 hl hw hf
  have hh : hdrOf r1.1 = start := by
    rw [m1]
    exact hdrOf_add (by simp only [METADATA_SIZE, WORD] at *; omega)
  have hr : r1.1 + 32 = start + 48 := by
    rw [m1]
  refine ⟨r1, r2, s3, r3, c1, c2, c3, c4, e1, ?_, ?_, ?_, e5, ?_⟩
  · rw [hh]; exact e2
  · rw [hr]; exact e3
  · rw [hr]; exact e4
  · rw [e6, e5]

/-- Witness for C10: the heap starts at 4096 and may grow up to 65536. -/
theorem C10_witness :
    ∃ r1 r2 s3 r3,
      ts_malloc_lock 2 64 (initState 4096 65536) = some r1 ∧
      ts_malloc_lock 2 128 r1.2 = some r2 ∧
      ts_free_lock 2 r1.1 r2.2 = some s3 ∧
      ts_malloc_lock 2 32 s3 = some r3 ∧
      r3.1 = r1.1 ∧ (r3.2.mem (hdrOf r1.1)).size = 32 ∧
      FreeList r3.2 Loc.head [r1.1 + 32] ∧
      (r3.2.mem (r1.1 + 32)).size = 32 - METADATA_SIZE ∧
      s3.entire_heap_size = (METADATA_SIZE + 64) + (METADATA_SIZE + 128) ∧
      r3.2.entire_heap_size = s3.entire_heap_size :=
  C10_split_scenario 4096 65536 2 (by decide) (by decide) (by decide) (by decide)

/-- C11: in the thread-local variant, with the free lists modelled as a map from
thread id to list head, `ts_free_nolock(p)` run by thread `tB` returns and
changes only the list of `tB`: the list of every other thread that shares no
header with the list of `tB` and does not hold the block of `p` is unchanged,
entry for entry, and so are the heads of the other threads and of the global
list; afterwards an entry of the list of `tB` covers the byte range of the
block.  So when thread `tA`, whose list is well formed and disjoint from that
of `tB`, allocates `p` (from its list, or by a granted heap extension) and
thread `tB` frees it, both calls return, the list of `tA` is after the free
what it was after the allocation, and the byte range of the block is covered
by an entry of the list of `tB` and by no entry of the list of `tA`. -/
theorem C11_free_nolock_frame (tA tB fuel : Nat) (hAB : tA ≠ tB) :
    (∀ (s : State) (xsB : List Nat) (b : Nat), Chained s (Loc.tls tB) xsB →
      b ∉ xsB → b ≠ NULL → b + METADATA_SIZE + (s.mem b).size ≤ s.brk →
      xsB.length < fuel →
      ∃ s' xsB', ts_free_nolock tB fuel (b + METADATA_SIZE) s = some s' ∧
        FreeList s' (Loc.tls tB) xsB' ∧
        (∃ x ∈ blocksOf s' xsB', x.1 ≤ b ∧ b + METADATA_SIZE + (s.mem b).size ≤ endOf x) ∧
        (∀ t ys, t ≠ tB → FreeList s (Loc.tls t) ys → (∀ a ∈ ys, a ∉ xsB ∧ a ≠ b) →
          FreeList s' (Loc.tls t) ys ∧ blocksOf s' ys = blocksOf s ys) ∧
        (∀ t, t ≠ tB → s'.tls_free_blk_list_head t = s.tls_free_blk_list_head t) ∧
        s'.free_blk_list_head = s.free_blk_list_head) ∧
    (∀ (s : State) (xsA xsB : List Nat) (n : Nat), n ≠ 0 →
      WF s (Loc.tls tA) xsA → Chained s (Loc.tls tB) xsB →
      xsA.length < fuel → xsB.length < fuel →
      (∀ a ∈ xsA, ∀ c ∈ xsB, DisjointBlk (a, (s.mem a).size) (c, (s.mem c).size)) →
      ((∀ a ∈ xsA, (s.mem a).size < n) → OsGrants n s ∧ s.brk ≠ NULL) →
      ∃ r s' xsA' xsB', ts_malloc_nolock tA fuel n s = some r ∧
        ts_free_nolock tB fuel r.1 r.2 = some s' ∧
        FreeList r.2 (Loc.tls tA) xsA' ∧ FreeList s' (Loc.tls tA) xsA' ∧
        blocksOf s' xsA' = blocksOf r.2 xsA' ∧
        FreeList s' (Loc.tls tB) xsB' ∧
        (∃ x ∈ blocksOf s' xsB', x.1 ≤ hdrOf r.1 ∧
          hdrOf r.1 + METADATA_SIZE + (r.2.mem (hdrOf r.1)).size ≤ endOf x) ∧
        (∀ x ∈ blocksOf s' xsA',
          DisjointBlk x (hdrOf r.1, (r.2.mem (hdrOf r.1)).size))) := by
  have hframe : ∀ (s : State) (xsB : List Nat) (b : Nat), Chained s (Loc.tls tB) xsB →
      b ∉ xsB → b ≠ NULL → b + METADATA_SIZE + (s.mem b).size ≤ s.brk →
      xsB.length < fuel →
      ∃ s' xsB', ts_free_nolock tB fuel (b + METADATA_SIZE) s = some s' ∧
        FreeList s' (Loc.tls tB) xsB' ∧
        (∃ x ∈ blocksOf s' xsB', x.1 ≤ b ∧ b + METADATA_SIZE + (s.mem b).size ≤ endOf x) ∧
        (∀ t ys, t ≠ tB → FreeList s (Loc.tls t) ys → (∀ a ∈ ys, a ∉ xsB ∧ a ≠ b) →
          FreeList s' (Loc.tls t) ys ∧ blocksOf s' ys = blocksOf s ys) ∧
        (∀ t, t ≠ tB → s'.tls_free_blk_list_head t = s.tls_free_blk_list_head t) ∧
        s'.free_blk_list_head = s.free_blk_list_head := by
    intro s xsB b cB hb hb0 hbh hf
    obtain ⟨s', xsB', f1, f2, f3, f4, f5⟩ := freeFrom_frame cB hb hb0 hbh hf
    refine ⟨s', xsB', f1, f2, f3, ?_, ?_, ?_⟩
    · intro t ys ht hfl hys
      exact f4 (Loc.tls t) ys (fun h => ht (by injection h)) (tls_root t) hfl hys
    · intro t ht
      exact f5 (Loc.tls t) (tls_root t) (fun h => ht (by injection h))
    · exact f5 Loc.head head_root (fun h => by cases h)
  refine ⟨hframe, ?_⟩
  intro s xsA xsB n hn wA cB hfA hfB hcross hos
  obtain ⟨r, b, xsA', m1, m2, w1, c1, _, m5, m6, m7, m8, _, m10⟩ :=
    mallocFrom_other_list wA cB (fun h => hAB (by injection h)) hn hfA hcross
      (fun hbf => hos (bestFit_none_iff_sizes.1 hbf))
  obtain ⟨s', xsB', f1, f2, f3, f4, _, _⟩ := hframe r.2 xsB b c1 m5 m7 m8 hfB
  have hh : hdrOf r.1 = b := by
    rw [m2]
    have := w1.brk_lt
    exact hdrOf_add (by omega)
  obtain ⟨a1, a2⟩ := f4 tA xsA' hAB w1.chain
    (fun a ha => ⟨(m10 a ha).1, fun h => m6 (h ▸ ha)⟩)
  refine ⟨r, s', xsA', xsB', m1, by rw [m2]; exact f1, w1.chain, a1, a2, f2,
    by rw [hh]; exact f3, ?_⟩
  intro x hx
  rw [hh]
  rw [a2] at hx
  obtain ⟨a, ha, rfl⟩ := mem_blocksOf.1 hx
  exact (m10 a ha).2

/-- Witness for C11: in `handoffState` thread 1 holds the list `[4096]`, with one
block of 64 bytes, and the list of thread 2 is empty; thread 1 allocates 32
bytes from its list and thread 2 frees the pointer. -/
theorem C11_witness :
    ∃ r s' xsA' xsB', ts_malloc_nolock 1 4 32 handoffState = some r ∧
      ts_free_nolock 2 4 r.1 r.2 = some s' ∧
      FreeList r.2 (Loc.tls 1) xsA' ∧ FreeList s' (Loc.tls 1) xsA' ∧
      blocksOf s' xsA' = blocksOf r.2 xsA' ∧
      FreeList s' (Loc.tls 2) xsB' ∧
      (∃ x ∈ blocksOf s' xsB', x.1 ≤ hdrOf r.1 ∧
        hdrOf r.1 + METADATA_SIZE + (r.2.mem (hdrOf r.1)).size ≤ endOf x) ∧
      (∀ x ∈ blocksOf s' xsA',
        DisjointBlk x (hdrOf r.1, (r.2.mem (hdrOf r.1)).size)) :=
  (C11_free_nolock_frame 1 2 4 (by decide)).2 handoffState [4096] [] 32 (by decide)
    ⟨tls_root 1, by decide, by decide, by decide, by decide, by decide⟩
    ⟨tls_root 2, by decide, by decide, by decide, by decide⟩
    (by decide) (by decide) (by decide) (fun h => absurd h (by decide))

/-- C13: for every address-sorted free list (its payload addresses `a + H` being
64-bit addresses) and `n > 0`, if some entry has size at least `n` then `allocate(n)` returns, it is served from the
best-fit entry `e` (the lowest-address entry among those of minimal size
subject to `size >= n`; when an exact-size entry exists `e` is the first exact
one), it returns the payload address `e + H`, and it changes neither the break
nor `entire_heap_size`: the heap grows only if no entry has size at least `n`.
Stated for `ts_malloc_lock` and `ts_malloc_nolock`. -/
theorem C13_best_fit_selection (s : State) (xs : List Nat) (n fuel tid : Nat)
    (hn : n ≠ 0) (hf : xs.length < fuel) (hbig : ∃ a ∈ xs, n ≤ (s.mem a).size)
    (hs : xs.Pairwise (· < ·)) (haddr : ∀ a ∈ xs, a + METADATA_SIZE < WORD) :
    (FreeList s Loc.head xs →
      ∃ r e, ts_malloc_lock fuel n s = some r ∧ IsBestFit s xs n e ∧
        (∀ a ∈ xs, (s.mem a).size = n → (s.mem e).size = n ∧ e ≤ a) ∧
        r.1 = e + METADATA_SIZE ∧ r.2.brk = s.brk ∧
        r.2.entire_heap_size = s.entire_heap_size) ∧
    (FreeList s (Loc.tls tid) xs →
      ∃ r e, ts_malloc_nolock tid fuel n s = some r ∧ IsBestFit s xs n e ∧
        (∀ a ∈ xs, (s.mem a).size = n → (s.mem e).size = n ∧ e ≤ a) ∧
        r.1 = e + METADATA_SIZE ∧ r.2.brk = s.brk ∧
        r.2.entire_heap_size = s.entire_heap_size) := by
  constructor
  · intro w
    obtain ⟨r, e, h1, h2, h3, h4, h5, h6, h7, h8, h9⟩ := mallocFrom_best_fit w hs haddr hn hf hbig
    exact ⟨r, e, h1, ⟨h2, h3, h4, h5⟩, h6, h7, h8, h9⟩
  · intro w
    obtain ⟨r, e, h1, h2, h3, h4, h5, h6, h7, h8, h9⟩ := mallocFrom_best_fit w hs haddr hn hf hbig
    exact ⟨r, e, h1, ⟨h2, h3, h4, h5⟩, h6, h7, h8, h9⟩

/-- Witness for C13: a request of 32 bytes on `demoState`, whose free list holds
one block of 64 bytes. -/
theorem C13_witness :
    ∃ r e, ts_malloc_lock 4 32 demoState = some r ∧ IsBestFit demoState [4096] 32 e ∧
      (∀ a ∈ [4096], (demoState.mem a).size = 32 → (demoState.mem e).size = 32 ∧ e ≤ a) ∧
      r.1 = e + METADATA_SIZE ∧ r.2.brk = demoState.brk ∧
      r.2.entire_heap_size = demoState.entire_heap_size :=
  (C13_best_fit_selection demoState [4096] 32 4 0 (by decide) (by decide)
    ⟨4096, by decide, by decide⟩ (by decide) (by decide)).1 demoState_wf.chain

/-- C14: split postcondition of `popFreeBlk`.  For every entry `e = xs[i]` of a
well-formed free list with `e.size > n + H`, located by the link
`locAt hd xs i`: after the pop the list holds, at the position of `e`, a
remainder block at address `e + H + n` of size `e.size - n - H`, at least 1,
whose `next` is the old successor of `e`; `e.size` is `n`; every other entry
keeps its size and, except for the link that held `e`, its `next`; and the
returned address is `e + H`. -/
theorem C14_split_postcondition (s : State) (hd : Loc) (xs : List Nat) (i n : Nat)
    (w : WF s hd xs) (hi : i < xs.length) (hgt : (s.mem xs[i]).size > n + METADATA_SIZE) :
    (popFreeBlk (locAt hd xs i) n s).1 = xs[i] + METADATA_SIZE ∧
    FreeList (popFreeBlk (locAt hd xs i) n s).2 hd
      (xs.take i ++ (xs[i] + METADATA_SIZE + n) :: xs.drop (i + 1)) ∧
    ((popFreeBlk (locAt hd xs i) n s).2.mem (xs[i] + METADATA_SIZE + n)).size =
      (s.mem xs[i]).size - n - METADATA_SIZE ∧
    1 ≤ ((popFreeBlk (locAt hd xs i) n s).2.mem (xs[i] + METADATA_SIZE + n)).size ∧
    ((popFreeBlk (locAt hd xs i) n s).2.mem (xs[i] + METADATA_SIZE + n)).next =
      (s.mem xs[i]).next ∧
    ((popFreeBlk (locAt hd xs i) n s).2.mem xs[i]).size = n ∧
    (∀ a ∈ xs, a ≠ xs[i] →
      ((popFreeBlk (locAt hd xs i) n s).2.mem a).size = (s.mem a).size) ∧
    (∀ a ∈ xs, Loc.next a ≠ locAt hd xs i →
      ((popFreeBlk (locAt hd xs i) n s).2.mem a).next = (s.mem a).next) := by
  obtain ⟨h1, h2, h3, _, _⟩ := popFreeBlk_split_spec w hi hgt
  obtain ⟨hp, hl⟩ := popFreeBlk_split_links w hi hgt
  have hrem := w.rem_not_mem hi hgt
  have hne : xs[i] + METADATA_SIZE + n ≠ xs[i] := by simp only [METADATA_SIZE]; omega
  have hsz : ((popFreeBlk (locAt hd xs i) n s).2.mem (xs[i] + METADATA_SIZE + n)).size =
      (s.mem xs[i]).size - n - METADATA_SIZE := by
    rw [h3, if_neg hne, if_pos rfl]
    omega
  refine ⟨h1, h2, hsz, ?_, ?_, ?_, ?_, ?_⟩
  · rw [hsz]; omega
  · have := hl (Loc.next (xs[i] + METADATA_SIZE + n))
    rw [if_neg (fun h => hp h.symm), if_pos rfl] at this
    exact this
  · rw [h3, if_pos rfl]
  · intro a ha hae
    rw [h3, if_neg hae, if_neg (fun h : a = xs[i] + METADATA_SIZE + n => hrem (h ▸ ha))]
  · intro a ha hloc
    have := hl (Loc.next a)
    rw [if_neg hloc, if_neg (fun h => hrem (by injection h with h; exact h ▸ ha))] at this
    exact this

/-- Witness for C14: a request of 32 bytes splits the free block of 64 bytes of
`demoState`. -/
theorem C14_witness :
    (popFreeBlk (locAt Loc.head [4096] 0) 32 demoState).1 = 4096 + METADATA_SIZE ∧
    FreeList (popFreeBlk (locAt Loc.head [4096] 0) 32 demoState).2 Loc.head
      (([4096] : List Nat).take 0 ++ (4096 + METADATA_SIZE + 32) :: ([4096] : List Nat).drop 1) ∧
    ((popFreeBlk (locAt Loc.head [4096] 0) 32 demoState).2.mem
      (4096 + METADATA_SIZE + 32)).size = (demoState.mem 4096).size - 32 - METADATA_SIZE ∧
    1 ≤ ((popFreeBlk (locAt Loc.head [4096] 0) 32 demoState).2.mem
      (4096 + METADATA_SIZE + 32)).size ∧
    ((popFreeBlk (locAt Loc.head [4096] 0) 32 demoState).2.mem
      (4096 + METADATA_SIZE + 32)).next = (demoState.mem 4096).next ∧
    ((popFreeBlk (locAt Loc.head [4096] 0) 32 demoState).2.mem 4096).size = 32 ∧
    (∀ a ∈ [4096], a ≠ 4096 →
      ((popFreeBlk (locAt Loc.head [4096] 0) 32 demoState).2.mem a).size =
        (demoState.mem a).size) ∧
    (∀ a ∈ [4096], Loc.next a ≠ locAt Loc.head [4096] 0 →
      ((popFreeBlk (locAt Loc.head [4096] 0) 32 demoState).2.mem a).next =
        (demoState.mem a).next) :=
  C14_split_postcondition demoState Loc.head [4096] 0 32 demoState_wf (by decide) (by decide)

/-- C15: pop without split.  For every entry `e = xs[i]` of a well-formed free
list with `n <= e.size`: when `e.size <= n + H` the entry is unlinked entirely
(the link that held it holds its old successor), every recorded size, that of
`e` included, and every other link are unchanged, the list has exactly one
entry less, and `e + H` is returned; and the pop splits the block, leaving a
list as long as before, if and only if `e.size > n + H`, which is also what the
test of `popFreeBlk` computes modulo `2 ^ 64`. -/
theorem C15_no_split_pop (s : State) (hd : Loc) (xs : List Nat) (i n : Nat)
    (w : WF s hd xs) (hi : i < xs.length) (hge : n ≤ (s.mem xs[i]).size) :
    ((s.mem xs[i]).size ≤ n + METADATA_SIZE →
      (popFreeBlk (locAt hd xs i) n s).1 = xs[i] + METADATA_SIZE ∧
      FreeList (popFreeBlk (locAt hd xs i) n s).2 hd (xs.take i ++ xs.drop (i + 1)) ∧
      (xs.take i ++ xs.drop (i + 1)).length + 1 = xs.length ∧
      (popFreeBlk (locAt hd xs i) n s).2.load (locAt hd xs i) = (s.mem xs[i]).next ∧
      (∀ a, ((popFreeBlk (locAt hd xs i) n s).2.mem a).size = (s.mem a).size) ∧
      (∀ l, l ≠ locAt hd xs i → (popFreeBlk (locAt hd xs i) n s).2.load l = s.load l)) ∧
    ((∃ xs', FreeList (popFreeBlk (locAt hd xs i) n s).2 hd xs' ∧ xs'.length = xs.length) ↔
      (s.mem xs[i]).size > n + METADATA_SIZE) ∧
    (((s.mem (s.load (locAt hd xs i))).size > (n + METADATA_SIZE) % WORD) ↔
      (s.mem xs[i]).size > n + METADATA_SIZE) := by
  have hlen : (xs.take i ++ xs.drop (i + 1)).length + 1 = xs.length := by
    simp only [List.length_append, List.length_take, List.length_drop]
    omega
  refine ⟨fun hle => ?_, ⟨fun hx => ?_, fun hgt => ?_⟩, split_test_exact w hi hge⟩
  · obtain ⟨h1, h2, h3, h4, _⟩ := popFreeBlk_nosplit_spec w hi hge hle
    exact ⟨h1, h2, hlen, popFreeBlk_nosplit_link w hi hge hle, h3, h4⟩
  · by_contra hgt
    obtain ⟨xs', hfl, hl⟩ := hx
    obtain ⟨_, h2, _⟩ := popFreeBlk_nosplit_spec w hi hge (Nat.le_of_not_lt hgt)
    rw [hfl.unique h2] at hl
    omega
  · obtain ⟨_, h2, _⟩ := popFreeBlk_split_spec w hi hgt
    refine ⟨_, h2, ?_⟩
    simp only [List.length_append, List.length_cons, List.length_take, List.length_drop]
    omega

/-- Witness for C15: a request of 64 bytes takes the whole free block of 64
bytes of `demoState`. -/
theorem C15_witness :
    ((demoState.mem 4096).size ≤ 64 + METADATA_SIZE →
      (popFreeBlk (locAt Loc.head [4096] 0) 64 demoState).1 = 4096 + METADATA_SIZE ∧
      FreeList (popFreeBlk (locAt Loc.head [4096] 0) 64 demoState).2 Loc.head
        (([4096] : List Nat).take 0 ++ ([4096] : List Nat).drop 1) ∧
      (([4096] : List Nat).take 0 ++ ([4096] : List Nat).drop 1).length + 1 =
        ([4096] : List Nat).length ∧
      (popFreeBlk (locAt Loc.head [4096] 0) 64 demoState).2.load (locAt Loc.head [4096] 0) =
        (demoState.mem 4096).next ∧
      (∀ a, ((popFreeBlk (locAt Loc.head [4096] 0) 64 demoState).2.mem a).size =
        (demoState.mem a).size) ∧
      (∀ l, l ≠ locAt Loc.head [4096] 0 →
        (popFreeBlk (locAt Loc.head [4096] 0) 64 demoState).2.load l = demoState.load l)) ∧
    ((∃ xs', FreeList (popFreeBlk (locAt Loc.head [4096] 0) 64 demoState).2 Loc.head xs' ∧
        xs'.length = ([4096] : List Nat).length) ↔
      (demoState.mem 4096).size > 64 + METADATA_SIZE) ∧
    (((demoState.mem (demoState.load (locAt Loc.head [4096] 0))).size >
        (64 + METADATA_SIZE) % WORD) ↔
      (demoState.mem 4096).size > 64 + METADATA_SIZE) :=
  C15_no_split_pop demoState Loc.head [4096] 0 64 demoState_wf (by decide) (by decide)

/-- C16 (the code at the failing input): `ts_malloc_lock (2 ^ 64 - 8)` on a fresh
heap at 4096.  The free list is empty, `sbrk` is called with
`(16 + n) mod 2 ^ 64 = 8` and succeeds, yet the break advances by 8 and the
counter grows by 8, not by `H + n`.  And `ts_malloc_lock (2 ^ 64 - 32)` after
`allocate 64`: `sbrk` is called with `2 ^ 64 - 16`, which it reads as the
increment `-16`; it succeeds and the break moves back by 16. -/
theorem C16_miss_wrong_growth :
    (WF (initState 4096 65536) Loc.head [] ∧
      (sbrk ((METADATA_SIZE + (2 ^ 64 - 8)) % WORD) (initState 4096 65536)).1 ≠ SBRK_FAILED ∧
      ∃ r, ts_malloc_lock 2 (2 ^ 64 - 8) (initState 4096 65536) = some r ∧
        r.2.brk = (initState 4096 65536).brk + 8 ∧
        r.2.entire_heap_size = (initState 4096 65536).entire_heap_size + 8 ∧
        r.2.brk ≠ (initState 4096 65536).brk + (METADATA_SIZE + (2 ^ 64 - 8)) ∧
        r.2.entire_heap_size ≠
          (initState 4096 65536).entire_heap_size + (METADATA_SIZE + (2 ^ 64 - 8))) ∧
    (WF (runFrom okGrants 2 4096 65536 [Op.malloc 64]).1 Loc.head [] ∧
      (sbrk ((METADATA_SIZE + (2 ^ 64 - 32)) % WORD)
        (runFrom okGrants 2 4096 65536 [Op.malloc 64]).1).1 ≠ SBRK_FAILED ∧
      ∃ r, ts_malloc_lock 2 (2 ^ 64 - 32)
          (runFrom okGrants 2 4096 65536 [Op.malloc 64]).1 = some r ∧
        r.2.brk + 16 = (runFrom okGrants 2 4096 65536 [Op.malloc 64]).1.brk) :=
  ⟨⟨⟨head_root, by decide, by decide, by decide, by decide, by decide⟩, by decide, _,
    option_eq_some_getD (0, initState 0 0) (by decide), by decide, by decide, by decide,
    by decide⟩,
   ⟨⟨head_root, by decide, by decide, by decide, by decide, by decide⟩, by decide, _,
    option_eq_some_getD (0, initState 0 0) (by decide), by decide⟩⟩

/-- C17 (divergence): for `size = 2 ^ 64 - 8` the byte count `(H + size) mod 2 ^ 64`
that `reqSysBlk` passes to `sbrk` and adds to `entire_heap_size` is 8, not
`H + size`: on a fresh heap at 4096 the break advances by 8 bytes while the
header written at 4096 records `2 ^ 64 - 8` bytes, so the region obtained is
smaller than the header plus the recorded size.  Likewise the split test of
`popFreeBlk` wraps: for the entry of `wrapState` at 4096, of recorded size
`2 ^ 64 - 8`, and a request of `2 ^ 64 - 16` bytes the test computed modulo
`2 ^ 64` holds although the size does not exceed the exact sum. -/
theorem C17_byte_count_wraps :
    (METADATA_SIZE + (2 ^ 64 - 8)) % WORD = 8 ∧
    (sbrk ((METADATA_SIZE + (2 ^ 64 - 8)) % WORD) (initState 4096 65536)).1 = 4096 ∧
    (reqSysBlk (2 ^ 64 - 8) (initState 4096 65536)).2.brk = 4096 + 8 ∧
    (reqSysBlk (2 ^ 64 - 8) (initState 4096 65536)).2.entire_heap_size = 8 ∧
    ((reqSysBlk (2 ^ 64 - 8) (initState 4096 65536)).2.mem 4096).size = 2 ^ 64 - 8 ∧
    (wrapState.1.mem (wrapState.1.load Loc.head)).size >
      ((2 ^ 64 - 16) + METADATA_SIZE) % WORD ∧
    ¬ (wrapState.1.mem (wrapState.1.load Loc.head)).size > (2 ^ 64 - 16) + METADATA_SIZE := by
  decide

/-- C18: coalescing insert.  For every well-formed free list and every block `b`
that is not on the list and lies inside the heap, `free` of its payload
returns, and afterwards the addresses covered by the free-list entries are
those covered before together with `[b, b + H + b.size)`; the entries other
than the predecessor and the successor of `b` are unchanged; the length of the
list changes by +1, 0 or -1; and the list is: the old list with `b` inserted
when `b` touches neither neighbour, the old list with the predecessor grown by
`H + b.size` when only the predecessor ends at `b`, with `b` grown by
`H + succ.size` in place of the successor when only the successor starts at
the end of `b`, and with one entry at the address of the predecessor, of size
`pred.size + b.size + succ.size + 2H`, in place of both when `b` touches both. -/
theorem C18_coalescing_insert (s : State) (xs : List Nat) (b fuel : Nat)
    (w : WF s Loc.head xs) (hb : b ∉ xs) (hb0 : b ≠ NULL)
    (hbh : b + METADATA_SIZE + (s.mem b).size ≤ s.brk) (hf : xs.length < fuel) :
    ∃ s' xs', ts_free_lock fuel (b + METADATA_SIZE) s = some s' ∧
      FreeList s' Loc.head xs' ∧
      (∀ a, Covered (blocksOf s' xs') a ↔
        Covered (blocksOf s xs) a ∨ (b ≤ a ∧ a < b + METADATA_SIZE + (s.mem b).size)) ∧
      (blocksBelow s xs b).dropLast <+: blocksOf s' xs' ∧
      (blocksAbove s xs b).tail <:+ blocksOf s' xs' ∧
      (xs'.length = xs.length + 1 ∨ xs'.length = xs.length ∨ xs'.length + 1 = xs.length) ∧
      ((∀ p ∈ (blocksBelow s xs b).getLast?, endOf p ≠ b) →
        (∀ c ∈ (blocksAbove s xs b).head?, b + METADATA_SIZE + (s.mem b).size ≠ c.1) →
        blocksOf s' xs' = blocksBelow s xs b ++ (b, (s.mem b).size) :: blocksAbove s xs b) ∧
      (∀ p ∈ (blocksBelow s xs b).getLast?, endOf p = b →
        (∀ c ∈ (blocksAbove s xs b).head?, b + METADATA_SIZE + (s.mem b).size ≠ c.1) →
        blocksOf s' xs' = (blocksBelow s xs b).dropLast ++
          (p.1, p.2 + (METADATA_SIZE + (s.mem b).size)) :: blocksAbove s xs b) ∧
      ((∀ p ∈ (blocksBelow s xs b).getLast?, endOf p ≠ b) →
        ∀ c ∈ (blocksAbove s xs b).head?, b + METADATA_SIZE + (s.mem b).size = c.1 →
        blocksOf s' xs' = blocksBelow s xs b ++
          (b, (s.mem b).size + (METADATA_SIZE + c.2)) :: (blocksAbove s xs b).tail) ∧
      (∀ p ∈ (blocksBelow s xs b).getLast?, endOf p = b →
        ∀ c ∈ (blocksAbove s xs b).head?, b + METADATA_SIZE + (s.mem b).size = c.1 →
        blocksOf s' xs' = (blocksBelow s xs b).dropLast ++
          (p.1, p.2 + (s.mem b).size + c.2 + 2 * METADATA_SIZE) ::
            (blocksAbove s xs b).tail) := by
  obtain ⟨s', xs', f1, f2, f3, _, _, _⟩ := freeFrom_coalesce w.chained hb hb0 hbh hf
  have hsplit : blocksOf s xs = blocksBelow s xs b ++ blocksAbove s xs b := by
    unfold blocksBelow blocksAbove
    rw [← blocksOf_append, List.take_append_drop]
  have f3' : blocksOf s' xs' =
      coalesce (blocksBelow s xs b) (b, (s.mem b).size) (blocksAbove s xs b) := f3
  obtain ⟨s1, s2, s3, s4⟩ :=
    coalesce_shape (blocksBelow s xs b) (b, (s.mem b).size) (blocksAbove s xs b)
  obtain ⟨r1, r2, r3⟩ :=
    coalesce_rest (blocksBelow s xs b) (b, (s.mem b).size) (blocksAbove s xs b)
  refine ⟨s', xs', f1, f2.chain, ?_, ?_, ?_, ?_, ?_, ?_, ?_, ?_⟩
  · intro a
    rw [f3', covered_coalesce, hsplit]
    rfl
  · rw [f3']; exact r1
  · rw [f3']; exact r2
  · rw [← f3', ← hsplit, blocksOf_length, blocksOf_length] at r3
    exact r3
  · intro h1 h2
    rw [f3']; exact s1 h1 h2
  · intro p hp h1 h2
    rw [f3']; exact s2 p hp h1 h2
  · intro h1 c hc h2
    rw [f3']; exact s3 h1 c hc h2
  · intro p hp h1 c hc h2
    rw [f3']; exact s4 p hp h1 c hc h2

/-- Witness for C18: the release of the allocated block of 128 bytes at 4176 in
`demoState`; its predecessor on the list, the block of 64 bytes at 4096, ends
at 4176. -/
theorem C18_witness :
    ∃ s' xs', ts_free_lock 4 (4176 + METADATA_SIZE) demoState = some s' ∧
      FreeList s' Loc.head xs' ∧
      (∀ a, Covered (blocksOf s' xs') a ↔
        Covered (blocksOf demoState [4096]) a ∨
          (4176 ≤ a ∧ a < 4176 + METADATA_SIZE + (demoState.mem 4176).size)) ∧
      (blocksBelow demoState [4096] 4176).dropLast <+: blocksOf s' xs' ∧
      (blocksAbove demoState [4096] 4176).tail <:+ blocksOf s' xs' ∧
      (xs'.length = [4096].length + 1 ∨ xs'.length = [4096].length ∨
        xs'.length + 1 = [4096].length) ∧
      ((∀ p ∈ (blocksBelow demoState [4096] 4176).getLast?, endOf p ≠ 4176) →
        (∀ c ∈ (blocksAbove demoState [4096] 4176).head?,
          4176 + METADATA_SIZE + (demoState.mem 4176).size ≠ c.1) →
        blocksOf s' xs' = blocksBelow demoState [4096] 4176 ++
          (4176, (demoState.mem 4176).size) :: blocksAbove demoState [4096] 4176) ∧
      (∀ p ∈ (blocksBelow demoState [4096] 4176).getLast?, endOf p = 4176 →
        (∀ c ∈ (blocksAbove demoState [4096] 4176).head?,
          4176 + METADATA_SIZE + (demoState.mem 4176).size ≠ c.1) →
        blocksOf s' xs' = (blocksBelow demoState [4096] 4176).dropLast ++
          (p.1, p.2 + (METADATA_SIZE + (demoState.mem 4176).size)) ::
            blocksAbove demoState [4096] 4176) ∧
      ((∀ p ∈ (blocksBelow demoState [4096] 4176).getLast?, endOf p ≠ 4176) →
        ∀ c ∈ (blocksAbove demoState [4096] 4176).head?,
          4176 + METADATA_SIZE + (demoState.mem 4176).size = c.1 →
        blocksOf s' xs' = blocksBelow demoState [4096] 4176 ++
          (4176, (demoState.mem 4176).size + (METADATA_SIZE + c.2)) ::
            (blocksAbove demoState [4096] 4176).tail) ∧
      (∀ p ∈ (blocksBelow demoState [4096] 4176).getLast?, endOf p = 4176 →
        ∀ c ∈ (blocksAbove demoState [4096] 4176).head?,
          4176 + METADATA_SIZE + (demoState.mem 4176).size = c.1 →
        blocksOf s' xs' = (blocksBelow demoState [4096] 4176).dropLast ++
          (p.1, p.2 + (demoState.mem 4176).size + c.2 + 2 * METADATA_SIZE) ::
            (blocksAbove demoState [4096] 4176).tail) :=
  C18_coalescing_insert demoState [4096] 4176 4 demoState_wf (by decide) (by decide)
    (by decide) (by decide)

/-- C19: for every well-formed free list without adjacent entries and every
`n > 0` such that some entry has size at least `n`, `p = allocate(n)` followed
by `free(p)` returns and leaves a free list identical to the initial one entry
for entry: the same headers in the same order with the same sizes, whether or
not the block was split. -/
theorem C19_allocate_free_round_trip (s : State) (xs : List Nat) (n fuel : Nat)
    (hn : n ≠ 0) (hf : xs.length < fuel) (w : WF s Loc.head xs)
    (hsep : Separated (blocksOf s xs)) (hbig : ∃ a ∈ xs, n ≤ (s.mem a).size) :
    ∃ r s', ts_malloc_lock fuel n s = some r ∧ ts_free_lock fuel r.1 r.2 = some s' ∧
      FreeList s' Loc.head xs ∧ blocksOf s' xs = blocksOf s xs := by
  cases hbf : bestFit n (sizesOf s xs) with
  | none =>
    exfalso
    obtain ⟨a, ha, hge⟩ := hbig
    have := bestFit_none_iff_sizes.1 hbf a ha
    omega
  | some i =>
    obtain ⟨r, s', m1, _, m3, w', m5, _⟩ := malloc_free_roundtrip w hsep hn hbf hf
    exact ⟨r, s', m1, m3, w'.chain, m5⟩

/-- Witness for C19: a request of 32 bytes on `demoState` splits the free block
of 64 bytes at 4096; the release merges the two parts again. -/
theorem C19_witness :
    ∃ r s', ts_malloc_lock 4 32 demoState = some r ∧ ts_free_lock 4 r.1 r.2 = some s' ∧
      FreeList s' Loc.head [4096] ∧ blocksOf s' [4096] = blocksOf demoState [4096] :=
  C19_allocate_free_round_trip demoState [4096] 32 4 (by decide) (by decide) demoState_wf
    (by decide) ⟨4096, by decide, by decide⟩

end TSMalloc
